import Mathlib

/-!
Verification of the `statistical-aggregation` library (`src/aggregate.ts` and the
BigNumber variant shipped as `src/unnamed/part_000`, which is the variant exercised
by the repository's own test suite `src/test/index.test.ts`).

The development shallowly embeds the aggregation engine:

* numbers are modelled by `StatAgg.JsNum`: exact rationals plus the IEEE-style
  special values `Infinity`, `-Infinity` and `NaN` that both plain JS numbers and
  `bignumber.js` values exhibit.  The BigNumber variant performs exact decimal
  addition and multiplication on the inputs that occur here, so `ℚ` models the
  accumulator arithmetic faithfully; division and square roots of derived outputs
  are exact-rational stand-ins (the claims checked below depend only on their
  zero/sign/NaN behaviour, never on rounded digits).
* records are finite maps from (flattened) lodash paths to values, with the
  reserved `_aggregationMetadata` key held in a separate `meta` component (the
  spec requires the reserved key never to collide with caller paths).
* fallible JS operations (thrown `Error`s and `TypeError`s from property reads on
  `undefined`) are modelled with `Except`.

Rational arithmetic is implemented through `mkRat` (kernel-computable) and proved
equal to the Mathlib field operations, so that concrete runs of the engine can be
evaluated by `decide` while algebraic lemmas can use `ring`-style automation.
-/

namespace StatAgg

/-! ### Kernel-computable rational arithmetic -/

/-- Addition on `ℚ` via `mkRat`; kernel-reducible (Mathlib's `Rat.add` is irreducible). -/
def qadd (a b : ℚ) : ℚ := mkRat (a.num * b.den + b.num * a.den) (a.den * b.den)

/-- Multiplication on `ℚ` via `mkRat`; kernel-reducible. -/
def qmul (a b : ℚ) : ℚ := mkRat (a.num * b.num) (a.den * b.den)

/-- Negation on `ℚ` via `mkRat`; kernel-reducible. -/
def qneg (a : ℚ) : ℚ := mkRat (-a.num) a.den

/-- Division on `ℚ` via `mkRat`; kernel-reducible.  Division by zero yields `0`
exactly as Mathlib's `/` does (the engine wraps this with explicit NaN/Infinity
handling before it is ever reached with a zero denominator). -/
def qdiv (a b : ℚ) : ℚ :=
  if b.num < 0 then mkRat (-(a.num * b.den)) (a.den * b.num.natAbs)
  else mkRat (a.num * b.den) (a.den * b.num.natAbs)

theorem qadd_eq (a b : ℚ) : qadd a b = a + b := by
  have ha : ((a.den : ℚ)) ≠ 0 := by exact_mod_cast a.den_nz
  have hb : ((b.den : ℚ)) ≠ 0 := by exact_mod_cast b.den_nz
  rw [qadd, Rat.mkRat_eq_div]
  push_cast
  conv_rhs => rw [← Rat.num_div_den a, ← Rat.num_div_den b]
  rw [div_add_div _ _ ha hb]
  ring_nf

theorem qmul_eq (a b : ℚ) : qmul a b = a * b := by
  rw [qmul, Rat.mkRat_eq_div]
  push_cast
  conv_rhs => rw [← Rat.num_div_den a, ← Rat.num_div_den b]
  rw [div_mul_div_comm]

theorem qneg_eq (a : ℚ) : qneg a = -a := by
  rw [qneg, Rat.mkRat_eq_div]
  push_cast
  rw [neg_div, Rat.num_div_den]

theorem qdiv_eq (a b : ℚ) : qdiv a b = a / b := by
  have ha : ((a.den : ℚ)) ≠ 0 := by exact_mod_cast a.den_nz
  have hb : ((b.den : ℚ)) ≠ 0 := by exact_mod_cast b.den_nz
  rcases lt_trichotomy b.num 0 with hneg | hzero | hpos
  · have hbn : ((b.num : ℚ)) ≠ 0 := by exact_mod_cast hneg.ne
    rw [qdiv, if_pos hneg, Rat.mkRat_eq_div]
    push_cast [Int.cast_natAbs]
    rw [abs_of_neg (by exact_mod_cast hneg : ((b.num : ℚ)) < 0)]
    conv_rhs => rw [← Rat.num_div_den a, ← Rat.num_div_den b]
    rw [div_div_div_comm]
    field_simp
    exact Or.inl (mul_comm _ _)
  · rw [qdiv, if_neg (by omega), Rat.mkRat_eq_div]
    have hb0 : b = 0 := by
      have := Rat.num_div_den b
      rw [hzero] at this
      simpa using this.symm
    subst hb0
    simp
  · have hbn : ((b.num : ℚ)) ≠ 0 := by exact_mod_cast hpos.ne'
    rw [qdiv, if_neg (by omega), Rat.mkRat_eq_div]
    push_cast [Int.cast_natAbs]
    rw [abs_of_pos (by exact_mod_cast hpos : (0 : ℚ) < (b.num : ℚ))]
    conv_rhs => rw [← Rat.num_div_den a, ← Rat.num_div_den b]
    rw [div_div_div_comm]
    field_simp
    exact Or.inl (mul_comm _ _)

theorem qsub_eq (a b : ℚ) : qadd a (qneg b) = a - b := by
  rw [qadd_eq, qneg_eq, sub_eq_add_neg]

/-! ### JS / BigNumber numbers -/

/-- A JS (plain `number` or `bignumber.js`) numeric value: a finite exact value,
`Infinity`, `-Infinity`, or `NaN`. -/
inductive JsNum
  | fin (q : ℚ)
  | inf
  | ninf
  | nan
deriving DecidableEq

namespace JsNum

/-- Addition with IEEE special-value rules (`BigNumber.plus` follows the same rules). -/
def add : JsNum → JsNum → JsNum
  | fin a, fin b => fin (qadd a b)
  | fin _, inf => inf
  | fin _, ninf => ninf
  | fin _, nan => nan
  | inf, fin _ => inf
  | inf, inf => inf
  | inf, ninf => nan
  | inf, nan => nan
  | ninf, fin _ => ninf
  | ninf, inf => nan
  | ninf, ninf => ninf
  | ninf, nan => nan
  | nan, _ => nan

/-- Multiplication with IEEE special-value rules (`BigNumber.times` follows the same rules). -/
def mul : JsNum → JsNum → JsNum
  | fin a, fin b => fin (qmul a b)
  | fin a, inf => if a = 0 then nan else if 0 < a then inf else ninf
  | fin a, ninf => if a = 0 then nan else if 0 < a then ninf else inf
  | fin _, nan => nan
  | inf, fin b => if b = 0 then nan else if 0 < b then inf else ninf
  | inf, inf => inf
  | inf, ninf => ninf
  | inf, nan => nan
  | ninf, fin b => if b = 0 then nan else if 0 < b then ninf else inf
  | ninf, inf => ninf
  | ninf, ninf => inf
  | ninf, nan => nan
  | nan, _ => nan

/-- Division with IEEE special-value rules; `BigNumber.div` by zero gives a signed
`Infinity` and `0/0` gives `NaN`. -/
def div : JsNum → JsNum → JsNum
  | fin a, fin b =>
    if b = 0 then (if a = 0 then nan else if 0 < a then inf else ninf)
    else fin (qdiv a b)
  | fin _, inf => fin 0
  | fin _, ninf => fin 0
  | fin _, nan => nan
  | inf, fin b => if 0 ≤ b then inf else ninf
  | inf, inf => nan
  | inf, ninf => nan
  | inf, nan => nan
  | ninf, fin b => if 0 ≤ b then ninf else inf
  | ninf, inf => nan
  | ninf, ninf => nan
  | ninf, nan => nan
  | nan, _ => nan

/-- Subtraction, used by the standard-deviation derivation. -/
def sub (a b : JsNum) : JsNum :=
  add a (match b with
    | fin q => fin (qneg q)
    | inf => ninf
    | ninf => inf
    | nan => nan)

/-- `BigNumber.min`: NaN-propagating minimum. -/
def minN : JsNum → JsNum → JsNum
  | fin a, fin b => fin (min a b)
  | fin a, inf => fin a
  | fin _, ninf => ninf
  | fin _, nan => nan
  | inf, fin b => fin b
  | inf, inf => inf
  | inf, ninf => ninf
  | inf, nan => nan
  | ninf, fin _ => ninf
  | ninf, inf => ninf
  | ninf, ninf => ninf
  | ninf, nan => nan
  | nan, _ => nan

/-- `BigNumber.max`: NaN-propagating maximum. -/
def maxN : JsNum → JsNum → JsNum
  | fin a, fin b => fin (max a b)
  | fin _, inf => inf
  | fin a, ninf => fin a
  | fin _, nan => nan
  | inf, fin _ => inf
  | inf, inf => inf
  | inf, ninf => inf
  | inf, nan => nan
  | ninf, fin b => fin b
  | ninf, inf => inf
  | ninf, ninf => ninf
  | ninf, nan => nan
  | nan, _ => nan

/-- JS `<=` as used by `value <= endpoint`: any comparison with NaN is false. -/
def leb : JsNum → JsNum → Bool
  | nan, _ => false
  | _, nan => false
  | ninf, _ => true
  | fin _, ninf => false
  | inf, ninf => false
  | fin a, fin b => a ≤ b
  | fin _, inf => true
  | inf, fin _ => false
  | inf, inf => true

/-- `BigNumber.sqrt`: negative values give NaN.  On the nonnegative finite branch
`Rat.sqrt` stands in for the (rounded decimal) square root; no claim below depends
on the digits of a positive square root, only on the NaN/zero behaviour. -/
def sqrtN : JsNum → JsNum
  | fin q => if q < 0 then nan else fin (Rat.sqrt q)
  | inf => inf
  | ninf => nan
  | nan => nan

theorem add_zero_left (x : JsNum) : add (fin 0) x = x := by
  cases x <;> simp [add, qadd_eq]

theorem add_zero_right (x : JsNum) : add x (fin 0) = x := by
  cases x <;> simp [add, qadd_eq]

theorem add_assoc (a b c : JsNum) : add (add a b) c = add a (add b c) := by
  cases a <;> cases b <;> cases c <;> simp [add, qadd_eq] <;> ring

theorem add_comm (a b : JsNum) : add a b = add b a := by
  cases a <;> cases b <;> simp [add, qadd_eq] <;> ring

theorem minN_inf_left (x : JsNum) : minN inf x = x := by
  cases x <;> simp [minN]

theorem minN_assoc (a b c : JsNum) : minN (minN a b) c = minN a (minN b c) := by
  cases a <;> cases b <;> cases c <;> simp [minN, min_assoc]

theorem minN_comm (a b : JsNum) : minN a b = minN b a := by
  cases a <;> cases b <;> simp [minN, min_comm]

theorem maxN_ninf_left (x : JsNum) : maxN ninf x = x := by
  cases x <;> simp [maxN]

theorem maxN_assoc (a b c : JsNum) : maxN (maxN a b) c = maxN a (maxN b c) := by
  cases a <;> cases b <;> cases c <;> simp [maxN, max_assoc]

theorem maxN_comm (a b : JsNum) : maxN a b = maxN b a := by
  cases a <;> cases b <;> simp [maxN, max_comm]

end JsNum

/-! ### Decimal printing and parsing

JS renders numbers in decimal and compares strings by code units.  The printer
below is exact for integers (the only numeric values that reach labels and group
keys in the claims); non-integer rationals are printed in a `num/den` normal form,
documented as a stand-in for JS decimal/scientific notation. -/

/-- Little-endian base-10 digits computed with explicit fuel so that the kernel
can evaluate it (`Nat.digits` uses well-founded recursion). -/
def natDigitsAux : ℕ → ℕ → List ℕ
  | 0, _ => []
  | _ + 1, 0 => []
  | fuel + 1, n + 1 => ((n + 1) % 10) :: natDigitsAux fuel ((n + 1) / 10)

theorem natDigitsAux_eq (fuel n : ℕ) (h : n ≤ fuel) :
    natDigitsAux fuel n = Nat.digits 10 n := by
  induction fuel generalizing n with
  | zero =>
    interval_cases n
    simp [natDigitsAux]
  | succ fuel ih =>
    match n with
    | 0 => simp [natDigitsAux]
    | n + 1 =>
      rw [natDigitsAux, Nat.digits_def' (by norm_num : 1 < 10) (Nat.succ_pos n),
        ih _ (by
          have := Nat.div_lt_self (Nat.succ_pos n) (by norm_num : 1 < 10)
          omega)]

/-- The character for a decimal digit. -/
def digitChr (d : ℕ) : Char := Char.ofNat (48 + d)

/-- Decimal printing of a natural number. -/
def natToStr (n : ℕ) : String :=
  if n = 0 then "0" else ⟨((natDigitsAux n n).map digitChr).reverse⟩

/-- Decimal printing of an integer (JS `String(x)` for integral values). -/
def intToStr : ℤ → String
  | .ofNat n => natToStr n
  | .negSucc m => "-" ++ natToStr (m + 1)

/-- Printing of a rational: exact decimal for integers; a `num/den` normal form
otherwise (a stand-in for the decimal/scientific output of JS, which no claim
below inspects for non-integer values). -/
def ratToStr (q : ℚ) : String :=
  if q.den = 1 then intToStr q.num else intToStr q.num ++ "/" ++ natToStr q.den

/-- Is `c` one of the characters `0`-`9`? -/
def isDigitChr (c : Char) : Bool := 48 ≤ c.toNat && c.toNat ≤ 57

/-- Value of a string of digit characters, most significant first. -/
def digitsVal (l : List Char) : ℕ := l.foldl (fun acc c => 10 * acc + (c.toNat - 48)) 0

/-- JS `Number(...)` restricted to optional-sign decimal integer literals: the
empty string converts to `0`, non-numeric strings to NaN.  (Full JS `ToNumber`
also accepts decimal points, exponents and whitespace, none of which occur in the
strings the engine produces or the claims exercise.) -/
def parseNumChars (l : List Char) : JsNum :=
  match l with
  | [] => .fin 0
  | c :: rest =>
    if c = '-' then
      if rest = [] then .nan
      else if rest.all isDigitChr then .fin (-(digitsVal rest : ℚ)) else .nan
    else if (c :: rest).all isDigitChr then .fin (digitsVal (c :: rest)) else .nan

theorem digitChr_toNat {d : ℕ} (h : d < 10) : (digitChr d).toNat = 48 + d := by
  interval_cases d <;> decide

theorem isDigitChr_digitChr {d : ℕ} (h : d < 10) : isDigitChr (digitChr d) = true := by
  interval_cases d <;> decide

theorem digitChr_ne_dash {d : ℕ} (h : d < 10) : digitChr d ≠ '-' := by
  interval_cases d <;> decide

theorem digitsVal_append_digit (l : List Char) {d : ℕ} (h : d < 10) :
    digitsVal (l ++ [digitChr d]) = 10 * digitsVal l + d := by
  rw [digitsVal, List.foldl_append]
  simp [digitsVal, digitChr_toNat h]

theorem digitsVal_reverse_digits (L : List ℕ) (h : ∀ d ∈ L, d < 10) :
    digitsVal ((L.map digitChr).reverse) = Nat.ofDigits 10 L := by
  induction L with
  | nil => simp [digitsVal, Nat.ofDigits]
  | cons d L ih =>
    have hd : d < 10 := h d (List.mem_cons_self d L)
    rw [List.map_cons, List.reverse_cons, digitsVal_append_digit _ hd,
      ih (fun x hx => h x (List.mem_cons_of_mem d hx)), Nat.ofDigits_cons]
    ring

theorem parseNumChars_natToStr (n : ℕ) : parseNumChars (natToStr n).data = .fin n := by
  by_cases h0 : n = 0
  · subst h0
    decide
  · have hd : natDigitsAux n n = Nat.digits 10 n := natDigitsAux_eq n n le_rfl
    have hlt : ∀ d ∈ Nat.digits 10 n, d < 10 :=
      fun d hdm => Nat.digits_lt_base (by norm_num) hdm
    have hne : Nat.digits 10 n ≠ [] := Nat.digits_ne_nil_iff_ne_zero.mpr h0
    rw [natToStr, if_neg h0]
    have hdata : (String.mk (((natDigitsAux n n).map digitChr).reverse)).data
        = ((Nat.digits 10 n).map digitChr).reverse := by rw [hd]
    rw [hdata]
    have hall : ∀ c ∈ ((Nat.digits 10 n).map digitChr).reverse, isDigitChr c = true := by
      intro c hc
      rw [List.mem_reverse, List.mem_map] at hc
      obtain ⟨d, hdm, rfl⟩ := hc
      exact isDigitChr_digitChr (hlt d hdm)
    match hrev : ((Nat.digits 10 n).map digitChr).reverse with
    | [] =>
      exfalso
      apply hne
      have := congrArg List.length hrev
      simpa using List.length_eq_zero.mp (by simpa using this)
    | c :: rest =>
      have hcmem : c ∈ ((Nat.digits 10 n).map digitChr).reverse := by
        rw [hrev]; exact List.mem_cons_self c rest
      have hcdash : c ≠ '-' := by
        rw [List.mem_reverse, List.mem_map] at hcmem
        obtain ⟨d, hdm, rfl⟩ := hcmem
        exact digitChr_ne_dash (hlt d hdm)
      rw [parseNumChars, if_neg hcdash, if_pos]
      · rw [← hrev, digitsVal_reverse_digits _ hlt, Nat.ofDigits_digits]
      · rw [List.all_eq_true, ← hrev]
        exact hall

/-! ### Lexicographic string comparison

JS `Array.prototype.sort` without a comparator converts elements to strings and
compares them by code units.  `charsLtb` is that comparison on the underlying
character lists (code points and UTF-16 code units agree on the ASCII strings the
engine produces). -/

/-- Lexicographic strict comparison of character lists by code point. -/
def charsLtb : List Char → List Char → Bool
  | [], [] => false
  | [], _ :: _ => true
  | _ :: _, [] => false
  | c :: cs, d :: ds =>
    if c.toNat < d.toNat then true
    else if d.toNat < c.toNat then false
    else charsLtb cs ds

theorem charsLtb_irrefl (l : List Char) : charsLtb l l = false := by
  induction l with
  | nil => rfl
  | cons c cs ih => simp [charsLtb, ih]

theorem charsLtb_asymm {a b : List Char} (h : charsLtb a b = true) : charsLtb b a = false := by
  induction a generalizing b with
  | nil =>
    cases b with
    | nil => simpa [charsLtb] using h
    | cons d ds => simp [charsLtb]
  | cons c cs ih =>
    cases b with
    | nil => simp [charsLtb] at h
    | cons d ds =>
      rw [charsLtb] at h ⊢
      split_ifs at h ⊢ <;> first | rfl | omega | exact ih h | simp_all

theorem charsLtb_trans {a b c : List Char} (hab : charsLtb a b = true)
    (hbc : charsLtb b c = true) : charsLtb a c = true := by
  induction a generalizing b c with
  | nil =>
    cases c with
    | nil =>
      cases b with
      | nil => simpa [charsLtb] using hab
      | cons d ds => simp [charsLtb] at hbc
    | cons e es => simp [charsLtb]
  | cons x xs ih =>
    cases b with
    | nil => simp [charsLtb] at hab
    | cons d ds =>
      cases c with
      | nil => simp [charsLtb] at hbc
      | cons e es =>
        rw [charsLtb] at hab hbc ⊢
        split_ifs at hab hbc ⊢ <;>
          first | rfl | omega | exact ih hab hbc | simp_all

theorem charsLtb_connex {a b : List Char} (hab : charsLtb a b = false)
    (hba : charsLtb b a = false) : a = b := by
  induction a generalizing b with
  | nil =>
    cases b with
    | nil => rfl
    | cons d ds => simp [charsLtb] at hab
  | cons c cs ih =>
    cases b with
    | nil => simp [charsLtb] at hba
    | cons d ds =>
      rw [charsLtb] at hab hba
      split_ifs at hab hba <;> try omega
      have htn : c.toNat = d.toNat := by omega
      have hcd : c = d := Char.eq_of_val_eq (UInt32.toNat.inj htn)
      rw [hcd, ih hab hba]

/-! ### JS values, records and association lists -/

/-- A JS value as far as the engine inspects one: a number, a string, or
`undefined` (the result of reading an absent field). -/
inductive JsVal
  | num (x : JsNum)
  | str (s : String)
  | undef
deriving DecidableEq

/-- JS `ToNumber` coercion as used by `<=`, `BigNumber(...)` and arithmetic:
numbers unchanged, strings parsed (non-numeric strings give NaN, the empty string
gives 0), `undefined` gives NaN. -/
def toNum : JsVal → JsNum
  | .num x => x
  | .str s => parseNumChars s.data
  | .undef => .nan

/-- JS `String(...)` for a number. -/
def numToStr : JsNum → String
  | .fin q => ratToStr q
  | .inf => "Infinity"
  | .ninf => "-Infinity"
  | .nan => "NaN"

/-- The coercion `Array.prototype.join` applies to each element: `undefined`
renders as the empty string. -/
def toJoinStr : JsVal → String
  | .num x => numToStr x
  | .str s => s
  | .undef => ""

/-- Lookup in an association list (insertion-ordered, first match wins, exactly
like the own-property table of a JS object; prototype-chain lookups are not
modelled). -/
def alookup {α : Type} : List (String × α) → String → Option α
  | [], _ => none
  | (k, v) :: rest, key => if k = key then some v else alookup rest key

/-- Write into an association list: replace in place if the key exists (JS keeps
the original insertion position), append otherwise. -/
def aset {α : Type} : List (String × α) → String → α → List (String × α)
  | [], key, v => [(key, v)]
  | (k, w) :: rest, key, v =>
    if k = key then (k, v) :: rest else (k, w) :: aset rest key v

theorem alookup_aset_self {α : Type} (l : List (String × α)) (k : String) (v : α) :
    alookup (aset l k v) k = some v := by
  induction l with
  | nil => simp [aset, alookup]
  | cons p rest ih =>
    by_cases h : p.1 = k
    · simp [aset, alookup, h]
    · simp [aset, alookup, h, ih]

theorem alookup_aset_ne {α : Type} (l : List (String × α)) {k k' : String} (v : α)
    (h : k ≠ k') : alookup (aset l k v) k' = alookup l k' := by
  induction l with
  | nil => simp [aset, alookup, h]
  | cons p rest ih =>
    by_cases hp : p.1 = k
    · simp [aset, alookup, hp, h]
    · by_cases hp' : p.1 = k'
      · simp [aset, alookup, hp, hp', Ne.symm h]
      · simp [aset, alookup, hp, hp', ih]

/-! ### The aggregation data model (`src/aggregate.ts` / `part_000`) -/

/-- Per-metric accumulator state: the value stored under one key of the
metadata's `sources` map.  Standard (source-field) entries populate
`sum`/`sumOfSquares`/`min`/`max`; weighted-average entries populate
`weightedSum`/`totalWeight`; reading an absent field yields `undefined`,
modelled by `none`. -/
structure SourceState where
  sum : Option JsNum
  sumOfSquares : Option JsNum
  min : Option JsNum
  max : Option JsNum
  weightedSum : Option JsNum
  totalWeight : Option JsNum
deriving DecidableEq

/-- The aggregation metadata attached to a produced record under the reserved
`_aggregationMetadata` key. -/
structure AggData where
  count : JsNum
  matchKeys : List String
  sources : List (String × SourceState)
deriving DecidableEq

/-- A record: the reserved metadata key (kept apart from the caller-visible
field table, which the spec requires never to collide with it) plus a flat map
from lodash paths to values. -/
structure Rec where
  meta : Option AggData
  fields : List (String × JsVal)
deriving DecidableEq

/-- `_.get(record, path)`: `undefined` when absent. -/
def Rec.get (r : Rec) (path : String) : JsVal := (alookup r.fields path).getD JsVal.undef

/-- `_.set(record, path, value)`. -/
def Rec.set (r : Rec) (path : String) (v : JsVal) : Rec := ⟨r.meta, aset r.fields path v⟩

/-- `AggregationTypes` from `src/aggregate.ts`. -/
inductive AggregationTypes
  | min
  | max
  | count
  | sum
  | average
  | standardDeviation
  | weightedAverage
deriving DecidableEq

/-- One entry of the request's `fields` map. -/
structure AggField where
  method : AggregationTypes
  sourceField : Option String
  weightField : Option String
deriving DecidableEq

/-- An aggregation request (`IAggregationParams` minus `records` and
`noAggregateMetadata`, which are passed separately). -/
structure Params where
  matchKeys : List String
  buckets : List (String × List ℚ)
  fields : List (String × AggField)
  sortBy : Option (List String)
deriving DecidableEq

/-- A thrown JS exception: the explicit `Error` for a missing `weightField`
(a configuration error), or a `TypeError` from accessing a property of
`undefined`. -/
inductive JsError
  | configError
  | typeError
deriving DecidableEq

instance {ε α : Type} [DecidableEq ε] [DecidableEq α] : DecidableEq (Except ε α) := fun a b =>
  match a, b with
  | .ok x, .ok y =>
    if h : x = y then .isTrue (by rw [h]) else .isFalse (fun hc => h (Except.ok.inj hc))
  | .error x, .error y =>
    if h : x = y then .isTrue (by rw [h]) else .isFalse (fun hc => h (Except.error.inj hc))
  | .ok _, .error _ => .isFalse (fun hc => Except.noConfusion hc)
  | .error _, .ok _ => .isFalse (fun hc => Except.noConfusion hc)

/-- JS property access coerces an `undefined` key to the string "undefined". -/
def propKey : Option String → String := fun o => o.getD "undefined"

/-- `getWeightedAverageMetadataKey`: the composite metric key for a
(sourceField, weightField) pair. -/
def getWeightedAverageMetadataKey (sourceField weightField : Option String) : String :=
  "weightedAverage" ++ "," ++ propKey sourceField ++ "," ++ propKey weightField

/-- Structural helper for `uniqByFirst`: drop elements whose key was already
seen. -/
def uniqByFirstAux {α β : Type} [DecidableEq β] (f : α → β) (seen : List β) :
    List α → List α
  | [] => []
  | a :: rest =>
    if f a ∈ seen then uniqByFirstAux f seen rest
    else a :: uniqByFirstAux f (f a :: seen) rest

/-- `_.uniqBy`: keep the first element for each key. -/
def uniqByFirst {α β : Type} [DecidableEq β] (f : α → β) (l : List α) : List α :=
  uniqByFirstAux f [] l

/-- `_.uniq`: keep the first occurrence of each element. -/
def uniqFirst {α : Type} [DecidableEq α] (l : List α) : List α :=
  uniqByFirst id l

/-- The deduplicated source fields needed by non-weighted methods
(`standardSourceFields` in `aggregateInternal`; constant per request). -/
def standardSourceFields (fields : List (String × AggField)) : List String :=
  uniqFirst (((fields.map (·.2)).filter
    (fun f => f.method ≠ AggregationTypes.weightedAverage)).filterMap (·.sourceField))

/-- The deduplicated weighted-average field descriptors (`weightedAvgFields`). -/
def weightedAvgFields (fields : List (String × AggField)) : List AggField :=
  uniqByFirst (fun f => getWeightedAverageMetadataKey f.sourceField f.weightField)
    ((fields.map (·.2)).filter (fun f => f.method = AggregationTypes.weightedAverage))

/-- `isSubset(subset, superset)` = `_.difference(subset, superset).length === 0`. -/
def isSubset (sub sup : List String) : Bool := sub.all (fun s => sup.contains s)

/-! ### Bucket assignment (`getFieldHashKey`)

`bucketEndpoints.sort()` uses the default JS comparator, which stringifies the
endpoints and compares code units; `strLeQ` is that order, with ties (impossible
for distinct rationals under the canonical printer) broken numerically so the
relation is antisymmetric. -/

/-- The JS default-sort order on numbers: compare decimal strings by code units. -/
def strLeQ (a b : ℚ) : Prop :=
  charsLtb (ratToStr a).data (ratToStr b).data = true ∨
    ((ratToStr a).data = (ratToStr b).data ∧ a ≤ b)

instance : DecidableRel strLeQ := fun a b =>
  inferInstanceAs (Decidable (_ ∨ _))

instance : IsTotal ℚ strLeQ := by
  constructor
  intro a b
  cases hab : charsLtb (ratToStr a).data (ratToStr b).data with
  | true => exact Or.inl (Or.inl hab)
  | false =>
    cases hba : charsLtb (ratToStr b).data (ratToStr a).data with
    | true => exact Or.inr (Or.inl hba)
    | false =>
      have heq := charsLtb_connex hab hba
      rcases le_total a b with h | h
      · exact Or.inl (Or.inr ⟨heq, h⟩)
      · exact Or.inr (Or.inr ⟨heq.symm, h⟩)

instance : IsTrans ℚ strLeQ := by
  constructor
  intro a b c hab hbc
  rcases hab with hab | ⟨hab, hab'⟩
  · rcases hbc with hbc | ⟨hbc, _⟩
    · exact Or.inl (charsLtb_trans hab hbc)
    · exact Or.inl (hbc ▸ hab)
  · rcases hbc with hbc | ⟨hbc, hbc'⟩
    · exact Or.inl (hab ▸ hbc)
    · exact Or.inr ⟨hab.trans hbc, hab'.trans hbc'⟩

instance : IsAntisymm ℚ strLeQ := by
  constructor
  intro a b hab hba
  rcases hab with hab | ⟨_, hab'⟩
  · rcases hba with hba | ⟨hba, _⟩
    · have := charsLtb_asymm hab
      rw [this] at hba
      cases hba
    · rw [hba] at hab
      rw [charsLtb_irrefl] at hab
      cases hab
  · rcases hba with hba | ⟨_, hba'⟩
    · rw [‹(ratToStr a).data = (ratToStr b).data›] at hba
      rw [charsLtb_irrefl] at hba
      cases hba
    · exact le_antisymm hab' hba'

/-- `bucketEndpoints.sort()`: the default JS sort stringifies and compares code
units.  Modelled with `insertionSort` (JS sort is stable and `strLeQ` is
antisymmetric on distinct values, so any stable sort produces the same list). -/
def sortEndpoints (eps : List ℚ) : List ℚ := List.insertionSort strLeQ eps

/-- The `for (const endpoint of bucketEndpoints.sort())` loop of
`getFieldHashKey` (`part_000` variant: `value <= endpoint` with `<=`-labels;
`previousEndpoint` starts `undefined`, and the final template literal renders it
as the string "undefined" when the endpoint list is empty). -/
def bucketLoop (v : JsVal) : Option ℚ → List ℚ → String
  | none, [] => "undefined+"
  | some p, [] => ratToStr p ++ "+"
  | none, e :: rest =>
    if JsNum.leb (toNum v) (.fin e) then "<=" ++ ratToStr e
    else bucketLoop v (some e) rest
  | some p, e :: rest =>
    if JsNum.leb (toNum v) (.fin e) then ratToStr p ++ "-" ++ ratToStr e
    else bucketLoop v (some e) rest

/-- `getFieldHashKey({record, matchKey, bucketEndpoints})`. -/
def getFieldHashKey (r : Rec) (matchKey : String) (bucketEndpoints : Option (List ℚ)) : JsVal :=
  let value := r.get matchKey
  match bucketEndpoints with
  | none => value
  | some eps => .str (bucketLoop value none (sortEndpoints eps))

/-- The group identifier: the per-match-key labels joined with the empty
separator (`.join("")`). -/
def hashKeyOf (P : Params) (r : Rec) : String :=
  String.join (P.matchKeys.map
    (fun k => toJoinStr (getFieldHashKey r k (alookup P.buckets k))))

/-! ### Record classification and accumulation (`aggregateInternal` loop body) -/

/-- The `isAggregatedRecord` flag: metadata present, the requested match keys a
subset of the recorded ones, and — as the code actually checks — the *plain
source field* key present in `sources` for every standard and every
weighted-average field (the code tests `sources[sourceField]`, not the composite
weighted key, at `part_000` line 278 / `aggregate.ts` line 268). -/
def isAggRecord (P : Params) (r : Rec) : Bool :=
  match r.meta with
  | none => false
  | some md =>
    isSubset P.matchKeys md.matchKeys &&
    (standardSourceFields P.fields).all (fun s => (alookup md.sources s).isSome) &&
    (weightedAvgFields P.fields).all
      (fun f => (alookup md.sources (propKey f.sourceField)).isSome)

/-- The nascent group record: fresh metadata (`count: 0`, the request's match
keys, empty `sources`) and the identifying labels written at the match-key
paths. -/
def initGroup (P : Params) (r : Rec) : Rec :=
  ⟨some ⟨.fin 0, P.matchKeys, []⟩,
    P.matchKeys.foldl
      (fun fs k => aset fs k (getFieldHashKey r k (alookup P.buckets k))) []⟩

/-- Fresh standard metric state: `{sum: 0, sumOfSquares: 0, min: ∞, max: -∞}`. -/
def stdInit : SourceState := ⟨some (.fin 0), some (.fin 0), some .inf, some .ninf, none, none⟩

/-- Fresh weighted metric state: `{totalWeight: 0, weightedSum: 0}`. -/
def wavgInit : SourceState := ⟨none, none, none, none, some (.fin 0), some (.fin 0)⟩

/-- The `count` update: `+= record._aggregationMetadata.count` for a
re-aggregatable record, `+= 1` otherwise.  (When `isAgg` holds the metadata is
present, so the `getD NaN` default is never reached.) -/
def countUpdate (r : Rec) (isAgg : Bool) (g : Rec) : Except JsError Rec :=
  match g.meta with
  | none => .error .typeError
  | some md =>
    .ok ⟨some { md with
      count := md.count.add (if isAgg then (r.meta.map (·.count)).getD .nan else .fin 1) },
      g.fields⟩

/-- The standard-metric contribution the accumulation reads from one record:
its pre-aggregated state for a record classified re-aggregatable (reading a
missing state would be a JS `TypeError`; the classification check makes that
unreachable for standard fields), the raw field value otherwise. -/
def stdContribOf (r : Rec) (isAgg : Bool) (s : String) :
    Except JsError (JsNum × JsNum × JsNum × JsNum) :=
  if isAgg then
    match r.meta.bind (fun m => alookup m.sources s) with
    | some ss => pure (ss.sum.getD .nan, ss.sumOfSquares.getD .nan,
        ss.min.getD .nan, ss.max.getD .nan)
    | none => throw .typeError
  else
    pure (toNum (r.get s), (toNum (r.get s)).mul (toNum (r.get s)), toNum (r.get s),
      toNum (r.get s))

/-- One iteration of the `standardSourceFields.forEach` accumulation: ensure the
group's metric state exists, then fold in the record's contribution. -/
def stdUpdate (r : Rec) (isAgg : Bool) (g : Rec) (s : String) : Except JsError Rec := do
  let md ← match g.meta with
    | some md => pure md
    | none => throw .typeError
  let sources := if (alookup md.sources s).isSome then md.sources
    else md.sources ++ [(s, stdInit)]
  let cur := (alookup sources s).getD stdInit
  let c ← stdContribOf r isAgg s
  let ns : SourceState :=
    { cur with
      sum := some ((cur.sum.getD .nan).add c.1)
      sumOfSquares := some ((cur.sumOfSquares.getD .nan).add c.2.1)
      min := some ((cur.min.getD .nan).minN c.2.2.1)
      max := some ((cur.max.getD .nan).maxN c.2.2.2) }
  pure ⟨some { md with sources := aset sources s ns }, g.fields⟩

/-- The weighted-metric contribution the accumulation reads from one record:
`(totalWeight, weightedSum)` from its pre-aggregated state for a record
classified re-aggregatable, the weight value and the source×weight product
otherwise. -/
def wavgContribOf (r : Rec) (isAgg : Bool) (f : AggField) (w : String) :
    Except JsError (JsNum × JsNum) :=
  if isAgg then
    match r.meta.bind (fun m => alookup m.sources
        (getWeightedAverageMetadataKey f.sourceField f.weightField)) with
    | some ss => pure (ss.totalWeight.getD .nan, ss.weightedSum.getD .nan)
    | none => throw .typeError
  else
    pure (toNum (r.get w),
      (toNum (match f.sourceField with | some s => r.get s | none => .undef)).mul
        (toNum (r.get w)))

/-- One iteration of the `weightedAvgFields.forEach` accumulation, including the
thrown configuration `Error` when `weightField` is missing. -/
def wavgUpdate (r : Rec) (isAgg : Bool) (g : Rec) (f : AggField) : Except JsError Rec := do
  match f.weightField with
  | none => throw .configError
  | some w =>
    let md ← match g.meta with
      | some md => pure md
      | none => throw .typeError
    let mk := getWeightedAverageMetadataKey f.sourceField f.weightField
    let sources := if (alookup md.sources mk).isSome then md.sources
      else md.sources ++ [(mk, wavgInit)]
    let cur := (alookup sources mk).getD wavgInit
    let c ← wavgContribOf r isAgg f w
    let ns : SourceState :=
      { cur with
        totalWeight := some ((cur.totalWeight.getD .nan).add c.1)
        weightedSum := some ((cur.weightedSum.getD .nan).add c.2) }
    pure ⟨some { md with sources := aset sources mk ns }, g.fields⟩

/-- The body of the `for (const record of records)` loop: classify, locate or
create the group, then fold the record's contribution into it. -/
def stepRecord (P : Params) (st : List (String × Rec)) (r : Rec) :
    Except JsError (List (String × Rec)) := do
  let isAgg := isAggRecord P r
  let hk := hashKeyOf P r
  let g0 := (alookup st hk).getD (initGroup P r)
  let g1 ← countUpdate r isAgg g0
  let g2 ← (standardSourceFields P.fields).foldlM (stdUpdate r isAgg) g1
  let g3 ← (weightedAvgFields P.fields).foldlM (wavgUpdate r isAgg) g2
  pure (aset st hk g3)

/-! ### Output derivation (`aggregationFunctions`) -/

/-- `aggregationFunctions[method]` of the `part_000` variant: every read chains
`.toNumber()`/`.div(...)` off the stored BigNumber, so an absent state or field
is a JS `TypeError`; dividing *by* an undefined value coerces it to NaN. -/
def deriveValue (md : AggData) (f : AggField) : Except JsError JsNum :=
  match f.method with
  | .count => .ok md.count
  | .min =>
    match alookup md.sources (propKey f.sourceField) with
    | none => .error .typeError
    | some ss =>
      match ss.min with
      | none => .error .typeError
      | some x => .ok x
  | .max =>
    match alookup md.sources (propKey f.sourceField) with
    | none => .error .typeError
    | some ss =>
      match ss.max with
      | none => .error .typeError
      | some x => .ok x
  | .sum =>
    match alookup md.sources (propKey f.sourceField) with
    | none => .error .typeError
    | some ss =>
      match ss.sum with
      | none => .error .typeError
      | some x => .ok x
  | .average =>
    match alookup md.sources (propKey f.sourceField) with
    | none => .error .typeError
    | some ss =>
      match ss.sum with
      | none => .error .typeError
      | some sm => .ok (sm.div md.count)
  | .standardDeviation =>
    match alookup md.sources (propKey f.sourceField) with
    | none => .error .typeError
    | some ss =>
      match ss.sum, ss.sumOfSquares with
      | some sm, some ssq =>
        .ok (JsNum.sqrtN ((ssq.div md.count).sub
          ((sm.div md.count).mul (sm.div md.count))))
      | none, _ => .error .typeError
      | some _, none => .error .typeError
  | .weightedAverage =>
    match alookup md.sources (getWeightedAverageMetadataKey f.sourceField f.weightField) with
    | none => .error .typeError
    | some ss =>
      match ss.weightedSum with
      | none => .error .typeError
      | some ws => .ok (ws.div (ss.totalWeight.getD .nan))

/-- The per-group output pass: write every requested output field from the
accumulated metadata, then drop the metadata if `noAggregateMetadata` was passed
to `aggregateInternal` (the exported `aggregate` never passes it). -/
def finalizeGroup (P : Params) (noAgg : Bool) (g : Rec) : Except JsError Rec := do
  let md ← match g.meta with
    | some md => pure md
    | none => throw .typeError
  let g' ← P.fields.foldlM
    (fun (acc : Rec) (of : String × AggField) => do
      let v ← deriveValue md of.2
      pure (acc.set of.1 (.num v))) g
  pure (if noAgg then ⟨none, g'.fields⟩ else g')

/-! ### Sorting (`transformSortKeyForSort`, `parseBucketString`, `_.sortBy`) -/

/-- JS `String.prototype.split("-")`: split on every dash, keeping empty pieces
(so `"".split` gives one empty piece and a leading dash gives a leading empty
piece). -/
def splitDash : List Char → List (List Char)
  | [] => [[]]
  | c :: rest =>
    match splitDash rest with
    | [] => [[]]
    | h :: t => if c = '-' then [] :: h :: t else (c :: h) :: t

/-- `parseBucketString` of the `part_000` variant.  Note `slice(1)` after the
`startsWith("<=")` test drops only the `<`, so the upper bound of a `<=`-label
parses as `Number("=…") = NaN`; labels are otherwise split on *every* `-`. -/
def parseBucketChars (l : List Char) : List JsNum :=
  match l with
  | '<' :: '=' :: rest => [.ninf, parseNumChars ('=' :: rest)]
  | _ =>
    if l.getLast? = some '+' then [parseNumChars l.dropLast, .inf]
    else (splitDash l).map parseNumChars

/-- `parseBucketString` on a string. -/
def parseBucketString (s : String) : List JsNum := parseBucketChars s.data

/-- The iteratee `_.sortBy` receives for one sort key: for a bucketed key, the
bucket start (`parseBucketString(record[sortKey])[0]`, a `TypeError` if the value
is not a string); otherwise the plain field value. -/
def iterKeyFor (P : Params) (sortKey : String) (r : Rec) : Except JsError JsVal :=
  match alookup P.buckets sortKey with
  | none => .ok (r.get sortKey)
  | some _ =>
    match r.get sortKey with
    | .str s => .ok (.num ((parseBucketString s).headD .nan))
    | _ => .error .typeError

/-- The ascending order `_.sortBy` uses on numeric criteria, with NaN ranked
last (lodash moves NaN/undefined to the end). -/
def JsNum.keyLe : JsNum → JsNum → Bool
  | .ninf, _ => true
  | .fin _, .ninf => false
  | .fin a, .fin b => a ≤ b
  | .fin _, .inf => true
  | .fin _, .nan => true
  | .inf, .ninf => false
  | .inf, .fin _ => false
  | .inf, .inf => true
  | .inf, .nan => true
  | .nan, .nan => true
  | .nan, _ => false

/-- `_.sortBy`'s ascending order on criteria values.  Numbers sort before
strings and strings before `undefined`; only same-type comparisons are exercised
by the engine's own outputs. -/
def JsVal.keyLe : JsVal → JsVal → Bool
  | .num a, .num b => a.keyLe b
  | .num _, .str _ => true
  | .num _, .undef => true
  | .str _, .num _ => false
  | .str a, .str b => !charsLtb b.data a.data
  | .str _, .undef => true
  | .undef, .undef => true
  | .undef, _ => false

/-- Lexicographic comparison of criteria lists (one criterion per sort key). -/
def keyListLe : List JsVal → List JsVal → Bool
  | [], _ => true
  | _ :: _, [] => false
  | a :: as, b :: bs => if a = b then keyListLe as bs else a.keyLe b

/-- `_.sortBy(records, iteratees)`: compute all criteria, then stable-sort. -/
def sortRecords (P : Params) (keys : List String) (recs : List Rec) :
    Except JsError (List Rec) := do
  let tagged ← recs.mapM (fun r => do
    let ks ← keys.mapM (fun k => iterKeyFor P k r)
    pure (r, ks))
  pure ((List.insertionSort
    (fun a b : Rec × List JsVal => keyListLe a.2 b.2 = true) tagged).map (·.1))

/-! ### `aggregateInternal` and `aggregate` -/

/-- `aggregateInternal`: fold every record into the group table, derive the
requested outputs per group, and sort if requested. -/
def aggregateInternal (P : Params) (noAgg : Bool) (records : List Rec) :
    Except JsError (List Rec) := do
  let st ← records.foldlM (stepRecord P) []
  let out ← st.mapM (fun kv => finalizeGroup P noAgg kv.2)
  match P.sortBy with
  | none => pure out
  | some keys => sortRecords P keys out

/-- The value returned by `aggregate`: the grouped records plus the totals
record (`undefined` — `none` — when there are no records at all). -/
structure AggResult where
  aggregatedRecords : List Rec
  totals : Option Rec
deriving DecidableEq

/-- Drop the reserved metadata key (`delete record[AGG_METADATA_FIELD]`). -/
def stripMeta (r : Rec) : Rec := ⟨none, r.fields⟩

/-- The exported `aggregate`: group once with the requested match keys, once
more with no match keys and no buckets for `totals`, then strip metadata if
`noAggregateMetadata` — where `delete totals[...]` on an `undefined` totals is a
JS `TypeError`. -/
def aggregate (P : Params) (noAggregateMetadata : Bool) (records : List Rec) :
    Except JsError AggResult := do
  let aggregatedRecords ← aggregateInternal P false records
  let totalsList ← aggregateInternal ⟨[], [], P.fields, P.sortBy⟩ false records
  let totals := totalsList.head?
  if noAggregateMetadata then
    match totals with
    | none => throw .typeError
    | some t => pure ⟨aggregatedRecords.map stripMeta, some (stripMeta t)⟩
  else
    pure ⟨aggregatedRecords, totals⟩

/-! ### Basic engine lemmas -/

theorem aggregateInternal_nil (P : Params) (noAgg : Bool) :
    aggregateInternal P noAgg [] = .ok [] := by
  cases hs : P.sortBy with
  | none =>
    simp [aggregateInternal, hs, List.mapM, List.mapM.loop, Pure.pure, Except.pure, Bind.bind, Except.bind]
  | some keys =>
    simp [aggregateInternal, sortRecords, hs, List.mapM, List.mapM.loop,
      List.insertionSort, Bind.bind, Except.bind, Pure.pure, Except.pure]

theorem except_bind_ok {α β ε : Type} (a : α) (f : α → Except ε β) :
    (Except.ok a >>= f) = f a := rfl

theorem except_bind_err {α β ε : Type} (e : ε) (f : α → Except ε β) :
    ((Except.error e : Except ε α) >>= f) = Except.error e := rfl

theorem except_map_ok {α β ε : Type} (a : α) (f : α → β) :
    (f <$> (Except.ok a : Except ε α)) = Except.ok (f a) := rfl

theorem except_map_err {α β ε : Type} (e : ε) (f : α → β) :
    (f <$> (Except.error e : Except ε α)) = Except.error e := rfl

theorem isAggRecord_of_meta_none {P : Params} {r : Rec} (h : r.meta = none) :
    isAggRecord P r = false := by
  simp [isAggRecord, h]

theorem countUpdate_ok (r : Rec) (b : Bool) (md : AggData) (fs : List (String × JsVal)) :
    countUpdate r b ⟨some md, fs⟩ =
      .ok ⟨some { md with
        count := md.count.add (if b then (r.meta.map (·.count)).getD .nan else .fin 1) },
        fs⟩ := rfl

theorem stdFold_ok (r : Rec) (ss : List String) :
    ∀ (md : AggData) (fs : List (String × JsVal)),
      ∃ md', List.foldlM (stdUpdate r false) (⟨some md, fs⟩ : Rec) ss = .ok ⟨some md', fs⟩ := by
  induction ss with
  | nil => exact fun md fs => ⟨md, rfl⟩
  | cons s rest ih =>
    intro md fs
    obtain ⟨md₁, hstep⟩ : ∃ md₁,
        stdUpdate r false (⟨some md, fs⟩ : Rec) s = .ok ⟨some md₁, fs⟩ := ⟨_, rfl⟩
    obtain ⟨md₂, hrest⟩ := ih md₁ fs
    refine ⟨md₂, ?_⟩
    rw [List.foldlM_cons, hstep]
    simpa [Bind.bind, Except.bind] using hrest

theorem wavgUpdate_noweight (r : Rec) (isAgg : Bool) (g : Rec) (f : AggField)
    (hw : f.weightField = none) : wavgUpdate r isAgg g f = .error .configError := by
  rcases f with ⟨m, sf, wf⟩
  cases hw
  rfl

theorem wavgUpdate_raw_ok (r : Rec) (md : AggData) (fs : List (String × JsVal))
    (f : AggField) (w : String) (hw : f.weightField = some w) :
    ∃ md', wavgUpdate r false (⟨some md, fs⟩ : Rec) f = .ok ⟨some md', fs⟩ := by
  rcases f with ⟨m, sf, wf⟩
  cases hw
  exact ⟨_, rfl⟩

theorem wavgFold_err (r : Rec) :
    ∀ (fl : List AggField) (md : AggData) (fs : List (String × JsVal)),
      (∃ f ∈ fl, f.weightField = none) →
      List.foldlM (wavgUpdate r false) (⟨some md, fs⟩ : Rec) fl = .error .configError := by
  intro fl
  induction fl with
  | nil =>
    rintro md fs ⟨f, hf, _⟩
    cases hf
  | cons f rest ih =>
    rintro md fs ⟨g, hg, hgw⟩
    rcases List.mem_cons.mp hg with rfl | hmem
    · rw [List.foldlM_cons, wavgUpdate_noweight _ _ _ _ hgw]
      rfl
    · cases hwf : f.weightField with
      | none =>
        rw [List.foldlM_cons, wavgUpdate_noweight _ _ _ _ hwf]
        rfl
      | some w =>
        obtain ⟨md₁, hstep⟩ := wavgUpdate_raw_ok r md fs f w hwf
        rw [List.foldlM_cons, hstep]
        simpa [Bind.bind, Except.bind] using ih md₁ fs ⟨g, hmem, hgw⟩

theorem stepRecord_raw_configError (P : Params) (st : List (String × Rec)) (r : Rec)
    (hmeta : r.meta = none)
    (hst : ∀ k g, alookup st k = some g → ∃ md fs, g = ⟨some md, fs⟩)
    (hbad : ∃ f ∈ weightedAvgFields P.fields, f.weightField = none) :
    stepRecord P st r = .error .configError := by
  obtain ⟨md₀, fs₀, hg0⟩ : ∃ md fs,
      ((alookup st (hashKeyOf P r)).getD (initGroup P r) : Rec) = ⟨some md, fs⟩ := by
    cases hl : alookup st (hashKeyOf P r) with
    | none => exact ⟨_, _, rfl⟩
    | some g =>
      obtain ⟨md, fs, rfl⟩ := hst _ _ hl
      exact ⟨md, fs, rfl⟩
  have hAgg : isAggRecord P r = false := isAggRecord_of_meta_none hmeta
  obtain ⟨md₂, hstd⟩ := stdFold_ok r (standardSourceFields P.fields)
    { md₀ with count := md₀.count.add (.fin 1) } fs₀
  simp only [stepRecord, hAgg, hg0, countUpdate_ok, if_neg Bool.false_ne_true, except_bind_ok]
  rw [hstd]
  simp only [except_bind_ok]
  rw [wavgFold_err r (weightedAvgFields P.fields) md₂ fs₀ hbad]
  rfl

/-! ### The contribution algebra

The per-group accumulator is characterised as a fold of per-record
*contributions* over a commutative-monoid-like structure: a count, one
`(sum, sumOfSquares, min, max)` quadruple per standard source field and one
`(weightedSum, totalWeight)` pair per composite weighted key.  Contribution
functions are normalised to an all-NaN value off the request's metric keys (NaN
is absorbing for every fold operation, which makes the normal form stable). -/

structure MetricC where
  sum : JsNum
  sumOfSquares : JsNum
  min : JsNum
  max : JsNum
deriving DecidableEq

structure WeightC where
  weightedSum : JsNum
  totalWeight : JsNum
deriving DecidableEq

structure Contrib where
  cnt : JsNum
  std : String → MetricC
  wv : String → WeightC

def allNaNM : MetricC := ⟨.nan, .nan, .nan, .nan⟩

def allNaNW : WeightC := ⟨.nan, .nan⟩

def unitC : Contrib :=
  ⟨.fin 0, fun _ => ⟨.fin 0, .fin 0, .inf, .ninf⟩, fun _ => ⟨.fin 0, .fin 0⟩⟩

def combM (a b : MetricC) : MetricC :=
  ⟨a.sum.add b.sum, a.sumOfSquares.add b.sumOfSquares, a.min.minN b.min, a.max.maxN b.max⟩

def combW (a b : WeightC) : WeightC :=
  ⟨a.weightedSum.add b.weightedSum, a.totalWeight.add b.totalWeight⟩

def combC (a b : Contrib) : Contrib :=
  ⟨a.cnt.add b.cnt, fun s => combM (a.std s) (b.std s), fun k => combW (a.wv k) (b.wv k)⟩

theorem combC_assoc (a b c : Contrib) : combC (combC a b) c = combC a (combC b c) := by
  simp only [combC, combM, combW, JsNum.add_assoc, JsNum.minN_assoc, JsNum.maxN_assoc]

theorem combC_comm (a b : Contrib) : combC a b = combC b a := by
  simp only [combC, Contrib.mk.injEq]
  refine ⟨JsNum.add_comm _ _, funext fun s => ?_, funext fun k => ?_⟩
  · simp [combM, JsNum.add_comm, JsNum.minN_comm, JsNum.maxN_comm]
  · simp [combW, JsNum.add_comm]

theorem combC_unit_left (c : Contrib) : combC unitC c = c := by
  simp only [combC, unitC, combM, combW, JsNum.add_zero_left, JsNum.minN_inf_left,
    JsNum.maxN_ninf_left]

theorem add_nan_right (x : JsNum) : x.add .nan = .nan := by cases x <;> rfl

theorem minN_nan_right (x : JsNum) : x.minN .nan = .nan := by cases x <;> rfl

theorem maxN_nan_right (x : JsNum) : x.maxN .nan = .nan := by cases x <;> rfl

theorem add_zero_right' (x : JsNum) : x.add (.fin 0) = x := JsNum.add_zero_right x

theorem minN_inf_right (x : JsNum) : x.minN .inf = x := by
  cases x <;> simp [JsNum.minN]

theorem maxN_ninf_right (x : JsNum) : x.maxN .ninf = x := by
  cases x <;> simp [JsNum.maxN]

theorem combC_unit_right (c : Contrib) : combC c unitC = c := by
  simp only [combC, unitC, combM, combW, add_zero_right', minN_inf_right, maxN_ninf_right]

theorem foldl_combC_action (a c : Contrib) (l : List Contrib) :
    List.foldl combC (combC a c) l = combC a (List.foldl combC c l) := by
  induction l generalizing c with
  | nil => rfl
  | cons x l ih => rw [List.foldl_cons, List.foldl_cons, combC_assoc, ih]

theorem foldl_combC_start (a : Contrib) (l : List Contrib) :
    List.foldl combC a l = combC a (List.foldl combC unitC l) := by
  rw [← foldl_combC_action, combC_unit_right]

/-- The composite metadata key of a weighted-average field descriptor. -/
def waKey (f : AggField) : String :=
  getWeightedAverageMetadataKey f.sourceField f.weightField

/-- The deduplicated composite weighted keys of a request. -/
def wavgKeys (fields : List (String × AggField)) : List String :=
  (weightedAvgFields fields).map waKey

/-- The `sources` entry a standard metric quadruple denotes. -/
def stdStOf (m : MetricC) : SourceState :=
  ⟨some m.sum, some m.sumOfSquares, some m.min, some m.max, none, none⟩

/-- The `sources` entry a weighted pair denotes. -/
def wavgStOf (w : WeightC) : SourceState :=
  ⟨none, none, none, none, some w.weightedSum, some w.totalWeight⟩

/-- One standard entry of the canonical `sources` map. -/
def stdEntry (c : Contrib) (s : String) : String × SourceState := (s, stdStOf (c.std s))

/-- One weighted entry of the canonical `sources` map. -/
def wavgEntry (c : Contrib) (f : AggField) : String × SourceState :=
  (waKey f, wavgStOf (c.wv (waKey f)))

/-- The canonical `sources` map denoted by a contribution: the standard entries
in `standardSourceFields` order (the creation order of the accumulation loop),
then the weighted entries in `weightedAvgFields` order. -/
def mkSources (fields : List (String × AggField)) (c : Contrib) :
    List (String × SourceState) :=
  (standardSourceFields fields).map (stdEntry c) ++ (weightedAvgFields fields).map (wavgEntry c)

/-- The contribution of one raw record: count 1, the field value folded into
every requested standard metric, and the weight/value product into every
weighted metric. -/
def rawContrib (fields : List (String × AggField)) (r : Rec) : Contrib :=
  ⟨.fin 1,
   fun s =>
     if s ∈ standardSourceFields fields then
       ⟨toNum (r.get s), (toNum (r.get s)).mul (toNum (r.get s)), toNum (r.get s),
         toNum (r.get s)⟩
     else allNaNM,
   fun k =>
     match (weightedAvgFields fields).find? (fun f => waKey f = k) with
     | some f =>
       ⟨(toNum (match f.sourceField with | some s => r.get s | none => .undef)).mul
          (toNum (r.get (propKey f.weightField))), toNum (r.get (propKey f.weightField))⟩
     | none => allNaNW⟩

/-- The contribution of a re-aggregatable record: its recorded count and the
recorded per-metric states (as the accumulation loop reads them, `getD NaN` on
each component). -/
def aggContrib (fields : List (String × AggField)) (md : AggData) : Contrib :=
  ⟨md.count,
   fun s =>
     if s ∈ standardSourceFields fields then
       match alookup md.sources s with
       | some ss => ⟨ss.sum.getD .nan, ss.sumOfSquares.getD .nan, ss.min.getD .nan,
           ss.max.getD .nan⟩
       | none => allNaNM
     else allNaNM,
   fun k =>
     if k ∈ wavgKeys fields then
       match alookup md.sources k with
       | some ss => ⟨ss.weightedSum.getD .nan, ss.totalWeight.getD .nan⟩
       | none => allNaNW
     else allNaNW⟩

/-- The contribution a record makes to its group, per its classification. -/
def contribOf (P : Params) (r : Rec) : Contrib :=
  if isAggRecord P r then aggContrib P.fields (r.meta.getD ⟨.fin 0, [], []⟩)
  else rawContrib P.fields r

/-- A contribution in normal form: all-NaN off the request's metric keys. -/
def Restricted (fields : List (String × AggField)) (c : Contrib) : Prop :=
  (∀ s, s ∉ standardSourceFields fields → c.std s = allNaNM) ∧
  (∀ k, k ∉ wavgKeys fields → c.wv k = allNaNW)

/-- A well-formed request's field table, as the amended composability claim
needs: every weighted-average field has a `weightField`, its `sourceField` is
also aggregated by some standard method (so the classification check, which
tests the plain source field, passes on the engine's own outputs), its composite
key does not collide with a standard source field, and every non-count
non-weighted field names a `sourceField`. -/
def WFfields (fields : List (String × AggField)) : Prop :=
  (∀ f ∈ weightedAvgFields fields, f.weightField ≠ none) ∧
  (∀ f ∈ weightedAvgFields fields, propKey f.sourceField ∈ standardSourceFields fields) ∧
  (∀ f ∈ weightedAvgFields fields, waKey f ∉ standardSourceFields fields) ∧
  (∀ of ∈ fields, of.2.method ≠ AggregationTypes.count →
    of.2.method ≠ AggregationTypes.weightedAverage → of.2.sourceField ≠ none)

/-- A canonical summary record: carries the metadata the engine itself writes
for some normal-form contribution, with match keys covering the request's. -/
def IsCSR (P : Params) (r : Rec) : Prop :=
  ∃ c mks, Restricted P.fields c ∧ r.meta = some ⟨c.cnt, mks, mkSources P.fields c⟩ ∧
    isSubset P.matchKeys mks = true

/-- A record the characterisation covers: raw, or a canonical summary. -/
def OkRec (P : Params) (r : Rec) : Prop := r.meta = none ∨ IsCSR P r

theorem combM_nan_right (m : MetricC) : combM m allNaNM = allNaNM := by
  simp [combM, allNaNM, add_nan_right, minN_nan_right, maxN_nan_right]

theorem combW_nan_right (w : WeightC) : combW w allNaNW = allNaNW := by
  simp [combW, allNaNW, add_nan_right]

theorem restricted_combC_right {fields : List (String × AggField)} {c : Contrib}
    (hc : Restricted fields c) (x : Contrib) : Restricted fields (combC x c) := by
  refine ⟨fun s hs => ?_, fun k hk => ?_⟩
  · show combM (x.std s) (c.std s) = allNaNM
    rw [hc.1 s hs, combM_nan_right]
  · show combW (x.wv k) (c.wv k) = allNaNW
    rw [hc.2 k hk, combW_nan_right]

theorem restricted_foldl {fields : List (String × AggField)} :
    ∀ (l : List Contrib) (a : Contrib), (∀ c ∈ l, Restricted fields c) → l ≠ [] →
      Restricted fields (List.foldl combC a l)
  | [], _, _, hne => absurd rfl hne
  | c :: l, a, h, _ => by
    rw [List.foldl_cons]
    cases l with
    | nil => exact restricted_combC_right (h c (by simp)) a
    | cons d l' =>
      exact restricted_foldl (d :: l') (combC a c) (fun x hx => h x (by simp [hx])) (by simp)

theorem restricted_rawContrib (fields : List (String × AggField)) (r : Rec) :
    Restricted fields (rawContrib fields r) := by
  refine ⟨fun s hs => ?_, fun k hk => ?_⟩
  · simp [rawContrib, hs]
  · show (match (weightedAvgFields fields).find? (fun f => waKey f = k) with
      | some f => _ | none => allNaNW) = allNaNW
    have : (weightedAvgFields fields).find? (fun f => waKey f = k) = none := by
      rw [List.find?_eq_none]
      intro f hf
      simp only [decide_eq_true_eq]
      intro hkey
      exact hk (by rw [← hkey]; exact List.mem_map_of_mem waKey hf)
    rw [this]

theorem restricted_aggContrib (fields : List (String × AggField)) (md : AggData) :
    Restricted fields (aggContrib fields md) := by
  refine ⟨fun s hs => ?_, fun k hk => ?_⟩
  · simp [aggContrib, hs]
  · simp [aggContrib, hk]

/-! ### Association-list and first-occurrence-dedup lemmas -/

theorem alookup_append {α : Type} (a b : List (String × α)) (k : String) :
    alookup (a ++ b) k = (alookup a k).or (alookup b k) := by
  induction a with
  | nil => simp [alookup]
  | cons p rest ih =>
    by_cases h : p.1 = k
    · simp [alookup, h, Option.or]
    · simp [alookup, h, ih]

theorem alookup_map_keys {α : Type} (g : String → α) :
    ∀ (ks : List String) (k : String),
      alookup (ks.map fun s => (s, g s)) k = if k ∈ ks then some (g k) else none := by
  intro ks
  induction ks with
  | nil => simp [alookup]
  | cons s rest ih =>
    intro k
    by_cases h : s = k
    · subst h
      simp [alookup]
    · simp [alookup, h, ih, Ne.symm h]

theorem alookup_map_by {α β : Type} (key : β → String) (h : β → α) :
    ∀ (l : List β) (k : String),
      alookup (l.map fun f => (key f, h f)) k =
        match l.find? (fun f => key f = k) with
        | some f => some (h f)
        | none => none := by
  intro l
  induction l with
  | nil => simp [alookup]
  | cons f rest ih =>
    intro k
    by_cases hk : key f = k
    · rw [List.map_cons, List.find?_cons_of_pos _ (by simp [hk])]
      simp [alookup, hk]
    · rw [List.map_cons, List.find?_cons_of_neg _ (by simp [hk])]
      simp only [alookup, hk, if_false]
      exact ih k

theorem find?_first_of_nodup {β : Type} (key : β → String) :
    ∀ (l : List β) (f : β), (l.map key).Nodup → f ∈ l →
      l.find? (fun g => key g = key f) = some f := by
  intro l
  induction l with
  | nil => intro f _ hf; cases hf
  | cons g rest ih =>
    intro f hnd hf
    rw [List.map_cons, List.nodup_cons] at hnd
    by_cases hk : key g = key f
    · have : f = g := by
        rcases List.mem_cons.mp hf with rfl | hmem
        · rfl
        · exact absurd (hk ▸ List.mem_map_of_mem key hmem) hnd.1
      subst this
      rw [List.find?_cons_of_pos _ (by simp)]
    · have hmem : f ∈ rest := by
        rcases List.mem_cons.mp hf with rfl | hmem
        · exact absurd rfl hk
        · exact hmem
      rw [List.find?_cons_of_neg _ (by simp [hk])]
      exact ih f hnd.2 hmem

theorem aset_append_left {α : Type} (pre l : List (String × α)) (k : String) (v : α)
    (hpre : alookup pre k = none) : aset (pre ++ l) k v = pre ++ aset l k v := by
  induction pre with
  | nil => simp
  | cons p rest ih =>
    simp only [alookup] at hpre
    by_cases h : p.1 = k
    · simp [h] at hpre
    · simp only [List.cons_append, aset, h, if_false, List.cons.injEq, true_and]
      exact ih (by simpa [h] using hpre)

theorem aset_cons_self {α : Type} (k : String) (w v : α) (t : List (String × α)) :
    aset ((k, w) :: t) k v = (k, v) :: t := by
  simp [aset]

theorem aset_append_new {α : Type} (l : List (String × α)) (k : String) (v : α)
    (h : alookup l k = none) : aset l k v = l ++ [(k, v)] := by
  induction l with
  | nil => rfl
  | cons p rest ih =>
    simp only [alookup] at h
    by_cases hp : p.1 = k
    · simp [hp] at h
    · simp only [aset, hp, if_false, List.cons_append, List.cons.injEq, true_and]
      exact ih (by simpa [hp] using h)

theorem aset_map_keys {α : Type} (g : String → α) :
    ∀ (ks : List String) (k : String) (v : α), ks.Nodup → k ∈ ks →
      aset (ks.map fun s => (s, g s)) k v =
        ks.map fun s => (s, if s = k then v else g s) := by
  intro ks
  induction ks with
  | nil => intro k v _ hk; cases hk
  | cons s rest ih =>
    intro k v hnd hk
    rw [List.nodup_cons] at hnd
    by_cases h : s = k
    · subst h
      rw [List.map_cons, aset_cons_self]
      refine congrArg₂ List.cons (by simp) (List.map_congr_left fun t ht => ?_)
      have hts : t ≠ s := fun hts => hnd.1 (hts ▸ ht)
      simp [hts]
    · have hkr : k ∈ rest := by
        rcases List.mem_cons.mp hk with rfl | hm
        · exact absurd rfl h
        · exact hm
      simp only [List.map_cons, aset, h, if_neg h, if_false, List.cons.injEq, true_and]
      exact ih k v hnd.2 hkr

theorem uniqAux_cong {α β : Type} [DecidableEq β] (f : α → β) :
    ∀ (l : List α) (s₁ s₂ : List β), (∀ b, b ∈ s₁ ↔ b ∈ s₂) →
      uniqByFirstAux f s₁ l = uniqByFirstAux f s₂ l := by
  intro l
  induction l with
  | nil => intro _ _ _; rfl
  | cons a rest ih =>
    intro s₁ s₂ h
    by_cases ha : f a ∈ s₁
    · rw [uniqByFirstAux, if_pos ha, uniqByFirstAux, if_pos ((h (f a)).mp ha)]
      exact ih s₁ s₂ h
    · rw [uniqByFirstAux, if_neg ha, uniqByFirstAux, if_neg (fun hc => ha ((h (f a)).mpr hc))]
      refine congrArg (a :: ·) (ih _ _ fun b => ?_)
      simp only [List.mem_cons]
      exact or_congr Iff.rfl (h b)

theorem uniqAux_append {α β : Type} [DecidableEq β] (f : α → β) :
    ∀ (a b : List α) (s : List β),
      uniqByFirstAux f s (a ++ b) =
        uniqByFirstAux f s a ++ uniqByFirstAux f (a.map f ++ s) b := by
  intro a
  induction a with
  | nil => intro b s; simp [uniqByFirstAux]
  | cons x a ih =>
    intro b s
    by_cases hx : f x ∈ s
    · rw [List.cons_append, uniqByFirstAux, if_pos hx, uniqByFirstAux, if_pos hx, ih]
      refine congrArg _ (uniqAux_cong f b _ _ fun c => ?_)
      simp only [List.map_cons, List.cons_append, List.mem_cons, List.mem_append]
      constructor
      · exact Or.inr
      · rintro (rfl | h)
        · exact Or.inr hx
        · exact h
    · rw [List.cons_append, uniqByFirstAux, if_neg hx, uniqByFirstAux, if_neg hx, ih,
        List.cons_append]
      refine congrArg _ (congrArg _ (uniqAux_cong f b _ _ fun c => ?_))
      simp only [List.map_cons, List.mem_append, List.mem_cons]
      tauto

theorem uniqAux_sub {α β : Type} [DecidableEq β] (f : α → β) :
    ∀ (b : List α) (s s' : List β), (∀ x ∈ s, x ∈ s') →
      uniqByFirstAux f s' (uniqByFirstAux f s b) = uniqByFirstAux f s' b := by
  intro b
  induction b with
  | nil => intro _ _ _; rfl
  | cons x b ih =>
    intro s s' hss
    by_cases hx : f x ∈ s
    · rw [uniqByFirstAux, if_pos hx, uniqByFirstAux, if_pos (hss _ hx), ih s s' hss]
    · rw [uniqByFirstAux, if_neg hx]
      by_cases hx' : f x ∈ s'
      · rw [uniqByFirstAux, if_pos hx', uniqByFirstAux, if_pos hx']
        refine ih (f x :: s) s' fun y hy => ?_
        rcases List.mem_cons.mp hy with rfl | hy
        · exact hx'
        · exact hss _ hy
      · rw [uniqByFirstAux, if_neg hx', uniqByFirstAux, if_neg hx']
        refine congrArg _ (ih (f x :: s) (f x :: s') fun y hy => ?_)
        rcases List.mem_cons.mp hy with rfl | hy
        · exact List.mem_cons_self _ _
        · exact List.mem_cons_of_mem _ (hss _ hy)

theorem mem_uniqAux_of_mem {α : Type} [DecidableEq α] :
    ∀ (l : List α) (seen : List α) (a : α), a ∈ uniqByFirstAux id seen l → a ∈ l := by
  intro l
  induction l with
  | nil => intro _ _ h; cases h
  | cons x l ih =>
    intro seen a h
    rw [uniqByFirstAux] at h
    by_cases hx : id x ∈ seen
    · rw [if_pos hx] at h
      exact List.mem_cons_of_mem _ (ih seen a h)
    · rw [if_neg hx] at h
      rcases List.mem_cons.mp h with rfl | h
      · exact List.mem_cons_self _ _
      · exact List.mem_cons_of_mem _ (ih _ a h)

theorem mem_uniqAux_of_mem_list {α : Type} [DecidableEq α] :
    ∀ (l : List α) (seen : List α) (a : α), a ∈ l → a ∉ seen →
      a ∈ uniqByFirstAux id seen l := by
  intro l
  induction l with
  | nil => intro _ _ h; cases h
  | cons x l ih =>
    intro seen a ha hseen
    rw [uniqByFirstAux]
    by_cases hax : a = x
    · subst hax
      rw [if_neg (by simpa using hseen)]
      exact List.mem_cons_self _ _
    · have ha' : a ∈ l := by
        rcases List.mem_cons.mp ha with rfl | h
        · exact absurd rfl hax
        · exact h
      by_cases hx : id x ∈ seen
      · rw [if_pos hx]
        exact ih seen a ha' hseen
      · rw [if_neg hx]
        refine List.mem_cons_of_mem _ (ih _ a ha' ?_)
        simp only [List.mem_cons]
        rintro (h | h)
        · exact hax h
        · exact hseen h

theorem mem_uniqFirst {α : Type} [DecidableEq α] (l : List α) (a : α) :
    a ∈ uniqFirst l ↔ a ∈ l := by
  constructor
  · exact mem_uniqAux_of_mem l [] a
  · intro h
    exact mem_uniqAux_of_mem_list l [] a h (by simp)

theorem nodup_uniqAux {α β : Type} [DecidableEq β] (f : α → β) :
    ∀ (l : List α) (seen : List β),
      ((uniqByFirstAux f seen l).map f).Nodup ∧
        ∀ b ∈ (uniqByFirstAux f seen l).map f, b ∉ seen := by
  intro l
  induction l with
  | nil => intro seen; exact ⟨List.nodup_nil, by simp [uniqByFirstAux]⟩
  | cons a l ih =>
    intro seen
    rw [uniqByFirstAux]
    by_cases ha : f a ∈ seen
    · rw [if_pos ha]
      exact ih seen
    · rw [if_neg ha]
      obtain ⟨hnd, hout⟩ := ih (f a :: seen)
      refine ⟨?_, ?_⟩
      · rw [List.map_cons, List.nodup_cons]
        exact ⟨fun hc => (hout _ hc) (List.mem_cons_self _ _), hnd⟩
      · intro b hb
        rw [List.map_cons] at hb
        rcases List.mem_cons.mp hb with rfl | hb
        · exact ha
        · exact fun hc => (hout b hb) (List.mem_cons_of_mem _ hc)

theorem nodup_uniqFirst {α : Type} [DecidableEq α] (l : List α) : (uniqFirst l).Nodup := by
  have := (nodup_uniqAux id l []).1
  simpa using this

theorem nodup_map_uniqByFirst {α β : Type} [DecidableEq β] (f : α → β) (l : List α) :
    ((uniqByFirst f l).map f).Nodup :=
  (nodup_uniqAux f l []).1

theorem mem_map_uniqByFirst {α β : Type} [DecidableEq β] (f : α → β) :
    ∀ (l : List α) (seen : List β) (b : β), b ∈ l.map f →
      b ∈ seen ∨ b ∈ (uniqByFirstAux f seen l).map f := by
  intro l
  induction l with
  | nil => intro _ _ h; cases h
  | cons a l ih =>
    intro seen b hb
    rw [uniqByFirstAux]
    rw [List.map_cons, List.mem_cons] at hb
    by_cases ha : f a ∈ seen
    · rw [if_pos ha]
      rcases hb with rfl | hb
      · exact Or.inl ha
      · exact ih seen b hb
    · rw [if_neg ha, List.map_cons]
      rcases hb with rfl | hb
      · exact Or.inr (List.mem_cons_self _ _)
      · rcases ih (f a :: seen) b hb with h | h
        · rcases List.mem_cons.mp h with rfl | h
          · exact Or.inr (List.mem_cons_self _ _)
          · exact Or.inl h
        · exact Or.inr (List.mem_cons_of_mem _ h)

theorem uniqAux_fix {α : Type} [DecidableEq α] :
    ∀ (l : List α) (seen : List α), l.Nodup → (∀ x ∈ l, x ∉ seen) →
      uniqByFirstAux id seen l = l := by
  intro l
  induction l with
  | nil => intro _ _ _; rfl
  | cons x l ih =>
    intro seen hnd hout
    rw [List.nodup_cons] at hnd
    rw [uniqByFirstAux, if_neg (by simpa using hout x (List.mem_cons_self _ _))]
    refine congrArg _ (ih _ hnd.2 fun y hy => ?_)
    simp only [List.mem_cons]
    rintro (rfl | h)
    · exact hnd.1 hy
    · exact hout y (List.mem_cons_of_mem _ hy) h

theorem uniqFirst_idem {α : Type} [DecidableEq α] (l : List α) :
    uniqFirst (uniqFirst l) = uniqFirst l :=
  uniqAux_fix _ [] (nodup_uniqFirst l) (by simp)

/-- Deduplication sees through an already-deduplicated middle block. -/
theorem uniqFirst_middle {α : Type} [DecidableEq α] (a m b : List α) :
    uniqFirst (a ++ uniqFirst m ++ b) = uniqFirst (a ++ m ++ b) := by
  show uniqByFirstAux id [] (a ++ uniqFirst m ++ b) = uniqByFirstAux id [] (a ++ m ++ b)
  rw [List.append_assoc, uniqAux_append, List.append_assoc, uniqAux_append,
    uniqAux_append, uniqAux_append]
  have h1 : uniqByFirstAux id (a.map id ++ []) (uniqFirst m) =
      uniqByFirstAux id (a.map id ++ []) m :=
    uniqAux_sub id m [] _ (by simp)
  rw [h1]
  refine congrArg _ (congrArg _ (uniqAux_cong id b _ _ fun c => ?_))
  have hm : ∀ x, x ∈ (uniqFirst m).map id ↔ x ∈ m.map id := by
    intro x
    simp [mem_uniqFirst]
  simp only [List.mem_append]
  exact or_congr (hm c) Iff.rfl

theorem uniqFirst_append_singleton {α : Type} [DecidableEq α] (l : List α) (x : α) :
    uniqFirst (l ++ [x]) = if x ∈ l then uniqFirst l else uniqFirst l ++ [x] := by
  show uniqByFirstAux id [] (l ++ [x]) = _
  rw [uniqAux_append]
  by_cases hx : x ∈ l
  · rw [if_pos hx]
    have : uniqByFirstAux id (l.map id ++ []) [x] = [] := by
      rw [uniqByFirstAux, if_pos (by simpa using hx)]
      rfl
    rw [this, List.append_nil]
    rfl
  · rw [if_neg hx]
    have : uniqByFirstAux id (l.map id ++ []) [x] = [x] := by
      rw [uniqByFirstAux, if_neg (by simpa using hx)]
      rfl
    rw [this]
    rfl

/-! ### The canonical group table -/

/-- The group keys, in first-encounter order. -/
def keysOf (P : Params) (L : List Rec) : List String := uniqFirst (L.map (hashKeyOf P))

/-- The records of one group, in input order. -/
def membersOf (P : Params) (L : List Rec) (k : String) : List Rec :=
  L.filter (fun r => hashKeyOf P r = k)

/-- The accumulated contribution of one group. -/
def groupContrib (P : Params) (L : List Rec) (k : String) : Contrib :=
  List.foldl combC unitC ((membersOf P L k).map (contribOf P))

/-- The canonical group record: the metadata denoted by the group's total
contribution over the identifying fields of the group's first record. -/
def canonGroup (P : Params) (L : List Rec) (k : String) : Rec :=
  ⟨some ⟨(groupContrib P L k).cnt, P.matchKeys, mkSources P.fields (groupContrib P L k)⟩,
   (initGroup P ((membersOf P L k).headD ⟨none, []⟩)).fields⟩

/-- The canonical state of the accumulation fold after the whole input. -/
def canonState (P : Params) (L : List Rec) : List (String × Rec) :=
  (keysOf P L).map (fun k => (k, canonGroup P L k))

theorem keysOf_nodup (P : Params) (L : List Rec) : (keysOf P L).Nodup :=
  nodup_uniqFirst _

theorem mem_keysOf (P : Params) (L : List Rec) (k : String) :
    k ∈ keysOf P L ↔ k ∈ L.map (hashKeyOf P) := mem_uniqFirst _ _

theorem membersOf_nil_of_not_mem {P : Params} {L : List Rec} {k : String}
    (h : k ∉ keysOf P L) : membersOf P L k = [] := by
  rw [mem_keysOf] at h
  rw [membersOf, List.filter_eq_nil]
  intro r hr
  simp only [decide_eq_true_eq]
  intro hkey
  exact h (hkey ▸ List.mem_map_of_mem _ hr)

theorem membersOf_ne_nil_of_mem {P : Params} {L : List Rec} {k : String}
    (h : k ∈ keysOf P L) : membersOf P L k ≠ [] := by
  rw [mem_keysOf] at h
  obtain ⟨r, hr, hkey⟩ := List.mem_map.mp h
  intro hc
  have : r ∈ membersOf P L k := by
    rw [membersOf, List.mem_filter]
    exact ⟨hr, by simp [hkey]⟩
  rw [hc] at this
  cases this

theorem membersOf_append (P : Params) (L₁ L₂ : List Rec) (k : String) :
    membersOf P (L₁ ++ L₂) k = membersOf P L₁ k ++ membersOf P L₂ k := by
  simp [membersOf, List.filter_append]

theorem membersOf_singleton (P : Params) (r : Rec) (k : String) :
    membersOf P [r] k = if hashKeyOf P r = k then [r] else [] := by
  by_cases h : hashKeyOf P r = k
  · simp [membersOf, List.filter, h]
  · simp [membersOf, List.filter, h]

theorem keysOf_append_singleton (P : Params) (L : List Rec) (r : Rec) :
    keysOf P (L ++ [r]) =
      if hashKeyOf P r ∈ keysOf P L then keysOf P L
      else keysOf P L ++ [hashKeyOf P r] := by
  rw [keysOf, List.map_append, List.map_singleton, uniqFirst_append_singleton]
  by_cases h : hashKeyOf P r ∈ L.map (hashKeyOf P)
  · rw [if_pos h, if_pos ((mem_keysOf P L _).mpr h)]
    rfl
  · rw [if_neg h, if_neg (fun hc => h ((mem_keysOf P L _).mp hc))]
    rfl

/-! ### Reading the canonical sources map -/

theorem alookup_mkSources_std (fields : List (String × AggField)) (c : Contrib) {s : String}
    (hs : s ∈ standardSourceFields fields) :
    alookup (mkSources fields c) s = some (stdStOf (c.std s)) := by
  rw [mkSources, alookup_append]
  have heq : (standardSourceFields fields).map (stdEntry c) =
      (standardSourceFields fields).map (fun t => (t, stdStOf (c.std t))) := rfl
  rw [heq, alookup_map_keys, if_pos hs]
  rfl

theorem alookup_mkSources_nostd (fields : List (String × AggField)) (c : Contrib) {k : String}
    (hstd : k ∉ standardSourceFields fields) :
    alookup (mkSources fields c) k =
      alookup ((weightedAvgFields fields).map (wavgEntry c)) k := by
  rw [mkSources, alookup_append]
  have heq : (standardSourceFields fields).map (stdEntry c) =
      (standardSourceFields fields).map (fun t => (t, stdStOf (c.std t))) := rfl
  rw [heq, alookup_map_keys, if_neg hstd]
  rfl

theorem alookup_mkSources_wavgKey (fields : List (String × AggField)) (c : Contrib) {k : String}
    (hstd : k ∉ standardSourceFields fields) (hk : k ∈ wavgKeys fields) :
    alookup (mkSources fields c) k = some (wavgStOf (c.wv k)) := by
  rw [alookup_mkSources_nostd fields c hstd]
  have heq : (weightedAvgFields fields).map (wavgEntry c) =
      (weightedAvgFields fields).map (fun f => (waKey f, wavgStOf (c.wv (waKey f)))) := rfl
  rw [heq, alookup_map_by]
  obtain ⟨f₀, hf₀, hkey⟩ := List.mem_map.mp hk
  cases hfind : (weightedAvgFields fields).find? (fun f => waKey f = k) with
  | none =>
    rw [List.find?_eq_none] at hfind
    exact absurd (by simpa using hkey) (by simpa using hfind f₀ hf₀)
  | some f' =>
    simp only [hfind]
    have hp : waKey f' = k := by simpa using List.find?_some hfind
    rw [hp]

theorem isAggRecord_of_CSR {P : Params} {r : Rec} (hwf : WFfields P.fields)
    (h : IsCSR P r) : isAggRecord P r = true := by
  obtain ⟨c, mks, hres, hmeta, hsub⟩ := h
  rw [isAggRecord, hmeta]
  simp only [Bool.and_eq_true]
  refine ⟨⟨hsub, ?_⟩, ?_⟩
  · rw [List.all_eq_true]
    intro s hs
    show (alookup (mkSources P.fields c) s).isSome = true
    rw [alookup_mkSources_std P.fields c hs]
    rfl
  · rw [List.all_eq_true]
    intro f hf
    have hs := hwf.2.1 f hf
    show (alookup (mkSources P.fields c) (propKey f.sourceField)).isSome = true
    rw [alookup_mkSources_std P.fields c hs]
    rfl

theorem aggContrib_roundtrip (fields : List (String × AggField)) (hwf : WFfields fields)
    (c : Contrib) (mks : List String) (hres : Restricted fields c) :
    aggContrib fields ⟨c.cnt, mks, mkSources fields c⟩ = c := by
  rcases c with ⟨cnt, std, wv⟩
  rw [aggContrib]
  refine congrArg₂ (Contrib.mk _) (funext fun s => ?_) (funext fun k => ?_)
  · by_cases hs : s ∈ standardSourceFields fields
    · rw [if_pos hs, alookup_mkSources_std fields _ hs]
      rfl
    · rw [if_neg hs]
      exact (hres.1 s hs).symm
  · by_cases hk : k ∈ wavgKeys fields
    · obtain ⟨f₀, hf₀, hkey⟩ := List.mem_map.mp hk
      have hstd : k ∉ standardSourceFields fields := hkey ▸ hwf.2.2.1 f₀ hf₀
      rw [if_pos hk, alookup_mkSources_wavgKey fields _ hstd hk]
      rfl
    · rw [if_neg hk]
      exact (hres.2 k hk).symm

theorem contribOf_CSR {P : Params} {r : Rec} {c : Contrib} {mks : List String}
    (hwf : WFfields P.fields) (hres : Restricted P.fields c)
    (hmeta : r.meta = some ⟨c.cnt, mks, mkSources P.fields c⟩)
    (hsub : isSubset P.matchKeys mks = true) : contribOf P r = c := by
  rw [contribOf, if_pos (isAggRecord_of_CSR hwf ⟨c, mks, hres, hmeta, hsub⟩)]
  rw [hmeta]
  exact aggContrib_roundtrip P.fields hwf c mks hres

theorem nodup_wavgKeys (fields : List (String × AggField)) : (wavgKeys fields).Nodup :=
  nodup_map_uniqByFirst _ _

/-! ### The record's contribution, as the accumulation loops read it -/

theorem cnt_contrib {P : Params} (hwf : WFfields P.fields) {r : Rec} (hok : OkRec P r) :
    (if isAggRecord P r then (r.meta.map (·.count)).getD .nan else .fin 1) =
      (contribOf P r).cnt := by
  rcases hok with hnone | hcsr
  · simp [isAggRecord_of_meta_none hnone, contribOf, rawContrib]
  · obtain ⟨c, mks, hres, hmeta, hsub⟩ := hcsr
    have hb := isAggRecord_of_CSR hwf ⟨c, mks, hres, hmeta, hsub⟩
    rw [contribOf_CSR hwf hres hmeta hsub, hb, if_pos rfl, hmeta]
    rfl

theorem std_contrib {P : Params} (hwf : WFfields P.fields) {r : Rec} (hok : OkRec P r)
    {s : String} (hs : s ∈ standardSourceFields P.fields) :
    stdContribOf r (isAggRecord P r) s =
      .ok (((contribOf P r).std s).sum, ((contribOf P r).std s).sumOfSquares,
        ((contribOf P r).std s).min, ((contribOf P r).std s).max) := by
  rcases hok with hnone | hcsr
  · simp [isAggRecord_of_meta_none hnone, stdContribOf, contribOf, rawContrib, hs]
    rfl
  · obtain ⟨c, mks, hres, hmeta, hsub⟩ := hcsr
    have hb := isAggRecord_of_CSR hwf ⟨c, mks, hres, hmeta, hsub⟩
    rw [contribOf_CSR hwf hres hmeta hsub, hb]
    show ((match r.meta.bind (fun m => alookup m.sources s) with
      | some ss => pure (ss.sum.getD .nan, ss.sumOfSquares.getD .nan,
          ss.min.getD .nan, ss.max.getD .nan)
      | none => throw JsError.typeError) : Except JsError (JsNum × JsNum × JsNum × JsNum)) = _
    rw [hmeta]
    show ((match alookup (mkSources P.fields c) s with
      | some ss => pure (ss.sum.getD .nan, ss.sumOfSquares.getD .nan,
          ss.min.getD .nan, ss.max.getD .nan)
      | none => throw JsError.typeError) : Except JsError (JsNum × JsNum × JsNum × JsNum)) = _
    rw [alookup_mkSources_std P.fields c hs]
    rfl

theorem wavg_contrib {P : Params} (hwf : WFfields P.fields) {r : Rec} (hok : OkRec P r)
    {f : AggField} (hf : f ∈ weightedAvgFields P.fields) {w : String}
    (hw : f.weightField = some w) :
    wavgContribOf r (isAggRecord P r) f w =
      .ok (((contribOf P r).wv (waKey f)).totalWeight,
        ((contribOf P r).wv (waKey f)).weightedSum) := by
  rcases hok with hnone | hcsr
  · have hb : isAggRecord P r = false := isAggRecord_of_meta_none hnone
    rw [hb]
    have hfind : (weightedAvgFields P.fields).find? (fun g => waKey g = waKey f) = some f :=
      find?_first_of_nodup waKey (weightedAvgFields P.fields) f
        (nodup_wavgKeys P.fields) hf
    have hδ : contribOf P r = rawContrib P.fields r := by
      simp [contribOf, hb]
    rw [hδ]
    show wavgContribOf r false f w = _
    have hwv : (rawContrib P.fields r).wv (waKey f) =
        ⟨(toNum (match f.sourceField with | some s => r.get s | none => .undef)).mul
          (toNum (r.get (propKey f.weightField))), toNum (r.get (propKey f.weightField))⟩ := by
      show (match (weightedAvgFields P.fields).find? (fun g => waKey g = waKey f) with
        | some g =>
          (⟨(toNum (match g.sourceField with | some s => r.get s | none => .undef)).mul
            (toNum (r.get (propKey g.weightField))),
            toNum (r.get (propKey g.weightField))⟩ : WeightC)
        | none => allNaNW) = _
      rw [hfind]
    rw [hwv, hw]
    rfl
  · obtain ⟨c, mks, hres, hmeta, hsub⟩ := hcsr
    have hb := isAggRecord_of_CSR hwf ⟨c, mks, hres, hmeta, hsub⟩
    rw [contribOf_CSR hwf hres hmeta hsub, hb]
    have hk : waKey f ∈ wavgKeys P.fields := List.mem_map_of_mem waKey hf
    have hstd : waKey f ∉ standardSourceFields P.fields := hwf.2.2.1 f hf
    show ((match r.meta.bind (fun m => alookup m.sources
        (getWeightedAverageMetadataKey f.sourceField f.weightField)) with
      | some ss => pure (ss.totalWeight.getD .nan, ss.weightedSum.getD .nan)
      | none => throw JsError.typeError) : Except JsError (JsNum × JsNum)) = _
    rw [hmeta]
    show ((match alookup (mkSources P.fields c) (waKey f) with
      | some ss => pure (ss.totalWeight.getD .nan, ss.weightedSum.getD .nan)
      | none => throw JsError.typeError) : Except JsError (JsNum × JsNum)) = _
    rw [alookup_mkSources_wavgKey P.fields c hstd hk]
    rfl

/-! ### One accumulation step on a canonical group -/

theorem stdUpdate_exist (r : Rec) (isAgg : Bool) (cnt : JsNum) (mks : List String)
    (fs : List (String × JsVal)) (pre post : List (String × SourceState)) (s : String)
    (mC m : MetricC) (hpre : alookup pre s = none)
    (hc : stdContribOf r isAgg s = Except.ok (m.sum, m.sumOfSquares, m.min, m.max)) :
    stdUpdate r isAgg ⟨some ⟨cnt, mks, pre ++ (s, stdStOf mC) :: post⟩, fs⟩ s =
      .ok ⟨some ⟨cnt, mks, pre ++ (s, stdStOf (combM mC m)) :: post⟩, fs⟩ := by
  have hlook : alookup (pre ++ (s, stdStOf mC) :: post) s = some (stdStOf mC) := by
    rw [alookup_append, hpre]
    simp [alookup]
  have hset : aset (pre ++ (s, stdStOf mC) :: post) s
      (stdStOf (combM mC m)) = pre ++ (s, stdStOf (combM mC m)) :: post := by
    rw [aset_append_left _ _ _ _ hpre, aset_cons_self]
  simp only [stdUpdate, Bind.bind, Except.bind, Pure.pure, Except.pure, hc, hlook,
    Option.isSome_some, if_true, Option.getD_some]
  rw [show ({ stdStOf mC with
      sum := some (((stdStOf mC).sum.getD .nan).add m.sum)
      sumOfSquares := some (((stdStOf mC).sumOfSquares.getD .nan).add m.sumOfSquares)
      min := some (((stdStOf mC).min.getD .nan).minN m.min)
      max := some (((stdStOf mC).max.getD .nan).maxN m.max) } : SourceState) =
    stdStOf (combM mC m) from rfl]
  rw [hset]

theorem stdUpdate_fresh (r : Rec) (isAgg : Bool) (cnt : JsNum) (mks : List String)
    (fs : List (String × JsVal)) (pre : List (String × SourceState)) (s : String)
    (m : MetricC) (hpre : alookup pre s = none)
    (hc : stdContribOf r isAgg s = Except.ok (m.sum, m.sumOfSquares, m.min, m.max)) :
    stdUpdate r isAgg ⟨some ⟨cnt, mks, pre⟩, fs⟩ s =
      .ok ⟨some ⟨cnt, mks, pre ++ [(s, stdStOf (combM (unitC.std s) m))]⟩, fs⟩ := by
  have hlook : alookup (pre ++ [(s, stdInit)]) s = some stdInit := by
    rw [alookup_append, hpre]
    simp [alookup]
  have hset : aset (pre ++ [(s, stdInit)]) s (stdStOf (combM (unitC.std s) m)) =
      pre ++ [(s, stdStOf (combM (unitC.std s) m))] := by
    rw [aset_append_left _ _ _ _ hpre, aset_cons_self]
  simp only [stdUpdate, Bind.bind, Except.bind, Pure.pure, Except.pure, hc, hpre,
    Option.isSome_none, Bool.false_eq_true, if_false, hlook, Option.getD_some]
  rw [show ({ stdInit with
      sum := some ((stdInit.sum.getD .nan).add m.sum)
      sumOfSquares := some ((stdInit.sumOfSquares.getD .nan).add m.sumOfSquares)
      min := some ((stdInit.min.getD .nan).minN m.min)
      max := some ((stdInit.max.getD .nan).maxN m.max) } : SourceState) =
    stdStOf (combM (unitC.std s) m) from rfl]
  rw [hset]

theorem wavgUpdate_exist (r : Rec) (isAgg : Bool) (cnt : JsNum) (mks : List String)
    (fs : List (String × JsVal)) (pre post : List (String × SourceState))
    (mth : AggregationTypes) (sf : Option String) (w : String) (wC wc : WeightC)
    (hpre : alookup pre (getWeightedAverageMetadataKey sf (some w)) = none)
    (hc : wavgContribOf r isAgg ⟨mth, sf, some w⟩ w =
      Except.ok (wc.totalWeight, wc.weightedSum)) :
    wavgUpdate r isAgg
      ⟨some ⟨cnt, mks,
        pre ++ (getWeightedAverageMetadataKey sf (some w), wavgStOf wC) :: post⟩, fs⟩
      ⟨mth, sf, some w⟩ =
      .ok ⟨some ⟨cnt, mks,
        pre ++ (getWeightedAverageMetadataKey sf (some w), wavgStOf (combW wC wc)) :: post⟩,
        fs⟩ := by
  have hlook : alookup
      (pre ++ (getWeightedAverageMetadataKey sf (some w), wavgStOf wC) :: post)
      (getWeightedAverageMetadataKey sf (some w)) = some (wavgStOf wC) := by
    rw [alookup_append, hpre]
    simp [alookup]
  have hset : aset
      (pre ++ (getWeightedAverageMetadataKey sf (some w), wavgStOf wC) :: post)
      (getWeightedAverageMetadataKey sf (some w)) (wavgStOf (combW wC wc)) =
      pre ++ (getWeightedAverageMetadataKey sf (some w), wavgStOf (combW wC wc)) :: post := by
    rw [aset_append_left _ _ _ _ hpre, aset_cons_self]
  simp only [wavgUpdate, Bind.bind, Except.bind, Pure.pure, Except.pure, hc, hlook,
    Option.isSome_some, if_true, Option.getD_some]
  rw [show ({ wavgStOf wC with
      totalWeight := some (((wavgStOf wC).totalWeight.getD .nan).add wc.totalWeight)
      weightedSum := some (((wavgStOf wC).weightedSum.getD .nan).add wc.weightedSum) }
      : SourceState) = wavgStOf (combW wC wc) from rfl]
  rw [hset]

theorem wavgUpdate_fresh (r : Rec) (isAgg : Bool) (cnt : JsNum) (mks : List String)
    (fs : List (String × JsVal)) (pre : List (String × SourceState))
    (mth : AggregationTypes) (sf : Option String) (w : String) (wc : WeightC)
    (hpre : alookup pre (getWeightedAverageMetadataKey sf (some w)) = none)
    (hc : wavgContribOf r isAgg ⟨mth, sf, some w⟩ w =
      Except.ok (wc.totalWeight, wc.weightedSum)) :
    wavgUpdate r isAgg ⟨some ⟨cnt, mks, pre⟩, fs⟩ ⟨mth, sf, some w⟩ =
      .ok ⟨some ⟨cnt, mks, pre ++
        [(getWeightedAverageMetadataKey sf (some w),
          wavgStOf (combW (unitC.wv (getWeightedAverageMetadataKey sf (some w))) wc))]⟩,
        fs⟩ := by
  have hlook : alookup (pre ++ [(getWeightedAverageMetadataKey sf (some w), wavgInit)])
      (getWeightedAverageMetadataKey sf (some w)) = some wavgInit := by
    rw [alookup_append, hpre]
    simp [alookup]
  have hset : aset (pre ++ [(getWeightedAverageMetadataKey sf (some w), wavgInit)])
      (getWeightedAverageMetadataKey sf (some w))
      (wavgStOf (combW (unitC.wv (getWeightedAverageMetadataKey sf (some w))) wc)) =
      pre ++ [(getWeightedAverageMetadataKey sf (some w),
        wavgStOf (combW (unitC.wv (getWeightedAverageMetadataKey sf (some w))) wc))] := by
    rw [aset_append_left _ _ _ _ hpre, aset_cons_self]
  simp only [wavgUpdate, Bind.bind, Except.bind, Pure.pure, Except.pure, hc, hpre,
    Option.isSome_none, Bool.false_eq_true, if_false, hlook, Option.getD_some]
  rw [show ({ wavgInit with
      totalWeight := some ((wavgInit.totalWeight.getD .nan).add wc.totalWeight)
      weightedSum := some ((wavgInit.weightedSum.getD .nan).add wc.weightedSum) }
      : SourceState) =
    wavgStOf (combW (unitC.wv (getWeightedAverageMetadataKey sf (some w))) wc) from rfl]
  rw [hset]

/-! ### The accumulation loops on a canonical group -/

theorem stdFold_exist (r : Rec) (isAgg : Bool) (δ : Contrib) :
    ∀ (todo : List String) (C : Contrib) (cnt : JsNum) (mks : List String)
      (fs : List (String × JsVal)) (pre post : List (String × SourceState)),
      todo.Nodup → (∀ s ∈ todo, alookup pre s = none) →
      (∀ s ∈ todo, stdContribOf r isAgg s =
        Except.ok ((δ.std s).sum, (δ.std s).sumOfSquares, (δ.std s).min, (δ.std s).max)) →
      List.foldlM (stdUpdate r isAgg)
        (⟨some ⟨cnt, mks, pre ++ todo.map (stdEntry C) ++ post⟩, fs⟩ : Rec) todo =
      .ok ⟨some ⟨cnt, mks, pre ++ todo.map (stdEntry (combC C δ)) ++ post⟩, fs⟩ := by
  intro todo
  induction todo with
  | nil =>
    intro C cnt mks fs pre post _ _ _
    rfl
  | cons s rest ih =>
    intro C cnt mks fs pre post hnd hpre hc
    rw [List.nodup_cons] at hnd
    rw [List.foldlM_cons]
    have hinit : pre ++ (s :: rest).map (stdEntry C) ++ post =
        pre ++ (s, stdStOf (C.std s)) :: (rest.map (stdEntry C) ++ post) := by
      simp [stdEntry]
    rw [hinit]
    rw [stdUpdate_exist r isAgg cnt mks fs pre (rest.map (stdEntry C) ++ post) s
      (C.std s) (δ.std s) (hpre s (List.mem_cons_self s rest))
      (hc s (List.mem_cons_self s rest)), except_bind_ok]
    have harr : pre ++ (s, stdStOf (combM (C.std s) (δ.std s))) ::
        (rest.map (stdEntry C) ++ post) =
        (pre ++ [stdEntry (combC C δ) s]) ++ rest.map (stdEntry C) ++ post := by
      simp [stdEntry, combC]
    rw [harr]
    have hpre' : ∀ t ∈ rest, alookup (pre ++ [stdEntry (combC C δ) s]) t = none := by
      intro t ht
      rw [alookup_append, hpre t (List.mem_cons_of_mem s ht)]
      have hts : s ≠ t := fun h => hnd.1 (h ▸ ht)
      simp [alookup, stdEntry, hts]
    rw [ih C cnt mks fs (pre ++ [stdEntry (combC C δ) s]) post hnd.2 hpre'
      (fun t ht => hc t (List.mem_cons_of_mem s ht))]
    simp [List.append_assoc]

theorem stdFold_fresh (r : Rec) (isAgg : Bool) (δ : Contrib) :
    ∀ (todo : List String) (cnt : JsNum) (mks : List String)
      (fs : List (String × JsVal)) (pre : List (String × SourceState)),
      todo.Nodup → (∀ s ∈ todo, alookup pre s = none) →
      (∀ s ∈ todo, stdContribOf r isAgg s =
        Except.ok ((δ.std s).sum, (δ.std s).sumOfSquares, (δ.std s).min, (δ.std s).max)) →
      List.foldlM (stdUpdate r isAgg) (⟨some ⟨cnt, mks, pre⟩, fs⟩ : Rec) todo =
      .ok ⟨some ⟨cnt, mks, pre ++ todo.map (stdEntry (combC unitC δ))⟩, fs⟩ := by
  intro todo
  induction todo with
  | nil =>
    intro cnt mks fs pre _ _ _
    simp [List.foldlM, Pure.pure, Except.pure]
  | cons s rest ih =>
    intro cnt mks fs pre hnd hpre hc
    rw [List.nodup_cons] at hnd
    rw [List.foldlM_cons]
    rw [stdUpdate_fresh r isAgg cnt mks fs pre s (δ.std s)
      (hpre s (List.mem_cons_self s rest)) (hc s (List.mem_cons_self s rest)),
      except_bind_ok]
    have hpre' : ∀ t ∈ rest,
        alookup (pre ++ [(s, stdStOf (combM (unitC.std s) (δ.std s)))]) t = none := by
      intro t ht
      rw [alookup_append, hpre t (List.mem_cons_of_mem s ht)]
      have hts : s ≠ t := fun h => hnd.1 (h ▸ ht)
      simp [alookup, hts]
    rw [ih cnt mks fs (pre ++ [(s, stdStOf (combM (unitC.std s) (δ.std s)))]) hnd.2 hpre'
      (fun t ht => hc t (List.mem_cons_of_mem s ht))]
    simp [stdEntry, List.append_assoc, combC]

theorem wavgFold_exist (r : Rec) (isAgg : Bool) (δ : Contrib) :
    ∀ (todo : List AggField) (C : Contrib) (cnt : JsNum) (mks : List String)
      (fs : List (String × JsVal)) (pre post : List (String × SourceState)),
      (todo.map waKey).Nodup →
      (∀ f ∈ todo, alookup pre (waKey f) = none) →
      (∀ f ∈ todo, f.weightField ≠ none) →
      (∀ f ∈ todo, ∀ w, f.weightField = some w → wavgContribOf r isAgg f w =
        Except.ok ((δ.wv (waKey f)).totalWeight, (δ.wv (waKey f)).weightedSum)) →
      List.foldlM (wavgUpdate r isAgg)
        (⟨some ⟨cnt, mks, pre ++ todo.map (wavgEntry C) ++ post⟩, fs⟩ : Rec) todo =
      .ok ⟨some ⟨cnt, mks, pre ++ todo.map (wavgEntry (combC C δ)) ++ post⟩, fs⟩ := by
  intro todo
  induction todo with
  | nil =>
    intro C cnt mks fs pre post _ _ _ _
    rfl
  | cons f rest ih =>
    intro C cnt mks fs pre post hnd hpre hwn hc
    rw [List.map_cons, List.nodup_cons] at hnd
    rcases f with ⟨mth, sf, wf⟩
    cases wf with
    | none => exact absurd rfl (hwn _ (List.mem_cons_self _ _))
    | some w =>
    rw [List.foldlM_cons]
    have hkey : waKey ⟨mth, sf, some w⟩ = getWeightedAverageMetadataKey sf (some w) := rfl
    have hinit : pre ++ ((⟨mth, sf, some w⟩ : AggField) :: rest).map (wavgEntry C) ++ post =
        pre ++ (getWeightedAverageMetadataKey sf (some w),
          wavgStOf (C.wv (getWeightedAverageMetadataKey sf (some w)))) ::
          (rest.map (wavgEntry C) ++ post) := by
      simp [wavgEntry, hkey]
    rw [hinit]
    rw [wavgUpdate_exist r isAgg cnt mks fs pre (rest.map (wavgEntry C) ++ post) mth sf w
      (C.wv (getWeightedAverageMetadataKey sf (some w)))
      (δ.wv (getWeightedAverageMetadataKey sf (some w)))
      (hkey ▸ hpre _ (List.mem_cons_self _ _))
      (hkey ▸ hc _ (List.mem_cons_self _ _) w rfl), except_bind_ok]
    have harr : pre ++ (getWeightedAverageMetadataKey sf (some w),
        wavgStOf (combW (C.wv (getWeightedAverageMetadataKey sf (some w)))
          (δ.wv (getWeightedAverageMetadataKey sf (some w))))) ::
        (rest.map (wavgEntry C) ++ post) =
        (pre ++ [wavgEntry (combC C δ) ⟨mth, sf, some w⟩]) ++ rest.map (wavgEntry C) ++ post := by
      simp [wavgEntry, combC, hkey]
    rw [harr]
    have hpre' : ∀ g ∈ rest,
        alookup (pre ++ [wavgEntry (combC C δ) ⟨mth, sf, some w⟩]) (waKey g) = none := by
      intro g hg
      rw [alookup_append, hpre g (List.mem_cons_of_mem _ hg)]
      have hgk : waKey ⟨mth, sf, some w⟩ ≠ waKey g :=
        fun h => hnd.1 (h ▸ List.mem_map_of_mem waKey hg)
      simp [alookup, wavgEntry, hgk]
    rw [ih C cnt mks fs (pre ++ [wavgEntry (combC C δ) ⟨mth, sf, some w⟩]) post hnd.2 hpre'
      (fun g hg => hwn g (List.mem_cons_of_mem _ hg))
      (fun g hg => hc g (List.mem_cons_of_mem _ hg))]
    simp [List.append_assoc]

theorem wavgFold_fresh (r : Rec) (isAgg : Bool) (δ : Contrib) :
    ∀ (todo : List AggField) (cnt : JsNum) (mks : List String)
      (fs : List (String × JsVal)) (pre : List (String × SourceState)),
      (todo.map waKey).Nodup →
      (∀ f ∈ todo, alookup pre (waKey f) = none) →
      (∀ f ∈ todo, f.weightField ≠ none) →
      (∀ f ∈ todo, ∀ w, f.weightField = some w → wavgContribOf r isAgg f w =
        Except.ok ((δ.wv (waKey f)).totalWeight, (δ.wv (waKey f)).weightedSum)) →
      List.foldlM (wavgUpdate r isAgg) (⟨some ⟨cnt, mks, pre⟩, fs⟩ : Rec) todo =
      .ok ⟨some ⟨cnt, mks, pre ++ todo.map (wavgEntry (combC unitC δ))⟩, fs⟩ := by
  intro todo
  induction todo with
  | nil =>
    intro cnt mks fs pre _ _ _ _
    simp [List.foldlM, Pure.pure, Except.pure]
  | cons f rest ih =>
    intro cnt mks fs pre hnd hpre hwn hc
    rw [List.map_cons, List.nodup_cons] at hnd
    rcases f with ⟨mth, sf, wf⟩
    cases wf with
    | none => exact absurd rfl (hwn _ (List.mem_cons_self _ _))
    | some w =>
    rw [List.foldlM_cons]
    have hkey : waKey ⟨mth, sf, some w⟩ = getWeightedAverageMetadataKey sf (some w) := rfl
    rw [wavgUpdate_fresh r isAgg cnt mks fs pre mth sf w
      (δ.wv (getWeightedAverageMetadataKey sf (some w)))
      (hkey ▸ hpre _ (List.mem_cons_self _ _))
      (hkey ▸ hc _ (List.mem_cons_self _ _) w rfl), except_bind_ok]
    have hpre' : ∀ g ∈ rest,
        alookup (pre ++ [(getWeightedAverageMetadataKey sf (some w),
          wavgStOf (combW (unitC.wv (getWeightedAverageMetadataKey sf (some w)))
            (δ.wv (getWeightedAverageMetadataKey sf (some w)))))]) (waKey g) = none := by
      intro g hg
      rw [alookup_append, hpre g (List.mem_cons_of_mem _ hg)]
      have hgk : waKey ⟨mth, sf, some w⟩ ≠ waKey g :=
        fun h => hnd.1 (h ▸ List.mem_map_of_mem waKey hg)
      rw [hkey] at hgk
      simp [alookup, hgk]
    rw [ih cnt mks fs _ hnd.2 hpre'
      (fun g hg => hwn g (List.mem_cons_of_mem _ hg))
      (fun g hg => hc g (List.mem_cons_of_mem _ hg))]
    simp [wavgEntry, List.append_assoc, combC, hkey]

/-! ### The canonical state is the fold invariant -/

theorem nodup_standardSourceFields (fields : List (String × AggField)) :
    (standardSourceFields fields).Nodup := nodup_uniqFirst _

theorem headD_append_left {α : Type} (l : List α) (x d : α) (h : l ≠ []) :
    (l ++ [x]).headD d = l.headD d := by
  cases l with
  | nil => exact absurd rfl h
  | cons _ _ => rfl

theorem canonGroup_append_not_self (P : Params) (L : List Rec) (r : Rec) (k : String)
    (hk : hashKeyOf P r ≠ k) : canonGroup P (L ++ [r]) k = canonGroup P L k := by
  have hm : membersOf P (L ++ [r]) k = membersOf P L k := by
    rw [membersOf_append, membersOf_singleton, if_neg hk, List.append_nil]
  rw [canonGroup, canonGroup, groupContrib, groupContrib, hm]

theorem groupContrib_append_self (P : Params) (L : List Rec) (r : Rec) :
    groupContrib P (L ++ [r]) (hashKeyOf P r) =
      combC (groupContrib P L (hashKeyOf P r)) (contribOf P r) := by
  rw [groupContrib, membersOf_append, membersOf_singleton, if_pos rfl, List.map_append,
    List.foldl_append]
  rfl

theorem membersOf_append_self (P : Params) (L : List Rec) (r : Rec) :
    membersOf P (L ++ [r]) (hashKeyOf P r) = membersOf P L (hashKeyOf P r) ++ [r] := by
  rw [membersOf_append, membersOf_singleton, if_pos rfl]

theorem alookup_canonState (P : Params) (L : List Rec) (k : String) :
    alookup (canonState P L) k =
      if k ∈ keysOf P L then some (canonGroup P L k) else none := by
  rw [canonState]
  exact alookup_map_keys (canonGroup P L) (keysOf P L) k

theorem wavgPre_lookup_none (fields : List (String × AggField)) (c : Contrib)
    {f : AggField} (hf : f ∈ weightedAvgFields fields) (hwf : WFfields fields) :
    alookup ((standardSourceFields fields).map (stdEntry c)) (waKey f) = none := by
  have heq : (standardSourceFields fields).map (stdEntry c) =
      (standardSourceFields fields).map (fun t => (t, stdStOf (c.std t))) := rfl
  rw [heq, alookup_map_keys, if_neg (hwf.2.2.1 f hf)]

theorem stepRecord_canon_mem (P : Params) (hwf : WFfields P.fields) (L : List Rec) (r : Rec)
    (hok : OkRec P r) (hmem : hashKeyOf P r ∈ keysOf P L) :
    stepRecord P (canonState P L) r = .ok (canonState P (L ++ [r])) := by
  have hlook : alookup (canonState P L) (hashKeyOf P r) =
      some (canonGroup P L (hashKeyOf P r)) := by
    rw [alookup_canonState, if_pos hmem]
  have hmkS : ∀ c : Contrib, mkSources P.fields c =
      [] ++ (standardSourceFields P.fields).map (stdEntry c) ++
        (weightedAvgFields P.fields).map (wavgEntry c) := by
    intro c
    simp [mkSources]
  have hexpand : stepRecord P (canonState P L) r =
      Bind.bind (countUpdate r (isAggRecord P r)
          ((alookup (canonState P L) (hashKeyOf P r)).getD (initGroup P r)))
        (fun g1 => Bind.bind (List.foldlM (stdUpdate r (isAggRecord P r)) g1
            (standardSourceFields P.fields))
          (fun g2 => Bind.bind (List.foldlM (wavgUpdate r (isAggRecord P r)) g2
              (weightedAvgFields P.fields))
            (fun g3 => pure (aset (canonState P L) (hashKeyOf P r) g3)))) := rfl
  have hg0 : (alookup (canonState P L) (hashKeyOf P r)).getD (initGroup P r) =
      ⟨some ⟨(groupContrib P L (hashKeyOf P r)).cnt, P.matchKeys,
        [] ++ (standardSourceFields P.fields).map (stdEntry (groupContrib P L (hashKeyOf P r))) ++
          (weightedAvgFields P.fields).map (wavgEntry (groupContrib P L (hashKeyOf P r)))⟩,
       (initGroup P ((membersOf P L (hashKeyOf P r)).headD ⟨none, []⟩)).fields⟩ := by
    rw [hlook, Option.getD_some, canonGroup, hmkS]
  have hg1 : countUpdate r (isAggRecord P r)
      (⟨some ⟨(groupContrib P L (hashKeyOf P r)).cnt, P.matchKeys,
        [] ++ (standardSourceFields P.fields).map (stdEntry (groupContrib P L (hashKeyOf P r))) ++
          (weightedAvgFields P.fields).map (wavgEntry (groupContrib P L (hashKeyOf P r)))⟩,
       (initGroup P ((membersOf P L (hashKeyOf P r)).headD ⟨none, []⟩)).fields⟩ : Rec) =
      .ok ⟨some ⟨(groupContrib P L (hashKeyOf P r)).cnt.add (contribOf P r).cnt, P.matchKeys,
        [] ++ (standardSourceFields P.fields).map (stdEntry (groupContrib P L (hashKeyOf P r))) ++
          (weightedAvgFields P.fields).map (wavgEntry (groupContrib P L (hashKeyOf P r)))⟩,
       (initGroup P ((membersOf P L (hashKeyOf P r)).headD ⟨none, []⟩)).fields⟩ := by
    rw [countUpdate_ok, cnt_contrib hwf hok]
  have hstd := stdFold_exist r (isAggRecord P r) (contribOf P r)
    (standardSourceFields P.fields) (groupContrib P L (hashKeyOf P r))
    ((groupContrib P L (hashKeyOf P r)).cnt.add (contribOf P r).cnt) P.matchKeys
    (initGroup P ((membersOf P L (hashKeyOf P r)).headD ⟨none, []⟩)).fields
    [] ((weightedAvgFields P.fields).map (wavgEntry (groupContrib P L (hashKeyOf P r))))
    (nodup_standardSourceFields P.fields) (fun _ _ => rfl)
    (fun _ hs => std_contrib hwf hok hs)
  have hre : [] ++ (standardSourceFields P.fields).map
        (stdEntry (combC (groupContrib P L (hashKeyOf P r)) (contribOf P r))) ++
      (weightedAvgFields P.fields).map (wavgEntry (groupContrib P L (hashKeyOf P r))) =
      (standardSourceFields P.fields).map
        (stdEntry (combC (groupContrib P L (hashKeyOf P r)) (contribOf P r))) ++
      (weightedAvgFields P.fields).map (wavgEntry (groupContrib P L (hashKeyOf P r))) ++ [] := by
    simp
  have hwavg := wavgFold_exist r (isAggRecord P r) (contribOf P r)
    (weightedAvgFields P.fields) (groupContrib P L (hashKeyOf P r))
    ((groupContrib P L (hashKeyOf P r)).cnt.add (contribOf P r).cnt) P.matchKeys
    (initGroup P ((membersOf P L (hashKeyOf P r)).headD ⟨none, []⟩)).fields
    ((standardSourceFields P.fields).map
      (stdEntry (combC (groupContrib P L (hashKeyOf P r)) (contribOf P r)))) []
    (nodup_wavgKeys P.fields)
    (fun f hf => wavgPre_lookup_none P.fields _ hf hwf)
    hwf.1
    (fun f hf w hw => wavg_contrib hwf hok hf hw)
  have hmkS' : (standardSourceFields P.fields).map
        (stdEntry (combC (groupContrib P L (hashKeyOf P r)) (contribOf P r))) ++
      (weightedAvgFields P.fields).map
        (wavgEntry (combC (groupContrib P L (hashKeyOf P r)) (contribOf P r))) ++ [] =
      mkSources P.fields (combC (groupContrib P L (hashKeyOf P r)) (contribOf P r)) := by
    simp [mkSources]
  have hstate : aset (canonState P L) (hashKeyOf P r)
      (⟨some ⟨(groupContrib P L (hashKeyOf P r)).cnt.add (contribOf P r).cnt, P.matchKeys,
        mkSources P.fields (combC (groupContrib P L (hashKeyOf P r)) (contribOf P r))⟩,
       (initGroup P ((membersOf P L (hashKeyOf P r)).headD ⟨none, []⟩)).fields⟩ : Rec) =
      canonState P (L ++ [r]) := by
    rw [canonState, canonState, keysOf_append_singleton, if_pos hmem,
      aset_map_keys (canonGroup P L) (keysOf P L) _ _ (keysOf_nodup P L) hmem]
    refine List.map_congr_left fun k hkmem => ?_
    by_cases hkk : k = hashKeyOf P r
    · subst hkk
      rw [if_pos rfl, canonGroup, groupContrib_append_self, membersOf_append_self,
        headD_append_left _ _ _ (membersOf_ne_nil_of_mem hmem)]
      rfl
    · rw [if_neg hkk, canonGroup_append_not_self P L r k (fun h => hkk h.symm)]
  rw [hexpand, hg0, hg1, except_bind_ok, hstd, except_bind_ok, hre, hwavg, except_bind_ok,
    hmkS', hstate]
  rfl

theorem stepRecord_canon_new (P : Params) (hwf : WFfields P.fields) (L : List Rec) (r : Rec)
    (hok : OkRec P r) (hnew : hashKeyOf P r ∉ keysOf P L) :
    stepRecord P (canonState P L) r = .ok (canonState P (L ++ [r])) := by
  have hlook : alookup (canonState P L) (hashKeyOf P r) = none := by
    rw [alookup_canonState, if_neg hnew]
  have hexpand : stepRecord P (canonState P L) r =
      Bind.bind (countUpdate r (isAggRecord P r)
          ((alookup (canonState P L) (hashKeyOf P r)).getD (initGroup P r)))
        (fun g1 => Bind.bind (List.foldlM (stdUpdate r (isAggRecord P r)) g1
            (standardSourceFields P.fields))
          (fun g2 => Bind.bind (List.foldlM (wavgUpdate r (isAggRecord P r)) g2
              (weightedAvgFields P.fields))
            (fun g3 => pure (aset (canonState P L) (hashKeyOf P r) g3)))) := rfl
  have hg0 : (alookup (canonState P L) (hashKeyOf P r)).getD (initGroup P r) =
      ⟨some ⟨.fin 0, P.matchKeys, []⟩, (initGroup P r).fields⟩ := by
    rw [hlook]
    rfl
  have hg1 : countUpdate r (isAggRecord P r)
      (⟨some ⟨.fin 0, P.matchKeys, []⟩, (initGroup P r).fields⟩ : Rec) =
      .ok ⟨some ⟨(JsNum.fin 0).add (contribOf P r).cnt, P.matchKeys, []⟩,
        (initGroup P r).fields⟩ := by
    rw [countUpdate_ok, cnt_contrib hwf hok]
  have hstd := stdFold_fresh r (isAggRecord P r) (contribOf P r)
    (standardSourceFields P.fields) ((JsNum.fin 0).add (contribOf P r).cnt) P.matchKeys
    (initGroup P r).fields []
    (nodup_standardSourceFields P.fields) (fun _ _ => rfl)
    (fun _ hs => std_contrib hwf hok hs)
  have hre : ([] : List (String × SourceState)) ++ (standardSourceFields P.fields).map
        (stdEntry (combC unitC (contribOf P r))) =
      (standardSourceFields P.fields).map (stdEntry (combC unitC (contribOf P r))) := by
    simp
  have hwavg := wavgFold_fresh r (isAggRecord P r) (contribOf P r)
    (weightedAvgFields P.fields) ((JsNum.fin 0).add (contribOf P r).cnt) P.matchKeys
    (initGroup P r).fields
    ((standardSourceFields P.fields).map (stdEntry (combC unitC (contribOf P r))))
    (nodup_wavgKeys P.fields)
    (fun f hf => wavgPre_lookup_none P.fields _ hf hwf)
    hwf.1
    (fun f hf w hw => wavg_contrib hwf hok hf hw)
  have hmkS' : (standardSourceFields P.fields).map (stdEntry (combC unitC (contribOf P r))) ++
      (weightedAvgFields P.fields).map (wavgEntry (combC unitC (contribOf P r))) =
      mkSources P.fields (combC unitC (contribOf P r)) := by
    simp [mkSources]
  have hstate : aset (canonState P L) (hashKeyOf P r)
      (⟨some ⟨(JsNum.fin 0).add (contribOf P r).cnt, P.matchKeys,
        mkSources P.fields (combC unitC (contribOf P r))⟩, (initGroup P r).fields⟩ : Rec) =
      canonState P (L ++ [r]) := by
    rw [aset_append_new _ _ _ hlook, canonState, canonState, keysOf_append_singleton,
      if_neg hnew, List.map_append]
    refine congrArg₂ (· ++ ·) (List.map_congr_left fun k hkmem => ?_) ?_
    · have hkk : hashKeyOf P r ≠ k := fun h => hnew (h ▸ hkmem)
      rw [canonGroup_append_not_self P L r k hkk]
    · rw [List.map_singleton, canonGroup, membersOf_append_self,
        membersOf_nil_of_not_mem hnew, groupContrib, membersOf_append_self,
        membersOf_nil_of_not_mem hnew]
      rfl
  rw [hexpand, hg0, hg1, except_bind_ok, hstd, except_bind_ok, hre, hwavg, except_bind_ok,
    hmkS', hstate]
  rfl

/-- The characterisation of the accumulation fold: over inputs that are raw or
canonical summaries, the group table is exactly the canonical state — one entry
per first-encountered key carrying the fold of its members' contributions. -/
theorem foldRecords_canon (P : Params) (hwf : WFfields P.fields) :
    ∀ (L : List Rec), (∀ x ∈ L, OkRec P x) →
      List.foldlM (stepRecord P) ([] : List (String × Rec)) L = .ok (canonState P L) := by
  intro L
  induction L using List.reverseRecOn with
  | nil => intro _; rfl
  | append_singleton L r ih =>
    intro hok
    rw [List.foldlM_append, ih (fun x hx => hok x (List.mem_append_left _ hx)),
      except_bind_ok, List.foldlM_cons]
    by_cases hmem : hashKeyOf P r ∈ keysOf P L
    · rw [stepRecord_canon_mem P hwf L r
        (hok r (List.mem_append_right _ (List.mem_singleton_self r))) hmem, except_bind_ok]
      rfl
    · rw [stepRecord_canon_new P hwf L r
        (hok r (List.mem_append_right _ (List.mem_singleton_self r))) hmem, except_bind_ok]
      rfl

/-! ### Finalisation of canonical groups -/

/-- The derived output value of one field (NaN stands in for the unreachable
error case when the derivation is known to succeed). -/
def outVal (md : AggData) (f : AggField) : JsNum := (deriveValue md f).toOption.getD .nan

/-- The fields of a finalised group: every requested output written over the
group's identifying fields. -/
def outFields (P : Params) (md : AggData) (fs : List (String × JsVal)) :
    List (String × JsVal) :=
  P.fields.foldl (fun a of => aset a of.1 (.num (outVal md of.2))) fs

theorem finalize_fold (md : AggData) :
    ∀ (flds : List (String × AggField)) (acc : Rec),
      (∀ of ∈ flds, ∃ v, deriveValue md of.2 = .ok v) →
      List.foldlM (fun (acc : Rec) (of : String × AggField) =>
          Bind.bind (deriveValue md of.2) (fun v => pure (acc.set of.1 (.num v)))) acc flds =
        .ok ⟨acc.meta, flds.foldl (fun a of => aset a of.1 (.num (outVal md of.2))) acc.fields⟩ := by
  intro flds
  induction flds with
  | nil => intro acc _; rfl
  | cons of rest ih =>
    intro acc hder
    obtain ⟨v, hv⟩ := hder of (List.mem_cons_self _ _)
    have hov : outVal md of.2 = v := by
      rw [outVal, hv]
      rfl
    rw [List.foldlM_cons, hv, except_bind_ok,
      show (pure (acc.set of.1 (JsVal.num v)) : Except JsError Rec) =
        Except.ok (acc.set of.1 (JsVal.num v)) from rfl, except_bind_ok,
      ih (acc.set of.1 (.num v)) (fun g hg => hder g (List.mem_cons_of_mem _ hg)),
      List.foldl_cons, hov]
    rfl

theorem finalize_ok (P : Params) (md : AggData) (fs : List (String × JsVal))
    (hder : ∀ of ∈ P.fields, ∃ v, deriveValue md of.2 = .ok v) :
    finalizeGroup P false ⟨some md, fs⟩ = .ok ⟨some md, outFields P md fs⟩ := by
  have hexpand : finalizeGroup P false ⟨some md, fs⟩ =
      Bind.bind (List.foldlM (fun (acc : Rec) (of : String × AggField) =>
          Bind.bind (deriveValue md of.2) (fun v => pure (acc.set of.1 (.num v))))
          (⟨some md, fs⟩ : Rec) P.fields)
        (fun g' => pure (if false then (⟨none, g'.fields⟩ : Rec) else g')) := rfl
  rw [hexpand, finalize_fold md P.fields ⟨some md, fs⟩ hder, except_bind_ok]
  rfl

theorem mem_standardSourceFields {fields : List (String × AggField)} {f : AggField}
    {s : String} (hf : f ∈ fields.map (·.2)) (hm : f.method ≠ .weightedAverage)
    (hsf : f.sourceField = some s) : s ∈ standardSourceFields fields := by
  rw [standardSourceFields, mem_uniqFirst]
  exact List.mem_filterMap.mpr ⟨f, List.mem_filter.mpr ⟨hf, by simp [hm]⟩, hsf⟩

theorem mem_wavgKeys_of_field {fields : List (String × AggField)} {f : AggField}
    (hf : f ∈ fields.map (·.2)) (hm : f.method = .weightedAverage) :
    waKey f ∈ wavgKeys fields := by
  have h1 : f ∈ (fields.map (·.2)).filter
      (fun g => g.method = AggregationTypes.weightedAverage) :=
    List.mem_filter.mpr ⟨hf, by simp [hm]⟩
  have h2 := List.mem_map_of_mem waKey h1
  rcases mem_map_uniqByFirst waKey _ [] _ h2 with h | h
  · cases h
  · exact h

theorem wavgKeys_not_std {fields : List (String × AggField)} (hwf : WFfields fields)
    {k : String} (hk : k ∈ wavgKeys fields) : k ∉ standardSourceFields fields := by
  obtain ⟨f₀, hf₀, hkey⟩ := List.mem_map.mp hk
  exact hkey ▸ hwf.2.2.1 f₀ hf₀

theorem derive_ok_canon (P : Params) (hwf : WFfields P.fields) (c : Contrib)
    (mks : List String) :
    ∀ of ∈ P.fields, ∃ v, deriveValue ⟨c.cnt, mks, mkSources P.fields c⟩ of.2 = .ok v := by
  intro of hof
  have hof2 : of.2 ∈ P.fields.map (·.2) := List.mem_map_of_mem _ hof
  cases hm : of.2.method with
  | count => exact ⟨c.cnt, by simp [deriveValue, hm]⟩
  | weightedAverage =>
    have hk : waKey of.2 ∈ wavgKeys P.fields := mem_wavgKeys_of_field hof2 hm
    have hlook := alookup_mkSources_wavgKey P.fields c (wavgKeys_not_std hwf hk) hk
    refine ⟨((c.wv (waKey of.2)).weightedSum).div
      ((wavgStOf (c.wv (waKey of.2))).totalWeight.getD .nan), ?_⟩
    simp only [deriveValue, hm]
    rw [show getWeightedAverageMetadataKey of.2.sourceField of.2.weightField = waKey of.2
      from rfl]
    rw [hlook]
    rfl
  | min =>
    cases hsf : of.2.sourceField with
    | none => exact absurd hsf (hwf.2.2.2 of hof (by simp [hm]) (by simp [hm]))
    | some s =>
      have hs : s ∈ standardSourceFields P.fields :=
        mem_standardSourceFields hof2 (by simp [hm]) hsf
      refine ⟨(c.std s).min, ?_⟩
      simp only [deriveValue, hm, hsf]
      rw [show propKey (some s) = s from rfl, alookup_mkSources_std P.fields c hs]
      rfl
  | max =>
    cases hsf : of.2.sourceField with
    | none => exact absurd hsf (hwf.2.2.2 of hof (by simp [hm]) (by simp [hm]))
    | some s =>
      have hs : s ∈ standardSourceFields P.fields :=
        mem_standardSourceFields hof2 (by simp [hm]) hsf
      refine ⟨(c.std s).max, ?_⟩
      simp only [deriveValue, hm, hsf]
      rw [show propKey (some s) = s from rfl, alookup_mkSources_std P.fields c hs]
      rfl
  | sum =>
    cases hsf : of.2.sourceField with
    | none => exact absurd hsf (hwf.2.2.2 of hof (by simp [hm]) (by simp [hm]))
    | some s =>
      have hs : s ∈ standardSourceFields P.fields :=
        mem_standardSourceFields hof2 (by simp [hm]) hsf
      refine ⟨(c.std s).sum, ?_⟩
      simp only [deriveValue, hm, hsf]
      rw [show propKey (some s) = s from rfl, alookup_mkSources_std P.fields c hs]
      rfl
  | average =>
    cases hsf : of.2.sourceField with
    | none => exact absurd hsf (hwf.2.2.2 of hof (by simp [hm]) (by simp [hm]))
    | some s =>
      have hs : s ∈ standardSourceFields P.fields :=
        mem_standardSourceFields hof2 (by simp [hm]) hsf
      refine ⟨(c.std s).sum.div c.cnt, ?_⟩
      simp only [deriveValue, hm, hsf]
      rw [show propKey (some s) = s from rfl, alookup_mkSources_std P.fields c hs]
      rfl
  | standardDeviation =>
    cases hsf : of.2.sourceField with
    | none => exact absurd hsf (hwf.2.2.2 of hof (by simp [hm]) (by simp [hm]))
    | some s =>
      have hs : s ∈ standardSourceFields P.fields :=
        mem_standardSourceFields hof2 (by simp [hm]) hsf
      refine ⟨JsNum.sqrtN (((c.std s).sumOfSquares.div c.cnt).sub
        (((c.std s).sum.div c.cnt).mul ((c.std s).sum.div c.cnt))), ?_⟩
      simp only [deriveValue, hm, hsf]
      rw [show propKey (some s) = s from rfl, alookup_mkSources_std P.fields c hs]
      rfl

/-! ### The finalised output of an internal aggregation pass -/

/-- The finalised record of one group. -/
def finRec (P : Params) (L : List Rec) (k : String) : Rec :=
  ⟨some ⟨(groupContrib P L k).cnt, P.matchKeys, mkSources P.fields (groupContrib P L k)⟩,
   outFields P
     ⟨(groupContrib P L k).cnt, P.matchKeys, mkSources P.fields (groupContrib P L k)⟩
     (initGroup P ((membersOf P L k).headD ⟨none, []⟩)).fields⟩

theorem list_mapM_map {α β γ : Type} (h : α → β) (f : β → Except JsError γ) (u : α → γ) :
    ∀ (l : List α), (∀ a ∈ l, f (h a) = .ok (u a)) → (l.map h).mapM f = .ok (l.map u) := by
  intro l
  induction l with
  | nil => intro _; rfl
  | cons a rest ih =>
    intro hp
    rw [List.map_cons, List.mapM_cons, hp a (List.mem_cons_self _ _), except_bind_ok,
      ih (fun x hx => hp x (List.mem_cons_of_mem _ hx)), except_bind_ok]
    rfl

/-- The internal pass, on characterised inputs and without sorting: one
finalised record per group key, in first-encounter order. -/
theorem aggregateInternal_canon (P : Params) (hwf : WFfields P.fields)
    (hs : P.sortBy = none) (L : List Rec) (hok : ∀ x ∈ L, OkRec P x) :
    aggregateInternal P false L = .ok ((keysOf P L).map (finRec P L)) := by
  have hexpand : aggregateInternal P false L =
      Bind.bind (List.foldlM (stepRecord P) ([] : List (String × Rec)) L)
        (fun st => Bind.bind (st.mapM (fun kv => finalizeGroup P false kv.2))
          (fun out => match P.sortBy with
            | none => pure out
            | some keys => sortRecords P keys out)) := rfl
  rw [hexpand, foldRecords_canon P hwf L hok, except_bind_ok]
  have hmapM : (canonState P L).mapM (fun kv => finalizeGroup P false kv.2) =
      .ok ((keysOf P L).map (finRec P L)) := by
    rw [canonState]
    refine list_mapM_map _ _ _ (keysOf P L) fun k _ => ?_
    show finalizeGroup P false (canonGroup P L k) = .ok (finRec P L k)
    rw [canonGroup, finalize_ok P _ _ (derive_ok_canon P hwf (groupContrib P L k) P.matchKeys)]
    rfl
  rw [hmapM, except_bind_ok, hs]
  rfl

/-! ### Properties of the finalised records -/

theorem alookup_foldl_aset {α : Type} (g : String → α) :
    ∀ (ks : List String) (init : List (String × α)) (k : String),
      alookup (ks.foldl (fun a s => aset a s (g s)) init) k =
        if k ∈ ks then some (g k) else alookup init k := by
  intro ks
  induction ks with
  | nil => intro init k; simp
  | cons s rest ih =>
    intro init k
    rw [List.foldl_cons, ih]
    by_cases hk : k ∈ rest
    · rw [if_pos hk, if_pos (List.mem_cons_of_mem _ hk)]
    · rw [if_neg hk]
      by_cases hks : k = s
      · subst hks
        rw [alookup_aset_self, if_pos (List.mem_cons_self _ _)]
      · rw [alookup_aset_ne _ _ (fun h => hks h.symm),
          if_neg (by simp [hks, hk])]

theorem alookup_outFields_not_out (P : Params) (md : AggData)
    (fs : List (String × JsVal)) {k : String} (hk : k ∉ P.fields.map (·.1)) :
    alookup (outFields P md fs) k = alookup fs k := by
  rw [outFields]
  have : ∀ (flds : List (String × AggField)) (fs : List (String × JsVal)),
      k ∉ flds.map (·.1) →
      alookup (flds.foldl (fun a of => aset a of.1 (.num (outVal md of.2))) fs) k =
        alookup fs k := by
    intro flds
    induction flds with
    | nil => intro fs _; rfl
    | cons of rest ih =>
      intro fs hmem
      rw [List.map_cons, List.mem_cons] at hmem
      push_neg at hmem
      rw [List.foldl_cons, ih _ hmem.2, alookup_aset_ne _ _ (fun h => hmem.1 h.symm)]
  exact this P.fields fs hk

theorem isSubset_refl (l : List String) : isSubset l l = true := by
  rw [isSubset, List.all_eq_true]
  intro s hs
  simpa using hs

theorem isSubset_nil_left (l : List String) : isSubset [] l = true := rfl

theorem restricted_contribOf (P : Params) (r : Rec) : Restricted P.fields (contribOf P r) := by
  rw [contribOf]
  by_cases h : isAggRecord P r = true
  · rw [if_pos h]
    exact restricted_aggContrib _ _
  · rw [if_neg h]
    exact restricted_rawContrib _ _

theorem restricted_groupContrib (P : Params) (L : List Rec) (k : String)
    (hk : k ∈ keysOf P L) : Restricted P.fields (groupContrib P L k) := by
  rw [groupContrib]
  refine restricted_foldl _ _ (fun c hc => ?_) ?_
  · obtain ⟨r, _, rfl⟩ := List.mem_map.mp hc
    exact restricted_contribOf P r
  · simp only [ne_eq, List.map_eq_nil]
    exact membersOf_ne_nil_of_mem hk

theorem headD_mem {α : Type} (l : List α) (d : α) (h : l ≠ []) : l.headD d ∈ l := by
  cases l with
  | nil => exact absurd rfl h
  | cons x t => exact List.mem_cons_self _ _

theorem hashKeyOf_headD_members {P : Params} {L : List Rec} {k : String}
    (hk : k ∈ keysOf P L) : hashKeyOf P ((membersOf P L k).headD ⟨none, []⟩) = k := by
  have hmem := headD_mem _ (⟨none, []⟩ : Rec) (membersOf_ne_nil_of_mem hk)
  rw [membersOf, List.mem_filter] at hmem
  exact of_decide_eq_true hmem.2

theorem finRec_get_match (P : Params) (hb : P.buckets = [])
    (hout : ∀ of ∈ P.fields, of.1 ∉ P.matchKeys) (L : List Rec) (k : String)
    {s : String} (hs : s ∈ P.matchKeys) :
    (finRec P L k).get s = ((membersOf P L k).headD ⟨none, []⟩).get s := by
  have hsout : s ∉ P.fields.map (·.1) := by
    intro hmem
    obtain ⟨of, hof, heq⟩ := List.mem_map.mp hmem
    exact hout of hof (heq ▸ hs)
  show (alookup (outFields P
      ⟨(groupContrib P L k).cnt, P.matchKeys, mkSources P.fields (groupContrib P L k)⟩
      (initGroup P ((membersOf P L k).headD ⟨none, []⟩)).fields) s).getD .undef = _
  rw [alookup_outFields_not_out _ _ _ hsout]
  show (alookup (P.matchKeys.foldl
      (fun fs k' => aset fs k'
        (getFieldHashKey ((membersOf P L k).headD ⟨none, []⟩) k' (alookup P.buckets k')))
      []) s).getD .undef = _
  rw [alookup_foldl_aset
    (fun k' => getFieldHashKey ((membersOf P L k).headD ⟨none, []⟩) k' (alookup P.buckets k'))
    P.matchKeys [] s, if_pos hs, hb]
  rfl

theorem finRec_hashKey (P : Params) (hb : P.buckets = [])
    (hout : ∀ of ∈ P.fields, of.1 ∉ P.matchKeys) (L : List Rec) (k : String)
    (hk : k ∈ keysOf P L) : hashKeyOf P (finRec P L k) = k := by
  have hpt : ∀ s ∈ P.matchKeys,
      toJoinStr (getFieldHashKey (finRec P L k) s (alookup P.buckets s)) =
      toJoinStr (getFieldHashKey ((membersOf P L k).headD ⟨none, []⟩) s
        (alookup P.buckets s)) := by
    intro s hs
    rw [hb]
    show toJoinStr ((finRec P L k).get s) =
      toJoinStr (((membersOf P L k).headD ⟨none, []⟩).get s)
    rw [finRec_get_match P hb hout L k hs]
  calc hashKeyOf P (finRec P L k)
      = hashKeyOf P ((membersOf P L k).headD ⟨none, []⟩) := by
        rw [hashKeyOf, hashKeyOf]
        exact congrArg String.join (List.map_congr_left hpt)
    _ = k := hashKeyOf_headD_members hk

theorem finRec_CSR (P : Params) (L : List Rec) (k : String) (hk : k ∈ keysOf P L) :
    IsCSR P (finRec P L k) :=
  ⟨groupContrib P L k, P.matchKeys, restricted_groupContrib P L k hk, rfl, isSubset_refl _⟩

theorem finRec_CSR_P0 (P : Params) (sb : Option (List String)) (L : List Rec) (k : String)
    (hk : k ∈ keysOf P L) : IsCSR ⟨[], [], P.fields, sb⟩ (finRec P L k) :=
  ⟨groupContrib P L k, P.matchKeys, restricted_groupContrib P L k hk, rfl,
    isSubset_nil_left _⟩

theorem contribOf_finRec (P : Params) (hwf : WFfields P.fields) (L : List Rec) (k : String)
    (hk : k ∈ keysOf P L) : contribOf P (finRec P L k) = groupContrib P L k :=
  contribOf_CSR hwf (restricted_groupContrib P L k hk) rfl (isSubset_refl _)

theorem contribOf_finRec_P0 (P : Params) (sb : Option (List String))
    (hwf : WFfields P.fields) (L : List Rec) (k : String) (hk : k ∈ keysOf P L) :
    contribOf ⟨[], [], P.fields, sb⟩ (finRec P L k) = groupContrib P L k :=
  contribOf_CSR hwf (restricted_groupContrib P L k hk) rfl (isSubset_nil_left _)

theorem hashKeyOf_nil_matchKeys (buckets : List (String × List ℚ))
    (fields : List (String × AggField)) (sb : Option (List String)) (r : Rec) :
    hashKeyOf ⟨[], buckets, fields, sb⟩ r = "" := rfl

theorem foldl_aset_congr {α : Type} (g₁ g₂ : String → α) :
    ∀ (ks : List String) (init : List (String × α)), (∀ s ∈ ks, g₁ s = g₂ s) →
      ks.foldl (fun a s => aset a s (g₁ s)) init =
        ks.foldl (fun a s => aset a s (g₂ s)) init := by
  intro ks
  induction ks with
  | nil => intro _ _; rfl
  | cons s rest ih =>
    intro init h
    rw [List.foldl_cons, List.foldl_cons, h s (List.mem_cons_self _ _),
      ih _ (fun t ht => h t (List.mem_cons_of_mem _ ht))]

theorem filter_eq_nodup :
    ∀ (l : List String), l.Nodup → ∀ k : String,
      l.filter (fun x => x = k) = if k ∈ l then [k] else [] := by
  intro l
  induction l with
  | nil => intro _ k; simp
  | cons x rest ih =>
    intro hnd k
    rw [List.nodup_cons] at hnd
    by_cases hxk : x = k
    · subst hxk
      rw [List.filter_cons_of_pos (by simp), ih hnd.2, if_neg hnd.1,
        if_pos (List.mem_cons_self _ _)]
    · rw [List.filter_cons_of_neg (by simp [hxk]), ih hnd.2]
      by_cases hk : k ∈ rest
      · rw [if_pos hk, if_pos (List.mem_cons_of_mem _ hk)]
      · rw [if_neg hk, if_neg (by
          simp only [List.mem_cons]
          rintro (h | h)
          · exact hxk h.symm
          · exact hk h)]

/-- Replacing a segment of the input by its finalised per-group output leaves
the canonical state unchanged (no buckets, outputs disjoint from match keys). -/
theorem canonState_replace (P : Params) (hwf : WFfields P.fields) (hb : P.buckets = [])
    (hout : ∀ of ∈ P.fields, of.1 ∉ P.matchKeys) (X Λ₁ Λ₂ : List Rec) :
    canonState P (Λ₁ ++ (keysOf P X).map (finRec P X) ++ Λ₂) =
      canonState P (Λ₁ ++ X ++ Λ₂) := by
  have hkeymap : ((keysOf P X).map (finRec P X)).map (hashKeyOf P) = keysOf P X := by
    rw [List.map_map]
    calc (keysOf P X).map (hashKeyOf P ∘ finRec P X)
        = (keysOf P X).map id :=
          List.map_congr_left (fun k hk => finRec_hashKey P hb hout X k hk)
      _ = keysOf P X := List.map_id _
  have hkeys : keysOf P (Λ₁ ++ (keysOf P X).map (finRec P X) ++ Λ₂) =
      keysOf P (Λ₁ ++ X ++ Λ₂) := by
    show uniqFirst _ = uniqFirst _
    rw [List.map_append, List.map_append, List.map_append, List.map_append, hkeymap]
    show uniqFirst (Λ₁.map (hashKeyOf P) ++ uniqFirst (X.map (hashKeyOf P)) ++
      Λ₂.map (hashKeyOf P)) = _
    exact uniqFirst_middle _ _ _
  have hmemmid : ∀ k : String, membersOf P ((keysOf P X).map (finRec P X)) k =
      if k ∈ keysOf P X then [finRec P X k] else [] := by
    intro k
    rw [membersOf, List.filter_map]
    have hcong : (keysOf P X).filter
        ((fun r => decide (hashKeyOf P r = k)) ∘ finRec P X) =
        (keysOf P X).filter (fun x => x = k) := by
      refine List.filter_congr fun x hx => ?_
      simp [finRec_hashKey P hb hout X x hx]
    rw [hcong, filter_eq_nodup _ (keysOf_nodup P X) k]
    by_cases hk : k ∈ keysOf P X
    · rw [if_pos hk, if_pos hk]
      rfl
    · rw [if_neg hk, if_neg hk]
      rfl
  have hfoldmid : ∀ (k : String) (a : Contrib),
      List.foldl combC a
        ((membersOf P ((keysOf P X).map (finRec P X)) k).map (contribOf P)) =
      List.foldl combC a ((membersOf P X k).map (contribOf P)) := by
    intro k a
    rw [hmemmid k]
    by_cases hk : k ∈ keysOf P X
    · rw [if_pos hk, List.map_singleton, contribOf_finRec P hwf X k hk,
        foldl_combC_start a ((membersOf P X k).map (contribOf P))]
      rfl
    · rw [if_neg hk, membersOf_nil_of_not_mem hk]
  have hcontrib : ∀ k : String,
      groupContrib P (Λ₁ ++ (keysOf P X).map (finRec P X) ++ Λ₂) k =
      groupContrib P (Λ₁ ++ X ++ Λ₂) k := by
    intro k
    rw [groupContrib, groupContrib, membersOf_append, membersOf_append, membersOf_append,
      membersOf_append, List.map_append, List.map_append, List.map_append, List.map_append,
      List.foldl_append, List.foldl_append, List.foldl_append, List.foldl_append,
      hfoldmid k]
  have hfields : ∀ k : String,
      (initGroup P ((membersOf P (Λ₁ ++ (keysOf P X).map (finRec P X) ++ Λ₂) k).headD
        ⟨none, []⟩)).fields =
      (initGroup P ((membersOf P (Λ₁ ++ X ++ Λ₂) k).headD ⟨none, []⟩)).fields := by
    intro k
    rw [membersOf_append, membersOf_append, membersOf_append, membersOf_append, hmemmid k]
    cases hm₁ : membersOf P Λ₁ k with
    | cons r t => rfl
    | nil =>
      by_cases hkX : k ∈ keysOf P X
      · rw [if_pos hkX]
        obtain ⟨r₀, t₀, hm⟩ : ∃ r₀ t₀, membersOf P X k = r₀ :: t₀ := by
          cases h : membersOf P X k with
          | nil => exact absurd h (membersOf_ne_nil_of_mem hkX)
          | cons r₀ t₀ => exact ⟨r₀, t₀, rfl⟩
        rw [hm]
        show (initGroup P (finRec P X k)).fields = (initGroup P r₀).fields
        have hgg : ∀ s ∈ P.matchKeys,
            getFieldHashKey (finRec P X k) s (alookup P.buckets s) =
            getFieldHashKey r₀ s (alookup P.buckets s) := by
          intro s hs
          rw [hb]
          show (finRec P X k).get s = r₀.get s
          rw [finRec_get_match P hb hout X k hs, hm]
          rfl
        show P.matchKeys.foldl
            (fun fs s => aset fs s (getFieldHashKey (finRec P X k) s (alookup P.buckets s)))
            [] = P.matchKeys.foldl
            (fun fs s => aset fs s (getFieldHashKey r₀ s (alookup P.buckets s))) []
        exact foldl_aset_congr _ _ P.matchKeys [] hgg
      · rw [if_neg hkX, membersOf_nil_of_not_mem hkX]
  rw [canonState, canonState, hkeys]
  refine List.map_congr_left fun k hk => ?_
  rw [canonGroup, canonGroup, hcontrib k, hfields k]

/-! ### The totals pass: regrouping by blocks and permutation invariance -/

instance : RightCommutative combC :=
  ⟨fun b a₁ a₂ => by rw [combC_assoc, combC_assoc, combC_comm a₁ a₂]⟩

theorem foldl_combC_blocks :
    ∀ (blocks : List (List Contrib)) (a : Contrib),
      List.foldl combC a (blocks.map (List.foldl combC unitC)) =
        List.foldl combC a blocks.flatten := by
  intro blocks
  induction blocks with
  | nil => intro a; rfl
  | cons b bs ih =>
    intro a
    rw [List.map_cons, List.foldl_cons, List.flatten_cons, List.foldl_append, ih,
      ← foldl_combC_start]

theorem members_flatten_perm (P : Params) (L : List Rec) :
    (((keysOf P L).map (membersOf P L)).flatten).Perm L := by
  rw [List.perm_iff_count]
  intro r
  rw [List.count_flatten, List.map_map]
  have hterm : ∀ k, List.count r (membersOf P L k) =
      if hashKeyOf P r = k then List.count r L else 0 := by
    intro k
    by_cases hk : hashKeyOf P r = k
    · rw [if_pos hk, membersOf]
      exact List.count_filter (by simp [hk])
    · rw [if_neg hk, membersOf]
      refine List.count_eq_zero_of_not_mem fun hc => ?_
      rw [List.mem_filter] at hc
      exact hk (of_decide_eq_true hc.2)
  have hmapc : (keysOf P L).map (List.count r ∘ membersOf P L) =
      (keysOf P L).map (fun k => if hashKeyOf P r = k then List.count r L else 0) :=
    List.map_congr_left fun k _ => hterm k
  rw [hmapc]
  have hsum : ∀ (ks : List String), ks.Nodup →
      ((ks.map (fun k => if hashKeyOf P r = k then List.count r L else 0)).sum =
        if hashKeyOf P r ∈ ks then List.count r L else 0) := by
    intro ks
    induction ks with
    | nil => intro _; simp
    | cons k rest ih =>
      intro hnd
      rw [List.nodup_cons] at hnd
      rw [List.map_cons, List.sum_cons, ih hnd.2]
      by_cases hk : hashKeyOf P r = k
      · rw [if_pos hk, if_neg (hk ▸ hnd.1),
          if_pos (by rw [hk]; exact List.mem_cons_self _ _), Nat.add_zero]
      · rw [if_neg hk, Nat.zero_add]
        by_cases hmem : hashKeyOf P r ∈ rest
        · rw [if_pos hmem, if_pos (List.mem_cons_of_mem _ hmem)]
        · rw [if_neg hmem, if_neg (by simp [hk, hmem])]
  rw [hsum (keysOf P L) (keysOf_nodup P L)]
  by_cases hmem : hashKeyOf P r ∈ keysOf P L
  · rw [if_pos hmem]
  · rw [if_neg hmem]
    refine (List.count_eq_zero.mpr fun hc => hmem ?_).symm
    rw [mem_keysOf]
    exact List.mem_map_of_mem _ hc

theorem foldl_combC_perm {l₁ l₂ : List Contrib} (h : l₁.Perm l₂) (a : Contrib) :
    List.foldl combC a l₁ = List.foldl combC a l₂ := h.foldl_eq a

/-- The totals pass reads the same overall contribution from the finalised
chunk output as from the chunk itself (raw records, same fields). -/
theorem totals_fold_eq (P : Params) (sb : Option (List String)) (hwf : WFfields P.fields)
    (X : List Rec) (hX : ∀ r ∈ X, r.meta = none) (a : Contrib) :
    List.foldl combC a
      (((keysOf P X).map (finRec P X)).map (contribOf ⟨[], [], P.fields, sb⟩)) =
    List.foldl combC a (X.map (contribOf ⟨[], [], P.fields, sb⟩)) := by
  have h1 : ((keysOf P X).map (finRec P X)).map (contribOf ⟨[], [], P.fields, sb⟩) =
      (keysOf P X).map (fun k => groupContrib P X k) := by
    rw [List.map_map]
    exact List.map_congr_left fun k hk => contribOf_finRec_P0 P sb hwf X k hk
  have h2 : ∀ k ∈ keysOf P X, groupContrib P X k =
      List.foldl combC unitC
        ((membersOf P X k).map (contribOf ⟨[], [], P.fields, sb⟩)) := by
    intro k _
    rw [groupContrib]
    refine congrArg _ (List.map_congr_left fun r hr => ?_)
    have hraw : r.meta = none := hX r (List.mem_filter.mp hr).1
    rw [contribOf,
      if_neg (by rw [isAggRecord_of_meta_none hraw]; exact Bool.false_ne_true),
      contribOf,
      if_neg (by rw [isAggRecord_of_meta_none hraw]; exact Bool.false_ne_true)]
  rw [h1, List.map_congr_left h2,
    show ((keysOf P X).map (fun k => List.foldl combC unitC
        ((membersOf P X k).map (contribOf ⟨[], [], P.fields, sb⟩)))) =
      (((keysOf P X).map (fun k =>
        (membersOf P X k).map (contribOf ⟨[], [], P.fields, sb⟩))).map
          (List.foldl combC unitC)) from by rw [List.map_map]; rfl,
    foldl_combC_blocks,
    show ((keysOf P X).map fun k =>
        (membersOf P X k).map (contribOf ⟨[], [], P.fields, sb⟩)) =
      (((keysOf P X).map (membersOf P X)).map
        (List.map (contribOf ⟨[], [], P.fields, sb⟩))) from by rw [List.map_map]; rfl,
    ← List.map_flatten]
  exact foldl_combC_perm ((members_flatten_perm P X).map _) a

theorem finRec_of_canonState (P : Params) (L : List Rec) :
    (keysOf P L).map (finRec P L) =
      (canonState P L).map (fun kv =>
        (⟨kv.2.meta, outFields P (kv.2.meta.getD ⟨.fin 0, [], []⟩) kv.2.fields⟩ : Rec)) := by
  rw [canonState, List.map_map]
  exact List.map_congr_left fun k _ => rfl

theorem aggInternal_replace (P : Params) (hwf : WFfields P.fields) (hb : P.buckets = [])
    (hs : P.sortBy = none) (hout : ∀ of ∈ P.fields, of.1 ∉ P.matchKeys)
    (X Λ₁ Λ₂ : List Rec) (hok₁ : ∀ r ∈ Λ₁, OkRec P r) (hok₂ : ∀ r ∈ Λ₂, OkRec P r)
    (hX : ∀ r ∈ X, r.meta = none) :
    aggregateInternal P false (Λ₁ ++ (keysOf P X).map (finRec P X) ++ Λ₂) =
      aggregateInternal P false (Λ₁ ++ X ++ Λ₂) := by
  have hokgx : ∀ r ∈ (keysOf P X).map (finRec P X), OkRec P r := by
    intro r hr
    obtain ⟨k, hk, rfl⟩ := List.mem_map.mp hr
    exact Or.inr (finRec_CSR P X k hk)
  have hokL : ∀ r ∈ Λ₁ ++ (keysOf P X).map (finRec P X) ++ Λ₂, OkRec P r := by
    intro r hr
    rcases List.mem_append.mp hr with hr | hr
    · rcases List.mem_append.mp hr with hr | hr
      · exact hok₁ r hr
      · exact hokgx r hr
    · exact hok₂ r hr
  have hokR : ∀ r ∈ Λ₁ ++ X ++ Λ₂, OkRec P r := by
    intro r hr
    rcases List.mem_append.mp hr with hr | hr
    · rcases List.mem_append.mp hr with hr | hr
      · exact hok₁ r hr
      · exact Or.inl (hX r hr)
    · exact hok₂ r hr
  rw [aggregateInternal_canon P hwf hs _ hokL, aggregateInternal_canon P hwf hs _ hokR,
    finRec_of_canonState P (Λ₁ ++ (keysOf P X).map (finRec P X) ++ Λ₂),
    finRec_of_canonState P (Λ₁ ++ X ++ Λ₂), canonState_replace P hwf hb hout X Λ₁ Λ₂]

theorem aggregate_inv (P : Params) (recs : List Rec) (res : AggResult)
    (h : aggregate P false recs = .ok res) :
    aggregateInternal P false recs = .ok res.aggregatedRecords := by
  have hexpand : aggregate P false recs =
      Bind.bind (aggregateInternal P false recs)
        (fun ar => Bind.bind (aggregateInternal ⟨[], [], P.fields, P.sortBy⟩ false recs)
          (fun tl => pure ⟨ar, tl.head?⟩)) := rfl
  rw [hexpand] at h
  cases h1 : aggregateInternal P false recs with
  | error e =>
    rw [h1] at h
    exact absurd h (by simp [Bind.bind, Except.bind])
  | ok ar =>
    rw [h1, except_bind_ok] at h
    cases h2 : aggregateInternal ⟨[], [], P.fields, P.sortBy⟩ false recs with
    | error e =>
      rw [h2] at h
      exact absurd h (by simp [Bind.bind, Except.bind])
    | ok tl =>
      rw [h2, except_bind_ok] at h
      have : (⟨ar, tl.head?⟩ : AggResult) = res := by
        have := h
        simpa [Pure.pure, Except.pure] using this
      rw [← this]

theorem keysOf_eq_nil_iff (P : Params) (L : List Rec) : keysOf P L = [] ↔ L = [] := by
  constructor
  · intro h
    cases L with
    | nil => rfl
    | cons r t =>
      have hm : hashKeyOf P r ∈ keysOf P (r :: t) :=
        (mem_keysOf P _ _).mpr (List.mem_map_of_mem _ (List.mem_cons_self _ _))
      rw [h] at hm
      cases hm
  · rintro rfl
    rfl

theorem keysOf_P0 (buckets : List (String × List ℚ)) (fields : List (String × AggField))
    (sb : Option (List String)) :
    ∀ (L : List Rec), L ≠ [] → keysOf ⟨[], buckets, fields, sb⟩ L = [""] := by
  intro L hL
  have hmap : L.map (hashKeyOf (⟨[], buckets, fields, sb⟩ : Params)) =
      L.map (fun _ => "") := List.map_congr_left fun r _ => rfl
  rw [keysOf, hmap]
  cases L with
  | nil => exact absurd rfl hL
  | cons r t =>
    rw [List.map_cons]
    show uniqByFirstAux id [] ("" :: t.map (fun _ => "")) = [""]
    rw [uniqByFirstAux, if_neg (by simp)]
    have haux : ∀ (t : List Rec),
        uniqByFirstAux id [("" : String)] (t.map (fun _ => ("" : String))) = [] := by
      intro t
      induction t with
      | nil => rfl
      | cons x t ih =>
        rw [List.map_cons, uniqByFirstAux, if_pos (by simp)]
        exact ih
    rw [show (id ("" : String) :: []) = [("" : String)] from rfl, haux]

theorem membersOf_P0 (buckets : List (String × List ℚ)) (fields : List (String × AggField))
    (sb : Option (List String)) (L : List Rec) :
    membersOf ⟨[], buckets, fields, sb⟩ L "" = L := by
  rw [membersOf]
  refine List.filter_eq_self.mpr fun r _ => ?_
  exact decide_eq_true rfl

theorem canonState_P0_replace (P : Params) (sb : Option (List String))
    (hwf : WFfields P.fields) (X Λ₁ Λ₂ : List Rec) (hX : ∀ r ∈ X, r.meta = none) :
    canonState ⟨[], [], P.fields, sb⟩ (Λ₁ ++ (keysOf P X).map (finRec P X) ++ Λ₂) =
      canonState ⟨[], [], P.fields, sb⟩ (Λ₁ ++ X ++ Λ₂) := by
  by_cases hL : Λ₁ = [] ∧ X = [] ∧ Λ₂ = []
  · obtain ⟨h1, h2, h3⟩ := hL
    subst h1
    subst h2
    subst h3
    rfl
  · have hne1 : Λ₁ ++ (keysOf P X).map (finRec P X) ++ Λ₂ ≠ [] := by
      intro hc
      rcases List.append_eq_nil.mp hc with ⟨hc1, hc2⟩
      rcases List.append_eq_nil.mp hc1 with ⟨hΛ₁, hgx⟩
      exact hL ⟨hΛ₁, (keysOf_eq_nil_iff P X).mp (List.map_eq_nil.mp hgx), hc2⟩
    have hne2 : Λ₁ ++ X ++ Λ₂ ≠ [] := by
      intro hc
      rcases List.append_eq_nil.mp hc with ⟨hc1, hc2⟩
      rcases List.append_eq_nil.mp hc1 with ⟨hΛ₁, hXnil⟩
      exact hL ⟨hΛ₁, hXnil, hc2⟩
    rw [canonState, canonState, keysOf_P0 _ _ _ _ hne1, keysOf_P0 _ _ _ _ hne2,
      List.map_singleton, List.map_singleton]
    have hcontrib : groupContrib ⟨[], [], P.fields, sb⟩
        (Λ₁ ++ (keysOf P X).map (finRec P X) ++ Λ₂) "" =
        groupContrib ⟨[], [], P.fields, sb⟩ (Λ₁ ++ X ++ Λ₂) "" := by
      rw [groupContrib, groupContrib, membersOf_P0, membersOf_P0,
        List.map_append, List.map_append, List.map_append, List.map_append,
        List.foldl_append, List.foldl_append, List.foldl_append, List.foldl_append,
        totals_fold_eq P sb hwf X hX]
    rw [canonGroup, canonGroup, hcontrib]
    rfl

theorem aggInternal_P0_replace (P : Params) (hwf : WFfields P.fields)
    (X Λ₁ Λ₂ : List Rec) (hok₁ : ∀ r ∈ Λ₁, OkRec ⟨[], [], P.fields, none⟩ r)
    (hok₂ : ∀ r ∈ Λ₂, OkRec ⟨[], [], P.fields, none⟩ r)
    (hX : ∀ r ∈ X, r.meta = none) :
    aggregateInternal ⟨[], [], P.fields, none⟩ false
      (Λ₁ ++ (keysOf P X).map (finRec P X) ++ Λ₂) =
    aggregateInternal ⟨[], [], P.fields, none⟩ false (Λ₁ ++ X ++ Λ₂) := by
  have hwf' : WFfields (Params.fields ⟨[], [], P.fields, none⟩) := hwf
  have hokgx : ∀ r ∈ (keysOf P X).map (finRec P X),
      OkRec ⟨[], [], P.fields, none⟩ r := by
    intro r hr
    obtain ⟨k, hk, rfl⟩ := List.mem_map.mp hr
    exact Or.inr (finRec_CSR_P0 P none X k hk)
  have hokL : ∀ r ∈ Λ₁ ++ (keysOf P X).map (finRec P X) ++ Λ₂,
      OkRec ⟨[], [], P.fields, none⟩ r := by
    intro r hr
    rcases List.mem_append.mp hr with hr | hr
    · rcases List.mem_append.mp hr with hr | hr
      · exact hok₁ r hr
      · exact hokgx r hr
    · exact hok₂ r hr
  have hokR : ∀ r ∈ Λ₁ ++ X ++ Λ₂, OkRec ⟨[], [], P.fields, none⟩ r := by
    intro r hr
    rcases List.mem_append.mp hr with hr | hr
    · rcases List.mem_append.mp hr with hr | hr
      · exact hok₁ r hr
      · exact Or.inl (hX r hr)
    · exact hok₂ r hr
  rw [aggregateInternal_canon ⟨[], [], P.fields, none⟩ hwf' rfl _ hokL,
    aggregateInternal_canon ⟨[], [], P.fields, none⟩ hwf' rfl _ hokR,
    finRec_of_canonState ⟨[], [], P.fields, none⟩
      (Λ₁ ++ (keysOf P X).map (finRec P X) ++ Λ₂),
    finRec_of_canonState ⟨[], [], P.fields, none⟩ (Λ₁ ++ X ++ Λ₂),
    canonState_P0_replace P none hwf X Λ₁ Λ₂ hX]

theorem aggregate_congr (P : Params) (b : Bool) (L₁ L₂ : List Rec)
    (h1 : aggregateInternal P false L₁ = aggregateInternal P false L₂)
    (h2 : aggregateInternal ⟨[], [], P.fields, P.sortBy⟩ false L₁ =
      aggregateInternal ⟨[], [], P.fields, P.sortBy⟩ false L₂) :
    aggregate P b L₁ = aggregate P b L₂ := by
  have e1 : aggregate P b L₁ = Bind.bind (aggregateInternal P false L₁)
      (fun ar => Bind.bind (aggregateInternal ⟨[], [], P.fields, P.sortBy⟩ false L₁)
        (fun tl => if b then
            (match tl.head? with
             | none => throw .typeError
             | some t => pure ⟨ar.map stripMeta, some (stripMeta t)⟩)
          else pure ⟨ar, tl.head?⟩)) := rfl
  have e2 : aggregate P b L₂ = Bind.bind (aggregateInternal P false L₂)
      (fun ar => Bind.bind (aggregateInternal ⟨[], [], P.fields, P.sortBy⟩ false L₂)
        (fun tl => if b then
            (match tl.head? with
             | none => throw .typeError
             | some t => pure ⟨ar.map stripMeta, some (stripMeta t)⟩)
          else pure ⟨ar, tl.head?⟩)) := rfl
  rw [e1, e2, h1, h2]

def P1cex : Params :=
  ⟨["p"], [("p", [0, 10, 20])], [("c", ⟨.count, none, none⟩)], none⟩

def X1cex : List Rec := [⟨none, [("p", .num (.fin 5))]⟩]

/-- C1, counterexample: with a bucketed match key the claimed identity
`aggregate(aggregate(X).groupedRecords ∪ Y) = aggregate(X ∪ Y)` fails even for
`Y = ∅` and the `count` method alone.  The single record `p = 5` lands in
bucket "0-10"; re-aggregating the output record compares its *label string*
against the numeric breakpoints, which yields NaN comparisons, so the group is
relabelled "20+". -/
theorem claim_C1_cex :
    ∃ res : AggResult, aggregate P1cex false X1cex = .ok res ∧
      aggregate P1cex false (res.aggregatedRecords ++ []) ≠
        aggregate P1cex false (X1cex ++ []) := by
  refine ⟨(aggregate P1cex false X1cex).toOption.getD ⟨[], none⟩, ?_, ?_⟩ <;> decide

/-- C1, amended: composability and augmentability of `aggregate` hold under the
conditions the engine actually requires — no bucketed match keys (bucket labels
do not survive re-aggregation, see the counterexample), no `sortBy` (formalised
scope), every weighted-average field carries a `weightField`, its source field
is also aggregated by a standard method (the classification check tests the
plain source key), its composite key does not collide with a standard source
field, every non-count non-weighted field names a `sourceField`, output paths
do not overwrite match keys, and the incoming chunks are raw.  Then
`aggregate(aggregate(X).aggregatedRecords ∪ Y) = aggregate(X ∪ Y)` and
`aggregate(aggregate(X).aggregatedRecords ∪ aggregate(Y).aggregatedRecords) =
aggregate(X ∪ Y)`, exactly — counts, sums, min/max, averages, standard
deviations, weighted averages and the totals record all agree (the engine is
exact over rationals; no floating tolerance is needed in this model). -/
theorem claim_C1_amended (P : Params) (b : Bool) (X Y : List Rec) (resX resY : AggResult)
    (hwf : WFfields P.fields) (hb : P.buckets = []) (hs : P.sortBy = none)
    (hout : ∀ of ∈ P.fields, of.1 ∉ P.matchKeys)
    (hX : ∀ r ∈ X, r.meta = none) (hY : ∀ r ∈ Y, r.meta = none)
    (hgx : aggregate P false X = .ok resX) (hgy : aggregate P false Y = .ok resY) :
    aggregate P b (resX.aggregatedRecords ++ Y) = aggregate P b (X ++ Y) ∧
    aggregate P b (resX.aggregatedRecords ++ resY.aggregatedRecords) =
      aggregate P b (X ++ Y) := by
  have hokX : ∀ r ∈ X, OkRec P r := fun r hr => Or.inl (hX r hr)
  have hokY : ∀ r ∈ Y, OkRec P r := fun r hr => Or.inl (hY r hr)
  have hokXP0 : ∀ r ∈ X, OkRec ⟨[], [], P.fields, none⟩ r := fun r hr => Or.inl (hX r hr)
  have hokYP0 : ∀ r ∈ Y, OkRec ⟨[], [], P.fields, none⟩ r := fun r hr => Or.inl (hY r hr)
  have hgx' := aggregate_inv P X resX hgx
  have hgy' := aggregate_inv P Y resY hgy
  have hXc := aggregateInternal_canon P hwf hs X hokX
  have hYc := aggregateInternal_canon P hwf hs Y hokY
  have hgxeq : resX.aggregatedRecords = (keysOf P X).map (finRec P X) := by
    rw [hgx'] at hXc
    exact Except.ok.inj hXc
  have hgyeq : resY.aggregatedRecords = (keysOf P Y).map (finRec P Y) := by
    rw [hgy'] at hYc
    exact Except.ok.inj hYc
  have haug1 : aggregateInternal P false (resX.aggregatedRecords ++ Y) =
      aggregateInternal P false (X ++ Y) := by
    rw [hgxeq]
    have h := aggInternal_replace P hwf hb hs hout X [] Y (by simp) hokY hX
    simpa using h
  have haug2 : aggregateInternal ⟨[], [], P.fields, P.sortBy⟩ false
      (resX.aggregatedRecords ++ Y) =
      aggregateInternal ⟨[], [], P.fields, P.sortBy⟩ false (X ++ Y) := by
    rw [hgxeq, hs]
    have h := aggInternal_P0_replace P hwf X [] Y (by simp) hokYP0 hX
    simpa using h
  have hokgyP : ∀ r ∈ (keysOf P Y).map (finRec P Y), OkRec P r := by
    intro r hr
    obtain ⟨k, hk, rfl⟩ := List.mem_map.mp hr
    exact Or.inr (finRec_CSR P Y k hk)
  have hokgyP0 : ∀ r ∈ (keysOf P Y).map (finRec P Y),
      OkRec ⟨[], [], P.fields, none⟩ r := by
    intro r hr
    obtain ⟨k, hk, rfl⟩ := List.mem_map.mp hr
    exact Or.inr (finRec_CSR_P0 P none Y k hk)
  have hcomp1 : aggregateInternal P false
      (resX.aggregatedRecords ++ resY.aggregatedRecords) =
      aggregateInternal P false (X ++ Y) := by
    rw [hgxeq, hgyeq]
    have h1 := aggInternal_replace P hwf hb hs hout X []
      ((keysOf P Y).map (finRec P Y)) (by simp) hokgyP hX
    have h2 := aggInternal_replace P hwf hb hs hout Y X [] hokX (by simp) hY
    simp only [List.nil_append, List.append_nil] at h1 h2
    rw [h1, h2]
  have hcomp2 : aggregateInternal ⟨[], [], P.fields, P.sortBy⟩ false
      (resX.aggregatedRecords ++ resY.aggregatedRecords) =
      aggregateInternal ⟨[], [], P.fields, P.sortBy⟩ false (X ++ Y) := by
    rw [hgxeq, hgyeq, hs]
    have h1 := aggInternal_P0_replace P hwf X []
      ((keysOf P Y).map (finRec P Y)) (by simp) hokgyP0 hX
    have h2 := aggInternal_P0_replace P hwf Y X [] hokXP0 (by simp) hY
    simp only [List.nil_append, List.append_nil] at h1 h2
    rw [h1, h2]
  exact ⟨aggregate_congr P b _ _ haug1 haug2, aggregate_congr P b _ _ hcomp1 hcomp2⟩

def PC1w : Params :=
  ⟨["g"], [],
   [("cnt", ⟨.count, none, none⟩), ("sv", ⟨.sum, some "v", none⟩),
    ("wa", ⟨.weightedAverage, some "v", some "w"⟩)], none⟩

def XC1w : List Rec :=
  [⟨none, [("g", .str "a"), ("v", .num (.fin 1)), ("w", .num (.fin 2))]⟩,
   ⟨none, [("g", .str "b"), ("v", .num (.fin 3)), ("w", .num (.fin 1))]⟩]

def YC1w : List Rec :=
  [⟨none, [("g", .str "a"), ("v", .num (.fin 5)), ("w", .num (.fin 2))]⟩]

def resXC1w : AggResult := (aggregate PC1w false XC1w).toOption.getD ⟨[], none⟩

def resYC1w : AggResult := (aggregate PC1w false YC1w).toOption.getD ⟨[], none⟩

theorem claim_C1_amended_witness :
    aggregate PC1w false (resXC1w.aggregatedRecords ++ YC1w) =
      aggregate PC1w false (XC1w ++ YC1w) ∧
    aggregate PC1w false (resXC1w.aggregatedRecords ++ resYC1w.aggregatedRecords) =
      aggregate PC1w false (XC1w ++ YC1w) :=
  claim_C1_amended PC1w false XC1w YC1w resXC1w resYC1w
    ⟨by decide, by decide, by decide, by decide⟩ rfl rfl (by decide)
    (by decide) (by decide) (by decide) (by decide)

/-! ### Fresh counts over raw inputs (for C5) -/

theorem groupContrib_cnt_raw (P : Params) :
    ∀ (ms : List Rec), (∀ r ∈ ms, r.meta = none) →
      (List.foldl combC unitC (ms.map (contribOf P))).cnt = .fin ms.length := by
  intro ms
  induction ms with
  | nil => intro _; rfl
  | cons r ms ih =>
    intro hraw
    rw [List.map_cons, List.foldl_cons, foldl_combC_start]
    show (combC (combC unitC (contribOf P r)) _).cnt = _
    have hδ : (contribOf P r).cnt = .fin 1 := by
      rw [contribOf, if_neg (by
        rw [isAggRecord_of_meta_none (hraw r (List.mem_cons_self _ _))]
        exact Bool.false_ne_true)]
      rfl
    show ((unitC.cnt.add (contribOf P r).cnt).add
      (List.foldl combC unitC (ms.map (contribOf P))).cnt) = _
    rw [hδ, ih (fun x hx => hraw x (List.mem_cons_of_mem _ hx))]
    show JsNum.fin (qadd (qadd 0 1) ms.length) = JsNum.fin ((ms.length + 1 : ℕ) : ℚ)
    rw [qadd_eq, qadd_eq]
    norm_num
    rw [add_comm]

theorem aggregate_true_inv (P : Params) (recs : List Rec) (res : AggResult)
    (h : aggregate P true recs = .ok res) :
    (∀ r ∈ res.aggregatedRecords, r.meta = none) ∧
    (∀ t, res.totals = some t → t.meta = none) := by
  have hexpand : aggregate P true recs =
      Bind.bind (aggregateInternal P false recs)
        (fun ar => Bind.bind (aggregateInternal ⟨[], [], P.fields, P.sortBy⟩ false recs)
          (fun tl =>
            match tl.head? with
            | none => throw .typeError
            | some t => pure ⟨ar.map stripMeta, some (stripMeta t)⟩)) := rfl
  rw [hexpand] at h
  cases h1 : aggregateInternal P false recs with
  | error e =>
    rw [h1] at h
    exact absurd h (by simp [Bind.bind, Except.bind])
  | ok ar =>
    rw [h1, except_bind_ok] at h
    cases h2 : aggregateInternal ⟨[], [], P.fields, P.sortBy⟩ false recs with
    | error e =>
      rw [h2] at h
      exact absurd h (by simp [Bind.bind, Except.bind])
    | ok tl =>
      rw [h2, except_bind_ok] at h
      cases h3 : tl.head? with
      | none =>
        rw [h3] at h
        exact absurd h (by simp [throw, throwThe, MonadExceptOf.throw])
      | some t =>
        rw [h3] at h
        have hres : (⟨ar.map stripMeta, some (stripMeta t)⟩ : AggResult) = res := by
          simpa [Pure.pure, Except.pure] using h
        rw [← hres]
        constructor
        · intro r hr
          obtain ⟨r', _, rfl⟩ := List.mem_map.mp hr
          rfl
        · intro t' ht'
          have : stripMeta t = t' := by simpa using ht'
          rw [← this]
          rfl

/-- C5: metadata stripping is final, and re-aggregation of stripped output is
fresh.  With `noAggregateMetadata`, no produced record — grouped or totals —
carries the reserved metadata (first two conjuncts).  Re-aggregating the
stripped output under any request `Q` whose weighted fields are well-formed and
without sorting classifies every record as raw, and every resulting group's
count is exactly the number of stripped records in that group — one per input
record, never a previously stored count (the output records' metadata is
`finRec`, whose count is the group contribution's count). -/
theorem claim_C5 (P Q : Params) (recs : List Rec) (res : AggResult)
    (hwfQ : WFfields Q.fields) (hsQ : Q.sortBy = none)
    (hagg : aggregate P true recs = .ok res) :
    (∀ r ∈ res.aggregatedRecords, r.meta = none) ∧
    (∀ t, res.totals = some t → t.meta = none) ∧
    aggregateInternal Q false res.aggregatedRecords =
      .ok ((keysOf Q res.aggregatedRecords).map (finRec Q res.aggregatedRecords)) ∧
    ∀ k ∈ keysOf Q res.aggregatedRecords,
      (groupContrib Q res.aggregatedRecords k).cnt =
        .fin ((membersOf Q res.aggregatedRecords k).length) := by
  obtain ⟨hstrip, htotals⟩ := aggregate_true_inv P recs res hagg
  refine ⟨hstrip, htotals, ?_, ?_⟩
  · exact aggregateInternal_canon Q hwfQ hsQ _ (fun r hr => Or.inl (hstrip r hr))
  · intro k _
    rw [groupContrib]
    refine groupContrib_cnt_raw Q _ fun r hr => ?_
    exact hstrip r (List.mem_filter.mp hr).1

def PC5w : Params := ⟨["g"], [], [("c", ⟨.count, none, none⟩)], none⟩

def recsC5w : List Rec :=
  [⟨some ⟨.fin 5, ["g"], []⟩, [("g", .str "a")]⟩,
   ⟨some ⟨.fin 7, ["g"], []⟩, [("g", .str "a")]⟩,
   ⟨none, [("g", .str "b")]⟩]

def resC5w : AggResult := (aggregate PC5w true recsC5w).toOption.getD ⟨[], none⟩

theorem claim_C5_witness :
    (∀ r ∈ resC5w.aggregatedRecords, r.meta = none) ∧
    (∀ t, resC5w.totals = some t → t.meta = none) ∧
    aggregateInternal PC5w false resC5w.aggregatedRecords =
      .ok ((keysOf PC5w resC5w.aggregatedRecords).map
        (finRec PC5w resC5w.aggregatedRecords)) ∧
    ∀ k ∈ keysOf PC5w resC5w.aggregatedRecords,
      (groupContrib PC5w resC5w.aggregatedRecords k).cnt =
        .fin ((membersOf PC5w resC5w.aggregatedRecords k).length) :=
  claim_C5 PC5w PC5w recsC5w resC5w ⟨by decide, by decide, by decide, by decide⟩ rfl
    (by decide)

/-! ### The sort-key order is a total preorder (for C8) -/

theorem keyLeN_total (a b : JsNum) : a.keyLe b = true ∨ b.keyLe a = true := by
  cases a <;> cases b <;> simp [JsNum.keyLe] <;> exact le_total _ _

theorem keyLeN_trans {a b c : JsNum} (hab : a.keyLe b = true) (hbc : b.keyLe c = true) :
    a.keyLe c = true := by
  cases a <;> cases b <;> cases c <;> simp [JsNum.keyLe] at hab hbc ⊢ <;>
    exact le_trans hab hbc

theorem keyLeN_antisymm {a b : JsNum} (hab : a.keyLe b = true) (hba : b.keyLe a = true) :
    a = b := by
  cases a <;> cases b <;> simp [JsNum.keyLe] at hab hba ⊢ <;> exact le_antisymm hab hba

theorem keyLeV_total (a b : JsVal) : a.keyLe b = true ∨ b.keyLe a = true := by
  cases a with
  | num x =>
    cases b with
    | num y => exact keyLeN_total x y
    | str s => exact Or.inl rfl
    | undef => exact Or.inl rfl
  | str s =>
    cases b with
    | num y => exact Or.inr rfl
    | str t =>
      show (!charsLtb t.data s.data) = true ∨ (!charsLtb s.data t.data) = true
      cases hts : charsLtb t.data s.data with
      | false => exact Or.inl rfl
      | true =>
        right
        rw [charsLtb_asymm hts]
        rfl
    | undef => exact Or.inl rfl
  | undef =>
    cases b with
    | num y => exact Or.inr rfl
    | str t => exact Or.inr rfl
    | undef => exact Or.inl rfl

theorem keyLeV_trans {a b c : JsVal} (hab : a.keyLe b = true) (hbc : b.keyLe c = true) :
    a.keyLe c = true := by
  cases a with
  | num x =>
    cases c with
    | num z =>
      cases b with
      | num y => exact keyLeN_trans hab hbc
      | str s => exact Bool.noConfusion hbc
      | undef => exact Bool.noConfusion hbc
    | str t => rfl
    | undef => rfl
  | str s =>
    cases b with
    | num y => exact Bool.noConfusion hab
    | str t =>
      cases c with
      | num z => exact Bool.noConfusion hbc
      | str u =>
        show (!charsLtb u.data s.data) = true
        have hab' : (!charsLtb t.data s.data) = true := hab
        have hbc' : (!charsLtb u.data t.data) = true := hbc
        have h1 : charsLtb t.data s.data = false := by
          cases h : charsLtb t.data s.data with
          | false => rfl
          | true =>
            rw [h] at hab'
            exact Bool.noConfusion hab'
        have h2 : charsLtb u.data t.data = false := by
          cases h : charsLtb u.data t.data with
          | false => rfl
          | true =>
            rw [h] at hbc'
            exact Bool.noConfusion hbc'
        cases h3 : charsLtb u.data s.data with
        | false => rfl
        | true =>
          exfalso
          cases h4 : charsLtb t.data u.data with
          | true =>
            have h5 := charsLtb_trans h4 h3
            rw [h1] at h5
            exact Bool.noConfusion h5
          | false =>
            have heq := charsLtb_connex h2 h4
            rw [heq] at h3
            rw [h1] at h3
            exact Bool.noConfusion h3
      | undef => rfl
    | undef =>
      cases c with
      | num z => exact Bool.noConfusion hbc
      | str u => exact Bool.noConfusion hbc
      | undef => rfl
  | undef =>
    cases b with
    | num y => exact Bool.noConfusion hab
    | str t => exact Bool.noConfusion hab
    | undef =>
      cases c with
      | num z => exact Bool.noConfusion hbc
      | str t => exact Bool.noConfusion hbc
      | undef => rfl

theorem keyLeV_antisymm {a b : JsVal} (hab : a.keyLe b = true) (hba : b.keyLe a = true) :
    a = b := by
  cases a with
  | num x =>
    cases b with
    | num y => exact congrArg JsVal.num (keyLeN_antisymm hab hba)
    | str s => exact Bool.noConfusion hba
    | undef => exact Bool.noConfusion hba
  | str s =>
    cases b with
    | num y => exact Bool.noConfusion hab
    | str t =>
      have hab' : (!charsLtb t.data s.data) = true := hab
      have hba' : (!charsLtb s.data t.data) = true := hba
      have h1 : charsLtb t.data s.data = false := by
        cases h : charsLtb t.data s.data with
        | false => rfl
        | true =>
          rw [h] at hab'
          exact Bool.noConfusion hab'
      have h2 : charsLtb s.data t.data = false := by
        cases h : charsLtb s.data t.data with
        | false => rfl
        | true =>
          rw [h] at hba'
          exact Bool.noConfusion hba'
      have heq := charsLtb_connex h2 h1
      exact congrArg JsVal.str (String.ext heq)
    | undef => exact Bool.noConfusion hba
  | undef =>
    cases b with
    | num y => exact Bool.noConfusion hab
    | str t => exact Bool.noConfusion hab
    | undef => rfl

theorem keyListLe_total : ∀ (as bs : List JsVal),
    keyListLe as bs = true ∨ keyListLe bs as = true := by
  intro as
  induction as with
  | nil => intro bs; exact Or.inl rfl
  | cons a as ih =>
    intro bs
    cases bs with
    | nil => exact Or.inr rfl
    | cons b bs =>
      by_cases hab : a = b
      · subst hab
        show (if a = a then keyListLe as bs else _) = true ∨
          (if a = a then keyListLe bs as else _) = true
        rw [if_pos rfl, if_pos rfl]
        exact ih bs
      · show (if a = b then _ else a.keyLe b) = true ∨
          (if b = a then _ else b.keyLe a) = true
        rw [if_neg hab, if_neg (fun h => hab h.symm)]
        exact keyLeV_total a b

theorem keyListLe_trans : ∀ (as bs cs : List JsVal), keyListLe as bs = true →
    keyListLe bs cs = true → keyListLe as cs = true := by
  intro as
  induction as with
  | nil => intro bs cs _ _; rfl
  | cons a as ih =>
    intro bs cs hab hbc
    cases bs with
    | nil => cases hab
    | cons b bs =>
      cases cs with
      | nil => cases hbc
      | cons c cs =>
        show (if a = c then keyListLe as cs else a.keyLe c) = true
        by_cases h1 : a = b
        · subst h1
          rw [show keyListLe (a :: as) (a :: bs) = keyListLe as bs from by
            show (if a = a then _ else _) = _
            rw [if_pos rfl]] at hab
          by_cases h2 : a = c
          · subst h2
            rw [if_pos rfl]
            rw [show keyListLe (a :: bs) (a :: cs) = keyListLe bs cs from by
              show (if a = a then _ else _) = _
              rw [if_pos rfl]] at hbc
            exact ih bs cs hab hbc
          · rw [if_neg h2]
            rw [show keyListLe (a :: bs) (c :: cs) = a.keyLe c from by
              show (if a = c then _ else _) = _
              rw [if_neg h2]] at hbc
            exact hbc
        · rw [show keyListLe (a :: as) (b :: bs) = a.keyLe b from by
            show (if a = b then _ else _) = _
            rw [if_neg h1]] at hab
          by_cases h2 : b = c
          · subst h2
            rw [if_neg h1]
            exact hab
          · rw [show keyListLe (b :: bs) (c :: cs) = b.keyLe c from by
              show (if b = c then _ else _) = _
              rw [if_neg h2]] at hbc
            by_cases h3 : a = c
            · subst h3
              exact absurd (keyLeV_antisymm hab hbc) h1
            · rw [if_neg h3]
              exact keyLeV_trans hab hbc

/-! ### Parsing the engine's bucket labels (for C8) -/

theorem mem_of_getLastA {α : Type} : ∀ (l : List α) (a : α), l.getLast? = some a → a ∈ l := by
  intro l
  induction l with
  | nil => intro a h; cases h
  | cons c t ih =>
    intro a h
    cases t with
    | nil =>
      rw [List.getLast?_singleton] at h
      rw [Option.some.injEq] at h
      rw [← h]
      exact List.mem_cons_self _ _
    | cons d t' =>
      rw [List.getLast?_cons_cons] at h
      exact List.mem_cons_of_mem _ (ih a h)

theorem natToStr_all_digits (n : ℕ) : ∀ c ∈ (natToStr n).data, isDigitChr c = true := by
  by_cases h0 : n = 0
  · subst h0
    intro c hc
    have : c = '0' := by simpa [natToStr] using hc
    rw [this]
    decide
  · rw [natToStr, if_neg h0]
    intro c hc
    have hd : natDigitsAux n n = Nat.digits 10 n := natDigitsAux_eq n n le_rfl
    rw [show (String.mk (((natDigitsAux n n).map digitChr).reverse)).data =
      ((Nat.digits 10 n).map digitChr).reverse from by rw [hd]] at hc
    rw [List.mem_reverse, List.mem_map] at hc
    obtain ⟨d, hdm, rfl⟩ := hc
    exact isDigitChr_digitChr (Nat.digits_lt_base (by norm_num) hdm)

theorem natToStr_ne_nil (n : ℕ) : (natToStr n).data ≠ [] := by
  by_cases h0 : n = 0
  · subst h0
    decide
  · rw [natToStr, if_neg h0]
    have hd : natDigitsAux n n = Nat.digits 10 n := natDigitsAux_eq n n le_rfl
    rw [show (String.mk (((natDigitsAux n n).map digitChr).reverse)).data =
      ((Nat.digits 10 n).map digitChr).reverse from by rw [hd]]
    intro hc
    apply Nat.digits_ne_nil_iff_ne_zero.mpr h0
    have := congrArg List.length hc
    simpa using this

theorem ratToStr_nonneg_int {b : ℚ} (hden : b.den = 1) (hnum : 0 ≤ b.num) :
    ratToStr b = natToStr b.num.toNat := by
  rw [ratToStr, if_pos hden]
  obtain ⟨n, hn⟩ := Int.eq_ofNat_of_zero_le hnum
  rw [hn]
  rfl

theorem cast_toNat_eq_self {b : ℚ} (hden : b.den = 1) (hnum : 0 ≤ b.num) :
    ((b.num.toNat : ℕ) : ℚ) = b := by
  have h1 : ((b.num : ℤ) : ℚ) = b := by
    have h2 := Rat.num_div_den b
    rw [hden] at h2
    simpa using h2
  rw [← h1]
  have := Int.toNat_of_nonneg hnum
  exact_mod_cast congrArg (fun z : ℤ => ((z : ℤ) : ℚ)) this

theorem splitDash_ne_nil : ∀ (l : List Char), splitDash l ≠ [] := by
  intro l
  cases l with
  | nil => simp [splitDash]
  | cons c rest =>
    rw [splitDash]
    cases hs : splitDash rest with
    | nil => simp
    | cons h t => by_cases hc : c = '-' <;> simp [hc]

theorem splitDash_no_dash : ∀ (l : List Char), '-' ∉ l → splitDash l = [l] := by
  intro l
  induction l with
  | nil => intro _; rfl
  | cons c rest ih =>
    intro h
    rw [List.mem_cons] at h
    push_neg at h
    rw [splitDash]
    simp only [ih h.2]
    rw [if_neg (fun hc => h.1 hc.symm)]

theorem splitDash_append : ∀ (l₁ l₂ : List Char), '-' ∉ l₁ →
    splitDash (l₁ ++ '-' :: l₂) = l₁ :: splitDash l₂ := by
  intro l₁
  induction l₁ with
  | nil =>
    intro l₂ _
    rw [List.nil_append, splitDash]
    cases hs : splitDash l₂ with
    | nil => exact absurd hs (splitDash_ne_nil l₂)
    | cons h t =>
      simp only [hs]
      simp
  | cons c l₁ ih =>
    intro l₂ h
    rw [List.mem_cons] at h
    push_neg at h
    rw [List.cons_append, splitDash]
    simp only [ih l₂ h.2]
    rw [if_neg (fun hc => h.1 hc.symm)]

theorem parseBucketChars_default {l : List Char} (h : ∀ rest, l ≠ '<' :: '=' :: rest) :
    parseBucketChars l =
      if l.getLast? = some '+' then [parseNumChars l.dropLast, .inf]
      else (splitDash l).map parseNumChars := by
  unfold parseBucketChars
  split
  · next rest => exact absurd rfl (h rest)
  · rfl

theorem no_dash_of_digits {l : List Char} (h : ∀ c ∈ l, isDigitChr c = true) : '-' ∉ l := by
  intro hc
  have := h '-' hc
  exact absurd this (by decide)

theorem parse_label_mid {p q : ℚ} (hdp : p.den = 1) (hnp : 0 ≤ p.num)
    (hdq : q.den = 1) (hnq : 0 ≤ q.num) :
    parseBucketString (ratToStr p ++ "-" ++ ratToStr q) = [.fin p, .fin q] := by
  rw [parseBucketString, ratToStr_nonneg_int hdp hnp, ratToStr_nonneg_int hdq hnq]
  have hdata : (natToStr p.num.toNat ++ "-" ++ natToStr q.num.toNat).data =
      (natToStr p.num.toNat).data ++ '-' :: (natToStr q.num.toNat).data := by
    rw [String.data_append, String.data_append]
    rw [show ("-" : String).data = ['-'] from rfl, List.append_assoc]
    rfl
  rw [hdata]
  have hd1 := natToStr_all_digits p.num.toNat
  have hd2 := natToStr_all_digits q.num.toNat
  have hne1 := natToStr_ne_nil p.num.toNat
  have hnotlt : ∀ rest,
      (natToStr p.num.toNat).data ++ '-' :: (natToStr q.num.toNat).data ≠
        '<' :: '=' :: rest := by
    intro rest hc
    cases hd : (natToStr p.num.toNat).data with
    | nil => exact hne1 hd
    | cons c cs =>
      rw [hd, List.cons_append] at hc
      have hclt : c = '<' := (List.cons.inj hc).1
      have hcd := hd1 c (hd ▸ List.mem_cons_self c cs)
      rw [hclt] at hcd
      exact absurd hcd (by decide)
  rw [parseBucketChars_default hnotlt]
  have hlast : ((natToStr p.num.toNat).data ++ '-' :: (natToStr q.num.toNat).data).getLast?
      ≠ some '+' := by
    intro hc
    have hmem := mem_of_getLastA _ _ hc
    rw [List.mem_append, List.mem_cons] at hmem
    rcases hmem with hmem | hmem | hmem
    · exact absurd (hd1 _ hmem) (by decide)
    · exact absurd hmem (by decide)
    · exact absurd (hd2 _ hmem) (by decide)
  rw [if_neg hlast, splitDash_append _ _ (no_dash_of_digits hd1),
    splitDash_no_dash _ (no_dash_of_digits hd2), List.map_cons, List.map_cons,
    List.map_nil, parseNumChars_natToStr, parseNumChars_natToStr,
    cast_toNat_eq_self hdp hnp, cast_toNat_eq_self hdq hnq]

theorem parse_label_top {b : ℚ} (hdb : b.den = 1) (hnb : 0 ≤ b.num) :
    parseBucketString (ratToStr b ++ "+") = [.fin b, .inf] := by
  rw [parseBucketString, ratToStr_nonneg_int hdb hnb]
  have hdata : (natToStr b.num.toNat ++ "+").data =
      (natToStr b.num.toNat).data ++ ['+'] := by
    rw [String.data_append]
  rw [hdata]
  have hd1 := natToStr_all_digits b.num.toNat
  have hne1 := natToStr_ne_nil b.num.toNat
  have hnotlt : ∀ rest, (natToStr b.num.toNat).data ++ ['+'] ≠ '<' :: '=' :: rest := by
    intro rest hc
    cases hd : (natToStr b.num.toNat).data with
    | nil => exact hne1 hd
    | cons c cs =>
      rw [hd, List.cons_append] at hc
      have hclt : c = '<' := (List.cons.inj hc).1
      have hcd := hd1 c (hd ▸ List.mem_cons_self c cs)
      rw [hclt] at hcd
      exact absurd hcd (by decide)
  rw [parseBucketChars_default hnotlt, if_pos (List.getLast?_concat _),
    List.dropLast_concat, parseNumChars_natToStr, cast_toNat_eq_self hdb hnb]

theorem parse_label_first (b : ℚ) :
    (parseBucketString ("<=" ++ ratToStr b)).headD .nan = .ninf := by
  rw [parseBucketString]
  rw [show ("<=" ++ ratToStr b).data = '<' :: '=' :: (ratToStr b).data from by
    rw [String.data_append]
    rfl]
  rfl

/-- Modelled from the spec: the re-aggregatability test as §4.4 step 2 states
it — metadata present, requested match keys a subset of the recorded ones, and
`sources` containing every standard metric key and every *composite* weighted
metric key the request needs.  Used only to compare against the implemented
check `isAggRecord`. -/
def specReaggregatable (P : Params) (r : Rec) : Bool :=
  match r.meta with
  | none => false
  | some md =>
    isSubset P.matchKeys md.matchKeys &&
    (standardSourceFields P.fields).all (fun s => (alookup md.sources s).isSome) &&
    (weightedAvgFields P.fields).all (fun f =>
      (alookup md.sources (getWeightedAverageMetadataKey f.sourceField f.weightField)).isSome)

/-! ### Claims -/

/-- Claim C10: with an empty records list, `aggregate` returns an empty
`aggregatedRecords` list and an absent (`undefined`) totals value rather than a
record of an empty implicit group; and with `noAggregateMetadata` additionally
set, the invocation throws (the `delete totals[AGG_METADATA_FIELD]` on the
absent totals) instead of returning a result. -/
theorem claim_C10 (P : Params) :
    aggregate P false [] = .ok ⟨[], none⟩ ∧ aggregate P true [] = .error .typeError := by
  constructor <;>
    simp [aggregate, aggregateInternal_nil, Bind.bind, Except.bind, Pure.pure, Except.pure, throw, throwThe, MonadExceptOf.throw]

/-- Claim C4 (counterexample): a request containing a `weightedAverage` field
with no `weightField` does *not* fail when the records list is empty — the
invocation returns normally, contradicting "fails … before any record is
processed (in particular it fails even when the records list is empty)". -/
theorem claim_C4_cex :
    (let Pbad : Params := ⟨[], [], [("out", ⟨.weightedAverage, some "s", none⟩)], none⟩
     (∃ f ∈ weightedAvgFields Pbad.fields, f.weightField = none) ∧
     aggregate Pbad false [] = .ok ⟨[], none⟩) := by
  exact ⟨by decide, by decide⟩

/-- Claim C4 (amended): the configuration checks are not performed up front.  A
`weightedAverage` field without a `weightField` throws only while the first
record is being folded (so any non-empty raw input fails with the configuration
error, and the error aborts the invocation before any result is observable);
with an empty records list `aggregateInternal` returns successfully; and a
method that requires a `sourceField` but lacks one fails only at
output-derivation time, with a `TypeError` rather than an up-front
configuration error. -/
theorem claim_C4_amended :
    (∀ (P : Params) (r : Rec) (rs : List Rec), r.meta = none →
      (∃ f ∈ weightedAvgFields P.fields, f.weightField = none) →
      aggregateInternal P false (r :: rs) = .error .configError ∧
      aggregate P false (r :: rs) = .error .configError) ∧
    (∀ (P : Params) (noAgg : Bool), aggregateInternal P noAgg [] = .ok []) ∧
    (let Psf : Params := ⟨[], [], [("out", ⟨.sum, none, none⟩)], none⟩
     aggregateInternal Psf false [⟨none, [("s", .num (.fin 1))]⟩] = .error .typeError) := by
  refine ⟨?_, aggregateInternal_nil, by decide⟩
  intro P r rs hmeta hbad
  have hstep : stepRecord P [] r = .error .configError :=
    stepRecord_raw_configError P [] r hmeta
      (by intro k g h; simp [alookup] at h) hbad
  have hfold : List.foldlM (stepRecord P) ([] : List (String × Rec)) (r :: rs) =
      .error .configError := by
    rw [List.foldlM_cons, hstep]
    rfl
  constructor
  · simp only [aggregateInternal]
    rw [hfold]
    rfl
  · have h1 : aggregateInternal P false (r :: rs) = .error .configError := by
      simp only [aggregateInternal]
      rw [hfold]
      rfl
    simp only [aggregate]
    rw [h1]
    rfl

/-- Claim C4 (amended) witness: a concrete malformed request over one raw
record fails with the configuration error. -/
theorem claim_C4_amended_witness :
    (let P : Params := ⟨[], [], [("out", ⟨.weightedAverage, some "s", none⟩)], none⟩
     let r : Rec := ⟨none, [("s", .num (.fin 1))]⟩
     r.meta = none ∧ (∃ f ∈ weightedAvgFields P.fields, f.weightField = none) ∧
     aggregateInternal P false [r] = .error .configError) :=
  ⟨rfl, by decide, (claim_C4_amended.1 _ _ [] rfl (by decide)).1⟩

/-- Claim C2: the code does not classify records by the presence of the
*composite* weighted metric key.  For a weighted-average request, a record whose
metadata carries exactly the needed composite key (and satisfies the match-keys
subset check) is compatible per the spec's test (`specReaggregatable`), yet the
implementation checks `sources[sourceField]` — the plain source-field key —
classifies the record as not re-aggregatable, and folds it as a single raw data
point: the output count is 1 instead of the metadata's 2 and the weighted sums
become NaN. -/
theorem claim_C2_bug :
    (let P : Params := ⟨[], [], [("out", ⟨.weightedAverage, some "s", some "w"⟩)], none⟩
     let r : Rec := ⟨some ⟨.fin 2, [], [("weightedAverage,s,w",
        ⟨none, none, none, none, some (.fin 6), some (.fin 3)⟩)]⟩, []⟩
     specReaggregatable P r = true ∧
     isAggRecord P r = false ∧
     aggregateInternal P false [r] =
       .ok [⟨some ⟨.fin 1, [], [("weightedAverage,s,w",
         ⟨none, none, none, none, some .nan, some .nan⟩)]⟩, [("out", .num .nan)]⟩]) := by
  exact ⟨by decide, by decide, by decide⟩

/-- Accumulated state exhibiting a negative derived variance:
`count = 1`, `sum = 2`, `sumOfSquares = 1`, so `1/1 - (2/1)² = -3`. -/
def ssC7 : SourceState := ⟨some (.fin 2), some (.fin 1), some .inf, some .ninf, none, none⟩

def mdC7 : AggData := ⟨.fin 1, [], [("s", ssC7)]⟩

/-- Claim C7 (counterexample): on a group state whose variance
`sumOfSquares/count − (sum/count)²` is negative, the derived standard deviation
is NaN (`BigNumber.sqrt` of a negative value), not the claimed clamped zero. -/
theorem claim_C7_cex :
    deriveValue mdC7 ⟨.standardDeviation, some "s", none⟩ = .ok .nan ∧
    JsNum.nan ≠ JsNum.fin 0 := by
  exact ⟨by decide, by decide⟩

/-- Claim C7 (amended): the derived standard deviation is
`sqrt(sumOfSquares/count − (sum/count)²)` with no clamping: a negative variance
surfaces as NaN rather than zero (for non-negative variance it is the square
root of the exact variance). -/
theorem claim_C7_amended (c s t : ℚ) (k : String) (md : AggData) (ss : SourceState)
    (hc : md.count = .fin c) (hc0 : c ≠ 0)
    (hss : alookup md.sources k = some ss)
    (hsum : ss.sum = some (.fin s)) (hsos : ss.sumOfSquares = some (.fin t)) :
    deriveValue md ⟨.standardDeviation, some k, none⟩ =
      .ok (JsNum.sqrtN (.fin (t / c - s / c * (s / c)))) ∧
    (t / c - s / c * (s / c) < 0 →
      deriveValue md ⟨.standardDeviation, some k, none⟩ = .ok .nan) := by
  have hdiv : ∀ x : ℚ, JsNum.div (.fin x) (.fin c) = .fin (x / c) := by
    intro x
    simp [JsNum.div, hc0, qdiv_eq]
  have key : deriveValue md ⟨.standardDeviation, some k, none⟩ =
      .ok (JsNum.sqrtN (.fin (t / c - s / c * (s / c)))) := by
    simp only [deriveValue, propKey, Option.getD, hss, hsum, hsos, hc]
    rw [hdiv t, hdiv s]
    rw [show (JsNum.fin (s / c)).mul (.fin (s / c)) = .fin (s / c * (s / c)) by
      simp [JsNum.mul, qmul_eq]]
    rw [show (JsNum.fin (t / c)).sub (.fin (s / c * (s / c))) =
        .fin (t / c - s / c * (s / c)) by simp [JsNum.sub, JsNum.add, qadd_eq, qneg_eq]; ring]
  refine ⟨key, fun hneg => ?_⟩
  rw [key]
  simp only [JsNum.sqrtN, if_pos hneg]

/-- Claim C7 (amended) witness: at the concrete state `ssC7` the hypotheses
hold, the variance is negative, and the derived output is NaN. -/
theorem claim_C7_amended_witness :
    ((1 : ℚ) ≠ 0 ∧ ((1 : ℚ) / 1 - 2 / 1 * (2 / 1) < 0) ∧
      alookup mdC7.sources "s" = some ssC7) ∧
    deriveValue mdC7 ⟨.standardDeviation, some "s", none⟩ = .ok .nan :=
  ⟨⟨by norm_num, by norm_num, by decide⟩,
    (claim_C7_amended 1 2 1 "s" mdC7 ssC7 rfl (by norm_num) (by decide) rfl rfl).2
      (by norm_num)⟩

theorem sortEndpoints_congr_perm {eps₁ eps₂ : List ℚ} (h : eps₁.Perm eps₂) :
    sortEndpoints eps₁ = sortEndpoints eps₂ :=
  List.eq_of_perm_of_sorted
    ((List.perm_insertionSort strLeQ eps₁).trans
      (h.trans (List.perm_insertionSort strLeQ eps₂).symm))
    (List.sorted_insertionSort strLeQ eps₁)
    (List.sorted_insertionSort strLeQ eps₂)

/-- Claim C6: bucket assignment is invariant under reordering the supplied
breakpoints — in particular the label always equals the label for the
ascending-sorted breakpoint sequence (the implementation sorts internally), it
is a total function producing some label for every input, and e.g. `[10, 2]`
behaves identically to `[2, 10]`. -/
theorem claim_C6 :
    (∀ (r : Rec) (k : String) (eps₁ eps₂ : List ℚ), eps₁.Perm eps₂ →
      getFieldHashKey r k (some eps₁) = getFieldHashKey r k (some eps₂)) ∧
    (∀ (r : Rec) (k : String) (eps : List ℚ),
      getFieldHashKey r k (some eps) =
        getFieldHashKey r k (some (List.insertionSort (· ≤ ·) eps))) ∧
    (∀ (r : Rec) (k : String),
      getFieldHashKey r k (some [10, 2]) = getFieldHashKey r k (some [2, 10])) ∧
    (∀ (r : Rec) (k : String) (eps : List ℚ), ∃ label : String,
      getFieldHashKey r k (some eps) = .str label) := by
  have hcongr : ∀ (r : Rec) (k : String) (eps₁ eps₂ : List ℚ), eps₁.Perm eps₂ →
      getFieldHashKey r k (some eps₁) = getFieldHashKey r k (some eps₂) := by
    intro r k eps₁ eps₂ h
    simp only [getFieldHashKey]
    rw [sortEndpoints_congr_perm h]
  refine ⟨hcongr, ?_, ?_, fun r k eps => ⟨_, rfl⟩⟩
  · intro r k eps
    exact hcongr r k _ _ (List.perm_insertionSort (· ≤ ·) eps).symm
  · intro r k
    exact hcongr r k _ _ (by decide)

/-- Claim C6 witness: the permutation clause at the concrete pair
`[10, 2]` / `[2, 10]`. -/
theorem claim_C6_witness :
    ([10, 2] : List ℚ).Perm [2, 10] ∧
    getFieldHashKey ⟨none, [("p", .num (.fin 5))]⟩ "p" (some [10, 2]) =
      getFieldHashKey ⟨none, [("p", .num (.fin 5))]⟩ "p" (some [2, 10]) :=
  ⟨by decide, claim_C6.1 ⟨none, [("p", .num (.fin 5))]⟩ "p" [10, 2] [2, 10] (by decide)⟩

theorem mem_of_getLastQ : ∀ (l : List ℚ) (b : ℚ), l.getLast? = some b → b ∈ l := by
  intro l
  induction l with
  | nil => intro b h; cases h
  | cons a rest ih =>
    intro b h
    cases rest with
    | nil =>
      simp only [List.getLast?_singleton, Option.some.injEq] at h
      simp [h]
    | cons c t =>
      rw [List.getLast?_cons_cons] at h
      exact List.mem_cons_of_mem a (ih b h)

theorem pairwise_le_getLast : ∀ (eps : List ℚ), eps.Pairwise (· < ·) →
    ∀ b, eps.getLast? = some b → ∀ x ∈ eps, x ≤ b := by
  intro eps
  induction eps with
  | nil => intro _ b h; cases h
  | cons a rest ih =>
    intro hpw b hlast x hx
    cases rest with
    | nil =>
      simp only [List.getLast?_singleton, Option.some.injEq] at hlast
      rcases List.mem_singleton.mp hx with rfl
      exact le_of_eq hlast
    | cons c t =>
      rw [List.getLast?_cons_cons] at hlast
      have hbmem : b ∈ c :: t := mem_of_getLastQ _ _ hlast
      rcases List.mem_cons.mp hx with rfl | hx'
      · exact le_of_lt ((List.pairwise_cons.mp hpw).1 b hbmem)
      · exact ih (List.pairwise_cons.mp hpw).2 b hlast x hx'

theorem leb_fin_false {v b : ℚ} (h : b < v) :
    JsNum.leb (toNum (.num (.fin v))) (.fin b) = false := by
  simp [toNum, JsNum.leb, not_le.mpr h]

theorem leb_fin_true {v b : ℚ} (h : v ≤ b) :
    JsNum.leb (toNum (.num (.fin v))) (.fin b) = true := by
  simp [toNum, JsNum.leb, h]

theorem bucketLoop_gt_all (v : ℚ) :
    ∀ (eps : List ℚ) (p : ℚ), (∀ b ∈ eps, b < v) →
      bucketLoop (.num (.fin v)) (some p) eps = ratToStr (eps.getLastD p) ++ "+" := by
  intro eps
  induction eps with
  | nil => intro p _; rfl
  | cons b rest ih =>
    intro p hall
    have hb : b < v := hall b (List.mem_cons_self b rest)
    rw [bucketLoop, leb_fin_false hb]
    simp only [Bool.false_eq_true, if_false, List.getLastD_cons]
    exact ih b (fun x hx => hall x (List.mem_cons_of_mem b hx))

theorem bucketLoop_mem_pair (v : ℚ) :
    ∀ (eps : List ℚ), eps.Pairwise (· < ·) →
      ∀ (p₁ p₂ : ℚ), (p₁, p₂) ∈ eps.zip eps.tail → p₁ < v → v ≤ p₂ →
      ∀ (prev : Option ℚ),
        bucketLoop (.num (.fin v)) prev eps = ratToStr p₁ ++ "-" ++ ratToStr p₂ := by
  intro eps
  induction eps with
  | nil => intro _ p₁ p₂ hmem; simp at hmem
  | cons b rest ih =>
    intro hpw p₁ p₂ hmem h1 h2 prev
    cases rest with
    | nil => simp at hmem
    | cons b₂ rest₂ =>
      simp only [List.tail_cons, List.zip_cons_cons] at hmem
      rcases List.mem_cons.mp hmem with heq | hmem'
      · obtain ⟨rfl, rfl⟩ := Prod.mk.injEq .. |>.mp heq
        cases prev <;>
          · rw [bucketLoop, leb_fin_false h1]
            simp only [Bool.false_eq_true, if_false]
            rw [bucketLoop, leb_fin_true h2]
            simp
      · have hp₁ : p₁ ∈ b₂ :: rest₂ :=
          (List.mem_zip (by simpa using hmem')).1
        have hb : b < p₁ := (List.pairwise_cons.mp hpw).1 p₁ hp₁
        have hrec := ih (List.pairwise_cons.mp hpw).2 p₁ p₂ (by simpa using hmem') h1 h2 (some b)
        cases prev <;>
          · rw [bucketLoop, leb_fin_false (hb.trans h1)]
            simp only [Bool.false_eq_true, if_false]
            exact hrec

/-- Claim C3 (counterexample): the breakpoints are sorted *as strings* before
assignment, so even for the ascending sequence `[2, 10]` (rearranged to
`[10, 2]` because `"10" < "2"`) the value 2 — equal to the first breakpoint —
is labelled `"<=10"` instead of the claimed `"<=2"`. -/
theorem claim_C3_cex :
    getFieldHashKey ⟨none, [("p", .num (.fin 2))]⟩ "p" (some [2, 10]) = .str "<=10" ∧
    JsVal.str "<=10" ≠ .str "<=2" ∧ ((2 : ℚ) < 10) := by
  exact ⟨by decide, by decide, by norm_num⟩

/-- Claim C3 (amended): for ascending breakpoint sequences whose decimal-string
order coincides with their numeric order (such as `[0, 10, 20]`), the
lower-inclusive tie-break contract holds in the BigNumber variant (the variant
the repository's test suite runs): `v ≤ b₀` gives `"<=b₀"`, `bᵢ < v ≤ bᵢ₊₁`
gives `"bᵢ-bᵢ₊₁"`, `v > b_last` gives `"b_last+"`; in particular with
`[0, 10, 20]` the value 0 is labelled `"<=0"` and the value 10 — exactly on a
breakpoint — falls in the lower bucket `"0-10"`. -/
theorem claim_C3_amended (eps : List ℚ) (r : Rec) (k : String) (v : ℚ)
    (hstr : List.Sorted strLeQ eps)
    (hasc : eps.Pairwise (· < ·))
    (hv : r.get k = .num (.fin v)) :
    (∀ b rest, eps = b :: rest → v ≤ b →
      getFieldHashKey r k (some eps) = .str ("<=" ++ ratToStr b)) ∧
    (∀ p₁ p₂, (p₁, p₂) ∈ eps.zip eps.tail → p₁ < v → v ≤ p₂ →
      getFieldHashKey r k (some eps) = .str (ratToStr p₁ ++ "-" ++ ratToStr p₂)) ∧
    (∀ b, eps.getLast? = some b → b < v →
      getFieldHashKey r k (some eps) = .str (ratToStr b ++ "+")) ∧
    (getFieldHashKey ⟨none, [("p", .num (.fin 0))]⟩ "p" (some [0, 10, 20]) = .str "<=0" ∧
     getFieldHashKey ⟨none, [("p", .num (.fin 10))]⟩ "p" (some [0, 10, 20]) = .str "0-10") := by
  have hkey : getFieldHashKey r k (some eps) =
      .str (bucketLoop (.num (.fin v)) none eps) := by
    simp only [getFieldHashKey, sortEndpoints, hstr.insertionSort_eq, Rec.get] at *
    rw [← hv]
  refine ⟨?_, ?_, ?_, by decide, by decide⟩
  · rintro b rest rfl hle
    rw [hkey, bucketLoop, leb_fin_true hle]
    simp
  · intro p₁ p₂ hmem h1 h2
    rw [hkey, bucketLoop_mem_pair v eps hasc p₁ p₂ hmem h1 h2 none]
  · intro b hlast hbv
    cases eps with
    | nil => cases hlast
    | cons b₀ rest =>
      have hb₀ : b₀ < v := by
        refine lt_of_le_of_lt ?_ hbv
        exact pairwise_le_getLast _ hasc b hlast b₀ (List.mem_cons_self b₀ rest)
      rw [hkey, bucketLoop, leb_fin_false hb₀]
      simp only [Bool.false_eq_true, if_false]
      rw [bucketLoop_gt_all v rest b₀ (fun x hx =>
        lt_of_le_of_lt
          (pairwise_le_getLast _ hasc b hlast x (List.mem_cons_of_mem b₀ hx)) hbv)]
      congr 1
      cases rest with
      | nil =>
        simp only [List.getLastD_nil]
        simp only [List.getLast?_singleton, Option.some.injEq] at hlast
        rw [hlast]
      | cons c t =>
        rw [List.getLast?_cons_cons] at hlast
        rw [List.getLastD_eq_getLast?, hlast]
        rfl

/-- Claim C3 (amended) witness: at `[0, 10, 20]` (ascending both numerically
and as strings) the value 10 receives the lower bucket label `"0-10"`. -/
theorem claim_C3_amended_witness :
    (List.Sorted strLeQ [0, 10, 20] ∧ ([0, 10, 20] : List ℚ).Pairwise (· < ·) ∧
      ((0 : ℚ), (10 : ℚ)) ∈ ([0, 10, 20] : List ℚ).zip ([0, 10, 20] : List ℚ).tail ∧
      (0 : ℚ) < 10 ∧ (10 : ℚ) ≤ 10) ∧
    getFieldHashKey ⟨none, [("p", .num (.fin 10))]⟩ "p" (some [0, 10, 20]) =
      .str (ratToStr 0 ++ "-" ++ ratToStr 10) :=
  ⟨⟨by decide, by decide, by decide, by norm_num, by norm_num⟩,
    (claim_C3_amended [0, 10, 20] ⟨none, [("p", .num (.fin 10))]⟩ "p" 10
      (by decide) (by decide) rfl).2.1 0 10 (by decide) (by norm_num) (by norm_num)⟩

theorem mapM_tag_mem (g : Rec → Except JsError (List JsVal)) :
    ∀ (recs : List Rec) (tagged : List (Rec × List JsVal)),
      recs.mapM (fun r => do
        let ks ← g r
        pure (r, ks)) = .ok tagged →
      ∀ p ∈ tagged, g p.1 = .ok p.2 := by
  intro recs
  induction recs with
  | nil =>
    intro tagged h p hp
    rw [List.mapM_nil] at h
    rw [show (pure [] : Except JsError (List (Rec × List JsVal))) = .ok [] from rfl] at h
    injection h with h'
    subst h'
    cases hp
  | cons r rest ih =>
    intro tagged h p hp
    simp only [List.mapM_cons] at h
    cases hg : g r with
    | error e =>
      rw [hg, except_bind_err, except_bind_err] at h
      cases h
    | ok ks =>
      rw [hg, except_bind_ok] at h
      rw [show (pure (r, ks) : Except JsError (Rec × List JsVal)) = .ok (r, ks) from rfl,
        except_bind_ok] at h
      cases hm : rest.mapM (fun r => do
          let ks ← g r
          pure (r, ks)) with
      | error e =>
        rw [hm, except_bind_err] at h
        cases h
      | ok t' =>
        rw [hm, except_bind_ok] at h
        rw [show (pure ((r, ks) :: t') : Except JsError (List (Rec × List JsVal)))
          = .ok ((r, ks) :: t') from rfl] at h
        injection h with h'
        subst h'
        rcases List.mem_cons.mp hp with rfl | hp'
        · exact hg
        · exact ih t' hm p hp'

def P8cex : Params :=
  ⟨["price"], [("price", [-10, -5])], [("c", ⟨.count, none, none⟩)], some ["price"]⟩

def X8cex : List Rec :=
  [⟨none, [("price", .num (.fin (-11)))]⟩,
   ⟨none, [("price", .num (.fin (-7)))]⟩,
   ⟨none, [("price", .num (.fin (-1)))]⟩]

/-- Claim C8 (counterexample): with the negative breakpoints `[-10, -5]` the
groups come out in the order `"<=-10"`, `"-5+"`, `"-10--5"` — *not* ascending by
the true lower bounds (−∞, −5, −10) — because `parseBucketString` splits the
label on *every* dash: `"-10--5"` parses to `[0, 10, 0, 5]`, not to the defining
interval `[-10, -5]`, so the parse is not lossless and the sort key of that
bucket is `0` rather than `-10`; the `"<=-10"` label parses to `[-∞, NaN]`
(the upper bound is lost too, since only the `<` is stripped before
`Number("=-10")`). -/
theorem claim_C8_cex :
    ∃ res, aggregate P8cex false X8cex = .ok res ∧
      res.aggregatedRecords.map (fun rr => rr.get "price") =
        [.str "<=-10", .str "-5+", .str "-10--5"] ∧
      parseBucketString "-10--5" =
        [JsNum.fin 0, JsNum.fin 10, JsNum.fin 0, JsNum.fin 5] ∧
      parseBucketString "-10--5" ≠ [JsNum.fin (-10), JsNum.fin (-5)] ∧
      parseBucketString "<=-10" = [JsNum.ninf, JsNum.nan] ∧
      parseBucketString "-5+" = [JsNum.fin (-5), JsNum.inf] := by
  refine ⟨(aggregate P8cex false X8cex).toOption.getD ⟨[], none⟩, ?_, ?_, ?_, ?_, ?_, ?_⟩
    <;> decide

/-- Claim C8 (amended): restricted to breakpoint sequences of non-negative
integers that are ascending both numerically and as decimal strings, the
bucket labels are losslessly parseable back into their defining interval:
`"<=b₀"` parses to a list starting with −∞, `"bᵢ-bᵢ₊₁"` parses to exactly
`[bᵢ, bᵢ₊₁]` and `"b_last+"` to `[b_last, +∞]`, so the first parsed component
is the bucket's lower bound (−∞ for the open lower bucket).  Independently,
whenever the sorting pass `sortRecords` succeeds, its output is ordered
ascending (lexicographically, per `keyListLe`) by the per-sort-key criteria
`iterKeyFor` — which for a bucketed key is the first component of
`parseBucketString` of the label, i.e. the (possibly mis-parsed, see the
counterexample) lower bound — not by the raw label strings. -/
theorem claim_C8_amended (eps : List ℚ) (r : Rec) (k : String) (v : ℚ)
    (hstr : List.Sorted strLeQ eps)
    (hasc : eps.Pairwise (· < ·))
    (hnat : ∀ b ∈ eps, b.den = 1 ∧ 0 ≤ b.num)
    (hv : r.get k = .num (.fin v)) :
    (∀ b rest, eps = b :: rest → v ≤ b → ∀ lbl,
      getFieldHashKey r k (some eps) = .str lbl →
      (parseBucketString lbl).headD .nan = .ninf) ∧
    (∀ p₁ p₂, (p₁, p₂) ∈ eps.zip eps.tail → p₁ < v → v ≤ p₂ → ∀ lbl,
      getFieldHashKey r k (some eps) = .str lbl →
      parseBucketString lbl = [.fin p₁, .fin p₂]) ∧
    (∀ b, eps.getLast? = some b → b < v → ∀ lbl,
      getFieldHashKey r k (some eps) = .str lbl →
      parseBucketString lbl = [.fin b, .inf]) ∧
    (∀ (P : Params) (keys : List String) (recs out : List Rec),
      sortRecords P keys recs = .ok out →
      out.Pairwise (fun a b : Rec => ∀ ka kb,
        keys.mapM (fun kk => iterKeyFor P kk a) = .ok ka →
        keys.mapM (fun kk => iterKeyFor P kk b) = .ok kb →
        keyListLe ka kb = true)) := by
  have hkey : getFieldHashKey r k (some eps) =
      .str (bucketLoop (.num (.fin v)) none eps) := by
    simp only [getFieldHashKey, sortEndpoints, hstr.insertionSort_eq, Rec.get] at *
    rw [← hv]
  refine ⟨?_, ?_, ?_, ?_⟩
  · rintro b rest rfl hle lbl hlbl
    rw [hkey] at hlbl
    have hlab : bucketLoop (.num (.fin v)) none (b :: rest) = "<=" ++ ratToStr b := by
      rw [bucketLoop, leb_fin_true hle]
      simp
    rw [hlab] at hlbl
    rw [← JsVal.str.inj hlbl]
    exact parse_label_first b
  · intro p₁ p₂ hmem h1 h2 lbl hlbl
    rw [hkey, bucketLoop_mem_pair v eps hasc p₁ p₂ hmem h1 h2 none] at hlbl
    rw [← JsVal.str.inj hlbl]
    have hm1 := hnat p₁ (List.of_mem_zip hmem).1
    have hm2 := hnat p₂ (List.mem_of_mem_tail (List.of_mem_zip hmem).2)
    exact parse_label_mid hm1.1 hm1.2 hm2.1 hm2.2
  · intro b hlast hbv lbl hlbl
    cases eps with
    | nil => cases hlast
    | cons b₀ rest =>
      have hb₀ : b₀ < v := lt_of_le_of_lt
        (pairwise_le_getLast _ hasc b hlast b₀ (List.mem_cons_self b₀ rest)) hbv
      have hlab : bucketLoop (.num (.fin v)) none (b₀ :: rest) = ratToStr b ++ "+" := by
        rw [bucketLoop, leb_fin_false hb₀]
        simp only [Bool.false_eq_true, if_false]
        rw [bucketLoop_gt_all v rest b₀ (fun x hx =>
          lt_of_le_of_lt
            (pairwise_le_getLast _ hasc b hlast x (List.mem_cons_of_mem b₀ hx)) hbv)]
        have hgl : rest.getLastD b₀ = b := by
          cases rest with
          | nil =>
            simp only [List.getLastD_nil]
            simpa using hlast
          | cons c t =>
            rw [List.getLast?_cons_cons] at hlast
            rw [List.getLastD_eq_getLast?, hlast]
            rfl
        rw [hgl]
      rw [hkey, hlab] at hlbl
      rw [← JsVal.str.inj hlbl]
      have hmb := hnat b (mem_of_getLastQ _ _ hlast)
      exact parse_label_top hmb.1 hmb.2
  · intro P keys recs out hso
    have hexpand : sortRecords P keys recs =
        Bind.bind (recs.mapM (fun rr => do
          let ks ← keys.mapM (fun kk => iterKeyFor P kk rr)
          pure (rr, ks)))
          (fun tagged => pure ((List.insertionSort
            (fun a b : Rec × List JsVal => keyListLe a.2 b.2 = true) tagged).map
              (·.1))) := rfl
    cases hm : recs.mapM (fun rr => do
        let ks ← keys.mapM (fun kk => iterKeyFor P kk rr)
        pure (rr, ks)) with
    | error e =>
      rw [hexpand, hm, except_bind_err] at hso
      cases hso
    | ok tagged =>
      rw [hexpand, hm, except_bind_ok] at hso
      rw [show (pure ((List.insertionSort
          (fun a b : Rec × List JsVal => keyListLe a.2 b.2 = true) tagged).map (·.1))
          : Except JsError (List Rec)) = .ok ((List.insertionSort
          (fun a b : Rec × List JsVal => keyListLe a.2 b.2 = true) tagged).map (·.1))
        from rfl] at hso
      injection hso with hso'
      subst hso'
      haveI : IsTotal (Rec × List JsVal) (fun a b => keyListLe a.2 b.2 = true) :=
        ⟨fun a b => keyListLe_total a.2 b.2⟩
      haveI : IsTrans (Rec × List JsVal) (fun a b => keyListLe a.2 b.2 = true) :=
        ⟨fun a b c => keyListLe_trans a.2 b.2 c.2⟩
      have hsort := List.sorted_insertionSort
        (fun a b : Rec × List JsVal => keyListLe a.2 b.2 = true) tagged
      have hperm := List.perm_insertionSort
        (fun a b : Rec × List JsVal => keyListLe a.2 b.2 = true) tagged
      rw [List.pairwise_map]
      refine List.Pairwise.imp_of_mem ?_ hsort
      intro p q hp hq hrel ka kb hka hkb
      have hp' : p ∈ tagged := hperm.mem_iff.mp hp
      have hq' : q ∈ tagged := hperm.mem_iff.mp hq
      have h1 := mapM_tag_mem (fun rr => keys.mapM (fun kk => iterKeyFor P kk rr))
        recs tagged hm p hp'
      have h2 := mapM_tag_mem (fun rr => keys.mapM (fun kk => iterKeyFor P kk rr))
        recs tagged hm q hq'
      have hka' : ka = p.2 := Except.ok.inj (hka.symm.trans h1)
      have hkb' : kb = q.2 := Except.ok.inj (hkb.symm.trans h2)
      rw [hka', hkb']
      exact hrel

/-- Claim C8 (amended) witness: with the breakpoints `[0, 10, 20]` the value 15
falls in the bucket labelled `"10-20"`, and that label parses back exactly to
its defining interval `[10, 20]`. -/
theorem claim_C8_amended_witness :
    (List.Sorted strLeQ [0, 10, 20] ∧ ([0, 10, 20] : List ℚ).Pairwise (· < ·) ∧
      (∀ b ∈ ([0, 10, 20] : List ℚ), b.den = 1 ∧ 0 ≤ b.num) ∧
      ((10 : ℚ), (20 : ℚ)) ∈ ([0, 10, 20] : List ℚ).zip ([0, 10, 20] : List ℚ).tail ∧
      (10 : ℚ) < 15 ∧ (15 : ℚ) ≤ 20 ∧
      getFieldHashKey ⟨none, [("p", .num (.fin 15))]⟩ "p" (some [0, 10, 20]) =
        .str "10-20") ∧
    parseBucketString "10-20" = [JsNum.fin 10, JsNum.fin 20] :=
  ⟨⟨by decide, by decide, by decide, by decide, by norm_num, by norm_num, by decide⟩,
    (claim_C8_amended [0, 10, 20] ⟨none, [("p", .num (.fin 15))]⟩ "p" 15
      (by decide) (by decide) (by decide) rfl).2.1 10 20 (by decide) (by norm_num)
      (by norm_num) "10-20" (by decide)⟩

/-- Claim C9: group identity is the separator-less concatenation of the
per-match-key labels — `hashKeyOf` is literally `join("")` of the per-key label
strings, so two records share a group precisely when those concatenations
coincide; consequently the records `{k1:"a", k2:"bc"}` and `{k1:"ab", k2:"c"}`,
whose individual key values differ, are merged into a single output group of
count 2. -/
theorem claim_C9 :
    (∀ (P : Params) (r : Rec),
      hashKeyOf P r =
        String.join (P.matchKeys.map
          (fun k => toJoinStr (getFieldHashKey r k (alookup P.buckets k))))) ∧
    (let P9 : Params := ⟨["k1", "k2"], [], [("c", ⟨.count, none, none⟩)], none⟩
     let recA : Rec := ⟨none, [("k1", .str "a"), ("k2", .str "bc")]⟩
     let recB : Rec := ⟨none, [("k1", .str "ab"), ("k2", .str "c")]⟩
     recA.get "k1" ≠ recB.get "k1" ∧
     hashKeyOf P9 recA = hashKeyOf P9 recB ∧
     aggregateInternal P9 false [recA, recB] =
       .ok [⟨some ⟨.fin 2, ["k1", "k2"], []⟩,
         [("k1", .str "a"), ("k2", .str "bc"), ("c", .num (.fin 2))]⟩]) := by
  exact ⟨fun P r => rfl, by decide, by decide, by decide⟩

end StatAgg
